import Mathlib

/-!
# Title parser (`src/parser.js`): shallow embedding and verified properties

The JavaScript class `TitleParser` turns a release-listing title into a record.
Every method is a pure function of its string argument, built from regular
expression searches and replacements.  The embedding has three layers:

* JavaScript strings are lists of UTF-16 code units (`JSString`);
* the regular expressions of the source are values of a small syntax tree `Re`,
  executed by a backtracking matcher `run` that lists the possible end states in
  the priority order of the ECMAScript matcher (greedy quantifiers, ordered
  alternation), so that the head of the list is the match JavaScript reports;
* the methods of `TitleParser` are transcribed one by one on top of these.

A JavaScript number is a double.  The integers read by `parseInt` are modelled
by natural numbers: the natural number is the exact value as long as it is below
`2 ^ 53`, and statements about these values are made for that range.  The
confidence score is a sum of doubles: each double is modelled by the rational it
denotes, and each addition rounds the exact sum to the nearest double
(`toDouble`, `addDouble`).  The one operation of the source that can raise an
exception on a string input is `Array.prototype.push` in the season loop: under
V8 (Node.js) an array filled by `push` grows up to 112813858 elements and the
next `push` raises `RangeError: Invalid array length`; it is modelled
(`pushLimit`).
-/

namespace TitleParser

/-! ## Strings -/

/-- A JavaScript string, as its sequence of UTF-16 code units. -/
abbrev JSString := List Nat

/-- UTF-16 code units of one Unicode scalar value. -/
def codeUnits (n : Nat) : List Nat :=
  if n < 65536 then [n]
  else [55296 + (n - 65536) / 1024, 56320 + (n - 65536) % 1024]

/-- The JavaScript string written by a Lean string literal. -/
def str (s : String) : JSString :=
  s.toList.foldr (fun c acc => codeUnits c.toNat ++ acc) []

/-- ASCII decimal digit, the class `\d`. -/
def isDigit (c : Nat) : Bool := decide (48 ≤ c) && decide (c ≤ 57)

/-- ASCII lowercase letter `a-z`. -/
def isLower (c : Nat) : Bool := decide (97 ≤ c) && decide (c ≤ 122)

/-- ASCII uppercase letter `A-Z`. -/
def isUpper (c : Nat) : Bool := decide (65 ≤ c) && decide (c ≤ 90)

/-- Word character of a regular expression without the `u` flag: `[A-Za-z0-9_]`. -/
def isWordChar (c : Nat) : Bool := isLower c || isUpper c || isDigit c || c == 95

/-- ECMAScript white space and line terminators: the class `\s`, and what
`String.prototype.trim` strips. -/
def isSpace (c : Nat) : Bool :=
  (decide (9 ≤ c) && decide (c ≤ 13)) || c == 32 || c == 160 || c == 5760 ||
  (decide (8192 ≤ c) && decide (c ≤ 8202)) || c == 8232 || c == 8233 || c == 8239 ||
  c == 8287 || c == 12288 || c == 65279

/-- `String.prototype.trim`. -/
def trim (s : JSString) : JSString :=
  ((s.dropWhile isSpace).reverse.dropWhile isSpace).reverse

/-- Lowercase form of one code unit.  ASCII letters are folded; the two code
units outside ASCII whose Unicode lowercase form contains an ASCII letter are
mapped as Unicode prescribes (KELVIN SIGN to `k`, LATIN CAPITAL LETTER I WITH DOT
ABOVE to `i` followed by COMBINING DOT ABOVE).  Every other code unit outside
ASCII is kept: its lowercase form is again outside ASCII, and the program only
ever compares lowercased text with ASCII patterns. -/
def lowerUnit (c : Nat) : List Nat :=
  if isUpper c then [c + 32]
  else if c = 8490 then [107]
  else if c = 304 then [105, 775]
  else [c]

/-- `String.prototype.toLowerCase`. -/
def toLowerCase (s : JSString) : JSString :=
  s.foldr (fun c acc => lowerUnit c ++ acc) []

/-- Whether `needle` starts `hay`. -/
def startsWith : JSString → JSString → Bool
  | [], _ => true
  | _ :: _, [] => false
  | a :: as, b :: bs => a == b && startsWith as bs

/-- `hay.includes(needle)`: `needle` occurs in `hay` as a contiguous substring. -/
def includes (needle : JSString) : JSString → Bool
  | [] => startsWith needle []
  | c :: cs => startsWith needle (c :: cs) || includes needle cs

/-- `parseInt` on a string that starts with a run of decimal digits, which is
what every call site of the source passes (a `\d+` capture or a year match).
The JavaScript number is modelled by the natural number the digits denote
(exact below `2 ^ 53`). -/
def parseInt (s : JSString) : Nat :=
  (s.takeWhile isDigit).foldl (fun acc c => acc * 10 + (c - 48)) 0

/-! ## Regular expressions -/

/-- A pattern element that consumes exactly one code unit. -/
inductive Atom where
  /-- a literal code unit -/
  | chr (c : Nat)
  /-- a bracket class `[...]` (`neg` for `[^...]`) given by its ranges -/
  | cls (neg : Bool) (ranges : List (Nat × Nat))
  /-- the class `\d` -/
  | digit
  /-- the class `\s` -/
  | space

/-- `Canonicalize` of ECMAScript for a regular expression with the `i` flag and
without the `u` flag, on ASCII: lowercase letters are mapped to uppercase.  A code
unit outside ASCII never canonicalizes to an ASCII one, and every pattern
character of a case-insensitive expression of the source is ASCII. -/
def canon (c : Nat) : Nat := if isLower c then c - 32 else c

/-- Membership of `c` in the range `lo-hi`, up to case when `ic`. -/
def inRange (ic : Bool) (c : Nat) (r : Nat × Nat) : Bool :=
  (decide (r.1 ≤ c) && decide (c ≤ r.2)) ||
  (ic && isLower c && decide (r.1 ≤ c - 32) && decide (c - 32 ≤ r.2)) ||
  (ic && isUpper c && decide (r.1 ≤ c + 32) && decide (c + 32 ≤ r.2))

/-- Whether the atom accepts the code unit `c` (`ic` is the `i` flag). -/
def Atom.test (ic : Bool) : Atom → Nat → Bool
  | .chr p, c => if ic then canon c == canon p else c == p
  | .cls neg ranges, c => xor neg (ranges.any (inRange ic c))
  | .digit, c => isDigit c
  | .space, c => isSpace c

/-- Syntax of the regular expressions used by the source.  Quantifiers `*` and
`+` only ever apply to one-unit atoms there. -/
inductive Re where
  /-- the empty pattern -/
  | eps
  /-- one atom -/
  | one (a : Atom)
  /-- greedy `a*` -/
  | star (a : Atom)
  /-- the assertion `\b` -/
  | wordB
  /-- the assertion `^` -/
  | bos
  /-- the assertion `$` -/
  | eos
  /-- concatenation -/
  | seq (r₁ r₂ : Re)
  /-- ordered alternation `r₁|r₂` -/
  | alt (r₁ r₂ : Re)
  /-- greedy `r?` -/
  | opt (r : Re)
  /-- capture group number `n` -/
  | cap (n : Nat) (r : Re)

/-- A position of the matcher inside the subject string. -/
structure St where
  /-- index of the next code unit -/
  pos : Nat
  /-- the code unit just before the position, if any -/
  prev : Option Nat
  /-- the code units from the position on -/
  rest : JSString
  /-- captures recorded so far, most recent first -/
  caps : List (Nat × JSString)
deriving DecidableEq

/-- Whether an optional code unit is a word character (absent: no). -/
def isWordOpt : Option Nat → Bool
  | none => false
  | some c => isWordChar c

/-- End states of the greedy `a*`, longest first. -/
def starEnds (ic : Bool) (a : Atom) (caps : List (Nat × JSString)) :
    Nat → Option Nat → JSString → List St
  | pos, prev, [] => [⟨pos, prev, [], caps⟩]
  | pos, prev, c :: cs =>
    if a.test ic c then starEnds ic a caps (pos + 1) (some c) cs ++ [⟨pos, prev, c :: cs, caps⟩]
    else [⟨pos, prev, c :: cs, caps⟩]

/-- The backtracking matcher: all end states of `r` started in `s`, in the order
in which ECMAScript would try them. -/
def run (ic : Bool) : Re → St → List St
  | .eps, s => [s]
  | .one a, s =>
    match s.rest with
    | [] => []
    | c :: cs => if a.test ic c then [⟨s.pos + 1, some c, cs, s.caps⟩] else []
  | .star a, s => starEnds ic a s.caps s.pos s.prev s.rest
  | .wordB, s => if isWordOpt s.prev != isWordOpt s.rest.head? then [s] else []
  | .bos, s => if s.pos = 0 then [s] else []
  | .eos, s => if s.rest.isEmpty then [s] else []
  | .seq r₁ r₂, s => (run ic r₁ s).flatMap (run ic r₂)
  | .alt r₁ r₂, s => run ic r₁ s ++ run ic r₂ s
  | .opt r, s => run ic r s ++ [s]
  | .cap n r, s =>
    (run ic r s).map fun e => { e with caps := (n, s.rest.take (e.pos - s.pos)) :: e.caps }

/-- A successful match: start index, matched text, captures. -/
structure Match where
  /-- `match.index` -/
  index : Nat
  /-- `match[0]` -/
  text : JSString
  /-- the capture groups -/
  caps : List (Nat × JSString)
deriving DecidableEq

/-- `match[n]` for a group that took part in the match. -/
def Match.group (m : Match) (n : Nat) : JSString :=
  match m.caps.find? (fun p => p.1 == n) with
  | some p => p.2
  | none => []

/-- The match of `r` that starts exactly at the given position, if any. -/
def matchAt (ic : Bool) (r : Re) (pos : Nat) (prev : Option Nat) (rest : JSString) :
    Option Match :=
  match run ic r ⟨pos, prev, rest, []⟩ with
  | [] => none
  | e :: _ => some ⟨pos, rest.take (e.pos - pos), e.caps⟩

/-- Leftmost match from the given position on. -/
def searchFrom (ic : Bool) (r : Re) : Nat → Option Nat → JSString → Option Match
  | pos, prev, [] => matchAt ic r pos prev []
  | pos, prev, c :: cs =>
    match matchAt ic r pos prev (c :: cs) with
    | some m => some m
    | none => searchFrom ic r (pos + 1) (some c) cs

/-- `s.match(r)` / `r.exec(s)` for an expression without the `g` flag. -/
def exec (ic : Bool) (r : Re) (s : JSString) : Option Match := searchFrom ic r 0 none s

/-- `r.test(s)`. -/
def test (ic : Bool) (r : Re) (s : JSString) : Bool := (exec ic r s).isSome

/-- `s.replace(r, repl)` for an expression without the `g` flag. -/
def replaceFirst (ic : Bool) (r : Re) (repl : JSString) (s : JSString) : JSString :=
  match exec ic r s with
  | none => s
  | some m => s.take m.index ++ repl ++ s.drop (m.index + m.text.length)

/-- All matches of an expression with the `g` flag, left to right.  After a match
of length `k` the next search starts `k` units further (`skip` counts the units
still covered by the last match); after an empty match it starts one unit
further. -/
def scanAll (ic : Bool) (r : Re) : Nat → Option Nat → JSString → Nat → List Match
  | pos, prev, [], 0 => (matchAt ic r pos prev []).toList
  | _, _, [], _ + 1 => []
  | pos, _, c :: cs, skip + 1 => scanAll ic r (pos + 1) (some c) cs skip
  | pos, prev, c :: cs, 0 =>
    match matchAt ic r pos prev (c :: cs) with
    | some m => m :: scanAll ic r (pos + 1) (some c) cs (m.text.length - 1)
    | none => scanAll ic r (pos + 1) (some c) cs 0

/-- `s.match(r) || []` for an expression with the `g` flag: the matched texts. -/
def matchAll (ic : Bool) (r : Re) (s : JSString) : List JSString :=
  (scanAll ic r 0 none s 0).map (·.text)

/-- The scan behind `s.replace(r, f)` for an expression with the `g` flag: units
outside the matches are copied, each match is replaced by `f` of its text. -/
def replaceScan (ic : Bool) (r : Re) (f : JSString → JSString) :
    Nat → Option Nat → JSString → Nat → JSString
  | pos, prev, [], 0 =>
    match matchAt ic r pos prev [] with
    | some m => f m.text
    | none => []
  | _, _, [], _ + 1 => []
  | pos, _, c :: cs, skip + 1 => replaceScan ic r f (pos + 1) (some c) cs skip
  | pos, prev, c :: cs, 0 =>
    match matchAt ic r pos prev (c :: cs) with
    | some m =>
      f m.text ++
        (if m.text.length = 0 then c :: replaceScan ic r f (pos + 1) (some c) cs 0
         else replaceScan ic r f (pos + 1) (some c) cs (m.text.length - 1))
    | none => c :: replaceScan ic r f (pos + 1) (some c) cs 0

/-- `s.replace(r, f)` for an expression with the `g` flag. -/
def replaceAll (ic : Bool) (r : Re) (f : JSString → JSString) (s : JSString) : JSString :=
  replaceScan ic r f 0 none s 0

/-! ### Building expressions -/

/-- Concatenation of a list of expressions. -/
def seqs : List Re → Re
  | [] => .eps
  | [r] => r
  | r :: rs => .seq r (seqs rs)

/-- Ordered alternation of a list of expressions. -/
def alts : List Re → Re
  | [] => .eps
  | [r] => r
  | r :: rs => .alt r (alts rs)

/-- The literal text `s`. -/
def lit (s : String) : Re := seqs ((str s).map fun c => .one (.chr c))

/-- Greedy `a+`. -/
def plus (a : Atom) : Re := .seq (.one a) (.star a)

/-- Alternation of literal words, `(w₁|w₂|...)`. -/
def words (ws : List String) : Re := alts (ws.map lit)

/-! ## The parser -/

/-- The field `year` of the record: the sentinel `'unknown'` or an integer. -/
inductive YearField where
  | unknown
  | num (n : Nat)
deriving DecidableEq

/-- The field `season`: `null`, one integer, or the list built from a range. -/
inductive Season where
  | null
  | num (n : Nat)
  | list (l : List Nat)
deriving DecidableEq

/-- The field `part_added`: `false`, `true`, or an integer. -/
inductive PartAdded where
  | no
  | yes
  | num (n : Nat)
deriving DecidableEq

/-- The object built by `extractMetadata`. -/
structure Metadata where
  season : Season
  episode : Option Nat
  part : Option Nat
  volume : Option Nat
  qualities : List JSString
  languages : List JSString
  platform : JSString
deriving DecidableEq

/-- The object built by `extractUpdateInfo` (`complete` is `null` or `true`). -/
structure UpdateInfo where
  episode_added : Option Nat
  volume_added : Option Nat
  part_added : PartAdded
  complete : Option Bool
deriving DecidableEq

/-- The record returned by `parse`. -/
structure Record where
  display_title : JSString
  machine_title : JSString
  canonical_key : JSString
  type : JSString
  year : YearField
  season : Season
  part : Option Nat
  volume : Option Nat
  episode : Option Nat
  update_info : UpdateInfo
  languages : List JSString
  qualities : List JSString
  platform : JSString
  confidence : ℚ
deriving DecidableEq

/-- Outcome of a call of `parse`: `null`, a record, the `RangeError` raised by
`push` in the season loop of `extractMetadata`, or no result because the cleanup
loop of `extractDisplayTitle` did not finish within the steps allotted to it by
the embedding. -/
inductive ParseResult where
  | null
  | record (r : Record)
  | rangeError
  | unfinished
deriving DecidableEq

/-- `this.stopwords` (kept by the source; `constructMachineTitle` repeats the
words in its expression). -/
def stopwords : List String := ["the", "a", "an"]

/-- `this.romanMap`, with the values as the strings the replacement inserts. -/
def romanMap : List (String × String) :=
  [("i", "1"), ("ii", "2"), ("iii", "3"), ("iv", "4"), ("v", "5"),
   ("vi", "6"), ("vii", "7"), ("viii", "8"), ("ix", "9"), ("x", "10")]

/-- `this.platformKeywords`. -/
def platformKeywords : List String :=
  ["netflix", "amazon", "hulu", "disney", "hotstar", "zee5", "sony",
   "appletv", "hbo", "prime", "original", "series"]

/-- `/\b(season|s\d+|ep|episode|series)\b/i` -/
def seriesKeywords : Re :=
  seqs [.wordB,
    .cap 1 (alts [lit "season", .seq (lit "s") (plus .digit), lit "ep", lit "episode",
      lit "series"]),
    .wordB]

/-- `classifyType(title)`. -/
def classifyType (title : JSString) : JSString :=
  if test true seriesKeywords title then str "series" else str "movie"

/-- `/\b(19|20)\d{2}\b/g` -/
def yearRegex : Re :=
  seqs [.wordB, .cap 1 (words ["19", "20"]), .one .digit, .one .digit, .wordB]

/-- `extractYear(title)`: the first match, or the string `'unknown'`. -/
def extractYear (title : JSString) : JSString :=
  match matchAll false yearRegex title with
  | m :: _ => m
  | [] => str "unknown"

/-- The four cutoff patterns of `extractDisplayTitle`, each with its `i` flag:
`/\(\s*(19|20)\d{2}\s*\)/`, `/\[\s*(19|20)\d{2}\s*\]/`, `/\b(season|s\d+)\b/i`,
`/\b(episode|ep\s*\d+)\b/i`. -/
def cutoffPatterns : List (Bool × Re) :=
  [(false, seqs [lit "(", .star .space, .cap 1 (words ["19", "20"]), .one .digit, .one .digit,
      .star .space, lit ")"]),
   (false, seqs [lit "[", .star .space, .cap 1 (words ["19", "20"]), .one .digit, .one .digit,
      .star .space, lit "]"]),
   (true, seqs [.wordB, .cap 1 (alts [lit "season", .seq (lit "s") (plus .digit)]), .wordB]),
   (true, seqs [.wordB,
      .cap 1 (alts [lit "episode", seqs [lit "ep", .star .space, plus .digit]]), .wordB])]

/-- The `forEach` over the cutoff patterns: the least match index, starting from
`title.length`. -/
def cutoffIndex (title : JSString) : Nat :=
  cutoffPatterns.foldl
    (fun cut p =>
      match exec p.1 p.2 title with
      | some m => if m.index < cut then m.index else cut
      | none => cut)
    title.length

/-- `/^download\s+/i` -/
def downloadPrefix : Re := seqs [.bos, lit "download", plus .space]

/-- `/[-|:–—]\s*$/` -/
def trailingSeparator : Re :=
  seqs [.one (.cls false [(45, 45), (124, 124), (58, 58), (8211, 8211), (8212, 8212)]),
    .star .space, .eos]

/-- The `platformRegex` of the cleanup loop, flag `i`:
`\s*[-|]?\s*\b(netflix|amazon|hulu|disney|hotstar|zee5|sony|appletv|hbo|prime)`
followed by `\s*(original|series|web series|tv show)?\s*$`. -/
def platformRegex : Re :=
  seqs [.star .space, .opt (.one (.cls false [(45, 45), (124, 124)])), .star .space, .wordB,
    .cap 1 (words ["netflix", "amazon", "hulu", "disney", "hotstar", "zee5", "sony", "appletv",
      "hbo", "prime"]),
    .star .space,
    .opt (.cap 2 (words ["original", "series", "web series", "tv show"])),
    .star .space, .eos]

/-- `/[\(\[]$/` -/
def trailingOpen : Re := seqs [.one (.cls false [(40, 40), (91, 91)]), .eos]

/-- One pass of the body of the cleanup loop. -/
def cleanupPass (s : JSString) : JSString :=
  let s₁ := trim (replaceFirst false trailingSeparator [] s)
  let s₂ := trim (replaceFirst true platformRegex [] s₁)
  trim (replaceFirst false trailingOpen [] s₂)

/-- The loop `while (cleanTitle !== prev) { prev = cleanTitle; ... }` run for at
most `fuel` tests of its condition; `none` when they do not suffice. -/
def cleanupLoop : Nat → JSString → JSString → Option JSString
  | 0, _, _ => none
  | fuel + 1, prev, cleanTitle =>
    if cleanTitle = prev then some cleanTitle
    else cleanupLoop fuel cleanTitle (cleanupPass cleanTitle)

/-- `extractDisplayTitle(title, type)`.  The loop is given `length + 2` tests of
its condition (`cleanupLoop_terminates` shows that this always suffices). -/
def extractDisplayTitle (title : JSString) (_type : JSString) : Option JSString :=
  let cleanTitle := trim (title.take (cutoffIndex title))
  let cleanTitle := replaceFirst true downloadPrefix [] cleanTitle
  cleanupLoop (cleanTitle.length + 2) [] cleanTitle

/-- `/\b(i|ii|iii|iv|v|vi|vii|viii|ix|x)\b/g` -/
def romanRegex : Re :=
  seqs [.wordB, .cap 1 (words ["i", "ii", "iii", "iv", "v", "vi", "vii", "viii", "ix", "x"]),
    .wordB]

/-- The replacement callback `(match) => this.romanMap[match]`; the number is
inserted as its decimal string.  (A text that is no key cannot be matched; the
string `undefined` that JavaScript would insert is kept for completeness.) -/
def romanValue (m : JSString) : JSString :=
  match romanMap.find? (fun p => str p.1 == m) with
  | some p => str p.2
  | none => str "undefined"

/-- `/\b(the|a|an)\b/g` -/
def stopwordRegex : Re := seqs [.wordB, .cap 1 (words ["the", "a", "an"]), .wordB]

/-- `/[^a-z0-9]/g` -/
def nonAlnumRegex : Re := .one (.cls true [(97, 122), (48, 57)])

/-- `constructMachineTitle(displayTitle)`. -/
def constructMachineTitle (displayTitle : JSString) : JSString :=
  let text := toLowerCase displayTitle
  let text := replaceAll false romanRegex romanValue text
  let text := replaceAll false stopwordRegex (fun _ => []) text
  replaceAll false nonAlnumRegex (fun _ => []) text

/-- `/\b(?:season|s)\s*(\d+)\s*-\s*(\d+)\b/i` -/
def seasonRangeRegex : Re :=
  seqs [.wordB, words ["season", "s"], .star .space, .cap 1 (plus .digit), .star .space,
    lit "-", .star .space, .cap 2 (plus .digit), .wordB]

/-- `/\b(?:season|s)\s*(\d+)\b/i` -/
def seasonSingleRegex : Re :=
  seqs [.wordB, words ["season", "s"], .star .space, .cap 1 (plus .digit), .wordB]

/-- The optional separator `[-.]?` of the numbered patterns. -/
def dashOrDot : Re := .opt (.one (.cls false [(45, 45), (46, 46)]))

/-- `/\b(?:episode|ep)\s*[-.]?\s*(\d+)\b/i` -/
def epRegex : Re :=
  seqs [.wordB, words ["episode", "ep"], .star .space, dashOrDot, .star .space,
    .cap 1 (plus .digit), .wordB]

/-- `/\bpart\s*[-.]?\s*(\d+)\b/i` -/
def partRegex : Re :=
  seqs [.wordB, lit "part", .star .space, dashOrDot, .star .space, .cap 1 (plus .digit), .wordB]

/-- `/\b(?:volume|vol)\s*[-.]?\s*(\d+)\b/i` -/
def volRegex : Re :=
  seqs [.wordB, words ["volume", "vol"], .star .space, dashOrDot, .star .space,
    .cap 1 (plus .digit), .wordB]

/-- The greatest number of elements of an array that is filled by `push` alone
under V8 (Node.js).  When a `push` finds the backing store full with `n`
elements, the store is replaced by one for `(n + 1) + (n + 1) / 2 + 16` elements:
the capacities are 17, 43, 82, ..., 75209227, 112813858.  The one after 112813858
would be 169220804, more than a backing store can hold (fewer than `2 ^ 27`
elements), so the `push` that finds 112813858 elements raises
`RangeError: Invalid array length`.  The length limit of ECMAScript, `2 ^ 32 - 1`,
is never reached. -/
def pushLimit : Nat := 112813858

/-- The loop `for (let i = start; i <= end; i++) metadata.season.push(i)` on an
empty array.  It pushes `end + 1 - start` numbers; the push that would make the
array longer than `pushLimit` raises a `RangeError` (`none`). -/
def seasonRange (start stop : Nat) : Option (List Nat) :=
  if stop + 1 - start ≤ pushLimit then some (List.range' start (stop + 1 - start))
  else none

/-- `langKeywords` of `extractMetadata`. -/
def langKeywords : List String :=
  ["Hindi", "English", "Tamil", "Telugu", "Malayalam", "Kannada", "Korean", "Japanese",
   "Chinese", "Spanish", "French", "Dual Audio", "Multi Audio"]

/-- `qualityKeywords` of `extractMetadata`. -/
def qualityKeywords : List String :=
  ["480p", "720p", "1080p", "2160p", "4K", "HDR", "SDR", "WEB-DL", "BluRay", "HDTC", "CAM"]

/-- The expression built for a quality keyword, `\b` + keyword + `\b`, flag `i`. -/
def qualityRegex (q : String) : Re := seqs [.wordB, lit q, .wordB]

/-- `p.charAt(0).toUpperCase() + p.slice(1)` for the ASCII keywords it is applied
to. -/
def capitalize : JSString → JSString
  | [] => []
  | c :: cs => canon c :: cs

/-- The display form of a platform keyword, with the overrides of the source. -/
def platformName (p : String) : JSString :=
  let name := capitalize (str p)
  let name := if name = str "Appletv" then str "AppleTV" else name
  let name := if name = str "Hbo" then str "HBO" else name
  if name = str "Zee5" then str "Zee5" else name

/-- `extractMetadata(title, type)`; `none` when the season loop raises a
`RangeError`. -/
def extractMetadata (title : JSString) (_type : JSString) : Option Metadata :=
  let season : Option Season :=
    match exec true seasonRangeRegex title with
    | some m => (seasonRange (parseInt (m.group 1)) (parseInt (m.group 2))).map Season.list
    | none =>
      match exec true seasonSingleRegex title with
      | some m => some (Season.num (parseInt (m.group 1)))
      | none => some Season.null
  let episode := (exec true epRegex title).map fun m => parseInt (m.group 1)
  let part := (exec true partRegex title).map fun m => parseInt (m.group 1)
  let volume := (exec true volRegex title).map fun m => parseInt (m.group 1)
  let titleLower := toLowerCase title
  let languages :=
    (langKeywords.filter fun lang => includes (toLowerCase (str lang)) titleLower).map str
  let qualities := (qualityKeywords.filter fun q => test true (qualityRegex q) title).map str
  let platform :=
    match platformKeywords.find? (fun p => includes (str p) titleLower) with
    | some p => platformName p
    | none => str "Unknown"
  season.map fun season =>
    { season := season, episode := episode, part := part, volume := volume,
      qualities := qualities, languages := languages, platform := platform }

/-- `/[\[\(]?[^\]\)]*added[^\]\)]*[\]\)]?/gi` -/
def addedBlockRegex : Re :=
  seqs [.opt (.one (.cls false [(91, 91), (40, 40)])), .star (.cls true [(93, 93), (41, 41)]),
    lit "added", .star (.cls true [(93, 93), (41, 41)]),
    .opt (.one (.cls false [(93, 93), (41, 41)]))]

/-- `/\b(?:ep|episode)\s*[-.]?\s*(\d+)/i` -/
def epAddedRegex : Re :=
  seqs [.wordB, words ["ep", "episode"], .star .space, dashOrDot, .star .space,
    .cap 1 (plus .digit)]

/-- `/\b(?:vol|volume)\s*[-.]?\s*(\d+)/i` -/
def volAddedRegex : Re :=
  seqs [.wordB, words ["vol", "volume"], .star .space, dashOrDot, .star .space,
    .cap 1 (plus .digit)]

/-- `/\bpart\s*[-.]?\s*(\d+)/i` -/
def partAddedRegex : Re :=
  seqs [.wordB, lit "part", .star .space, dashOrDot, .star .space, .cap 1 (plus .digit)]

/-- `/\bpart\b/i` -/
def partWordRegex : Re := seqs [.wordB, lit "part", .wordB]

/-- `/\bpart\s*\d+\s*&\s*\d+/i` -/
def partListRegex : Re :=
  seqs [.wordB, lit "part", .star .space, plus .digit, .star .space, lit "&", .star .space,
    plus .digit]

/-- `/\bpart\s*added\b/i` -/
def partGenericRegex : Re := seqs [.wordB, lit "part", .star .space, lit "added", .wordB]

/-- The body of `addedBlocks.forEach`: the update of `info` by one block. -/
def updateFromBlock (info : UpdateInfo) (block : JSString) : UpdateInfo :=
  let info :=
    match exec true epAddedRegex block with
    | some m => { info with episode_added := some (parseInt (m.group 1)) }
    | none => info
  let info :=
    match exec true volAddedRegex block with
    | some m => { info with volume_added := some (parseInt (m.group 1)) }
    | none => info
  match exec true partAddedRegex block with
  | some m => { info with part_added := PartAdded.num (parseInt (m.group 1)) }
  | none =>
    if test true partWordRegex block then
      if test true partListRegex block then { info with part_added := PartAdded.yes }
      else if test true partGenericRegex block then
        if info.part_added = PartAdded.no then { info with part_added := PartAdded.yes }
        else info
      else info
    else info

/-- The blocks handed to the `forEach`: all matches of `addedBlockRegex`, or the
whole title when there is none although `/added/i` matches. -/
def addedBlocks (title : JSString) : List JSString :=
  let blocks := matchAll true addedBlockRegex title
  if blocks.length = 0 && test true (lit "added") title then blocks ++ [title] else blocks

/-- `extractUpdateInfo(title)`. -/
def extractUpdateInfo (title : JSString) : UpdateInfo :=
  let info : UpdateInfo :=
    { episode_added := none, volume_added := none, part_added := PartAdded.no, complete := none }
  let info := (addedBlocks title).foldl updateFromBlock info
  if test true (seqs [.wordB, lit "complete", .wordB]) title ||
      test true (seqs [.wordB, lit "all episodes", .wordB]) title then
    { info with complete := some true }
  else info

/-! ## Doubles -/

/-- Number of binary digits of `n`, counted in at most `fuel` halvings. -/
def bitsAux : Nat → Nat → Nat
  | 0, _ => 0
  | fuel + 1, n => if n = 0 then 0 else bitsAux fuel (n / 2) + 1

/-- Number of binary digits of `n`: `2 ^ (bits n - 1) ≤ n < 2 ^ bits n` for
positive `n`. -/
def bits (n : Nat) : Nat := bitsAux n n

/-- The integer nearest to `n / d`, the even one of the two when `n / d` lies
half way. -/
def roundHalfEven (n d : Nat) : Nat :=
  if 2 * (n % d) < d then n / d
  else if d < 2 * (n % d) then n / d + 1
  else if n / d % 2 = 0 then n / d
  else n / d + 1

/-- The double nearest to the positive rational `n / d` (IEEE 754 binary64,
round to nearest, ties to even), for a magnitude below `2 ^ 1024`.  With `e` the
exponent, `2 ^ e ≤ n / d < 2 ^ (e + 1)`, the doubles around `n / d` are the
multiples of `2 ^ (e - 52)`, or of `2 ^ (-1074)` in the subnormal range. -/
def nearestDouble (n d : Nat) : ℚ :=
  let e : Int :=
    (bits n : Int) - (bits d : Int) - (if d * 2 ^ bits n ≤ n * 2 ^ bits d then 0 else 1)
  let q : Int := max (e - 52) (-1074)
  let m := roundHalfEven (n * 2 ^ (-q).toNat) (d * 2 ^ q.toNat)
  mkRat ((m * 2 ^ q.toNat : Nat) : Int) (2 ^ (-q).toNat)

/-- The double nearest to the rational `x`, as the rational it denotes: the value
of a decimal literal of the source, and the rounding of an arithmetic result. -/
def toDouble (x : ℚ) : ℚ :=
  if x = 0 then 0
  else if 0 < x then nearestDouble x.num.natAbs x.den
  else -nearestDouble x.num.natAbs x.den

/-- The sum `a + b` of two doubles in JavaScript: the exact sum, rounded. -/
def addDouble (a b : ℚ) : ℚ := toDouble (a + b)

/-- `calculateConfidence(displayTitle, year, type, metadata)`.  The score is a
double, and each `score += w` adds the double of the literal `w` to it. -/
def calculateConfidence (displayTitle year type : JSString) (metadata : Metadata) : ℚ :=
  let score : ℚ := 0
  let score :=
    if displayTitle ≠ [] ∧ displayTitle.length > 0 then addDouble score (toDouble (4 / 10))
    else score
  let score := if year ≠ str "unknown" then addDouble score (toDouble (3 / 10)) else score
  let score := if type ≠ [] then addDouble score (toDouble (1 / 10)) else score
  let score :=
    if metadata.qualities.length > 0 then addDouble score (toDouble (1 / 10)) else score
  let score :=
    if metadata.languages.length > 0 then addDouble score (toDouble (1 / 10)) else score
  min score (toDouble 1)

/-- `parse(rawTitle)`. -/
def parse (rawTitle : JSString) : ParseResult :=
  if rawTitle = [] then ParseResult.null
  else
    let title := trim rawTitle
    let type := classifyType title
    let year := extractYear title
    match extractDisplayTitle title type with
    | none => ParseResult.unfinished
    | some displayTitle =>
      let machineTitle := constructMachineTitle displayTitle
      match extractMetadata title type with
      | none => ParseResult.rangeError
      | some metadata =>
        let updateInfo := extractUpdateInfo title
        let canonicalKey := machineTitle ++ str "|" ++ year ++ str "|" ++ type
        let confidence := calculateConfidence displayTitle year type metadata
        ParseResult.record
          { display_title := displayTitle
            machine_title := machineTitle
            canonical_key := canonicalKey
            type := type
            year :=
              if year = str "unknown" then YearField.unknown else YearField.num (parseInt year)
            season := metadata.season
            part := metadata.part
            volume := metadata.volume
            episode := metadata.episode
            update_info := updateInfo
            languages := metadata.languages
            qualities := metadata.qualities
            platform := metadata.platform
            confidence := confidence }

/-! ## Definitions used by the statements -/

/-- Whether a year token starts the units `rest` that follow the unit `prev`: two
units `19` or `20`, two digits, no word character on either side. -/
def yearHere (prev : Option Nat) : JSString → Bool
  | a :: b :: c :: d :: tail =>
    !isWordOpt prev && ((a == 49 && b == 57) || (a == 50 && b == 48)) && isDigit c && isDigit d &&
      !isWordOpt tail.head?
  | _ => false

/-- The wording of the specification: at index `i` of `t` starts a four-digit
token that begins with `19` or `20` and is neither immediately preceded nor
immediately followed by a letter, digit or underscore. -/
def isYearTokenAt (t : JSString) (i : Nat) : Bool :=
  let tok := (t.drop i).take 4
  tok.length == 4 && (tok.take 2 == str "19" || tok.take 2 == str "20") && tok.all isDigit &&
    !(i != 0 && isWordOpt (t.get? (i - 1))) && !isWordOpt (t.get? (i + 4))

/-- The text of the `year` field inside the canonical key, in the wording of the
specification: the literal `unknown` for the sentinel, otherwise the decimal
digits of the integer. -/
def YearField.token : YearField → JSString
  | .unknown => str "unknown"
  | .num n => str (toString n)

/-- The tokens that `constructMachineTitle` rewrites when they stand alone: the
keys of `romanMap` and the stopwords. -/
def standaloneTokens : List JSString :=
  romanMap.map (fun p => str p.1) ++ stopwords.map str

/-- The title of the Panchayat scenario (line 10 of `src/test_runner.js`). -/
def panchayatTitle : JSString :=
  str "Panchayat (2025) Season 4 Hindi Complete Amazon Original WEB Series 480p | 720p | 1080p | 2160p 4K WEB-DL"

/-- The title of the Wednesday scenario (line 17 of `src/test_runner.js`). -/
def wednesdayTitle : JSString :=
  str "Wednesday (Season 2) 2025 Dual Audio [Hindi (DD5.1) - English] [Part 1 & 2 Added] NETFLIX Series 480p 720p 1080p - 4K 2160p WEB-DL"

/-- The title of the Gangs of Wasseypur scenario (line 20 of
`src/test_runner.js`), with an en dash between `Part` and `2`. -/
def wasseypurTitle : JSString :=
  str "Gangs of Wasseypur Part – 2 (2012) Hindi Full Movie BluRay 480p [400MB] | 720p [1.3GB] | 1080p [4.6GB]"

/-- The episode number a block supplies: the first group of `epAddedRegex`. -/
def episodeOf (block : JSString) : Option Nat :=
  (exec true epAddedRegex block).map fun m => parseInt (m.group 1)

/-- The volume number a block supplies: the first group of `volAddedRegex`. -/
def volumeOf (block : JSString) : Option Nat :=
  (exec true volAddedRegex block).map fun m => parseInt (m.group 1)

/-- The part number a block supplies: the first group of `partAddedRegex`. -/
def partOf (block : JSString) : Option Nat :=
  (exec true partAddedRegex block).map fun m => parseInt (m.group 1)

/-- The two tests of the source that let a block without a part number set
`part_added` to `true`: `/\bpart\b/i` and `/\bpart\s*added\b/i`. -/
def genericPart (block : JSString) : Bool :=
  test true partWordRegex block && test true partGenericRegex block

/-- Specification side: whether `needle` starts `hay` when letters `a`-`z` and
`A`-`Z` are compared without regard to case. -/
def startsWithIgnoringCase : JSString → JSString → Bool
  | [], _ => true
  | _ :: _, [] => false
  | a :: as, b :: bs => canon a == canon b && startsWithIgnoringCase as bs

/-- Specification side: whether `needle` occurs in `hay` as a contiguous
substring, letters being compared without regard to case. -/
def occursIgnoringCase (needle : JSString) : JSString → Bool
  | [] => startsWithIgnoringCase needle []
  | c :: cs => startsWithIgnoringCase needle (c :: cs) || occursIgnoringCase needle cs

/-- Specification side: the platform vocabulary in its order, each entry with its
display form. -/
def platformDisplay : List (String × String) :=
  [("netflix", "Netflix"), ("amazon", "Amazon"), ("hulu", "Hulu"), ("disney", "Disney"),
   ("hotstar", "Hotstar"), ("zee5", "Zee5"), ("sony", "Sony"), ("appletv", "AppleTV"),
   ("hbo", "HBO"), ("prime", "Prime"), ("original", "Original"), ("series", "Series")]

/-- Specification side: the platform of a title, the display form of the first
entry of the vocabulary that occurs in the title without regard to case. -/
def platformOf (title : JSString) : JSString :=
  match platformDisplay.find? (fun p => occursIgnoringCase (str p.1) title) with
  | some p => str p.2
  | none => str "Unknown"

/-- A keyword made of lowercase letters other than `k` and of digits, which is
not empty and does not end in `i`: lowercasing a text can then create no
occurrence of it that was not there up to case. -/
def plainKeyword (needle : JSString) : Bool :=
  needle.all (fun u => (isLower u || isDigit u) && u != 107) && needle.getLast? != some 105 &&
    !needle.isEmpty

/-- Specification side: equality of two texts when letters `a`-`z` and `A`-`Z`
are compared without regard to case. -/
def eqIgnoringCase (a b : JSString) : Bool := a.map canon == b.map canon

/-- Specification side: a series marker, one of `season`, `s` immediately
followed by one or more digits, `ep`, `episode`, `series`, in any case. -/
def isSeriesMarker (tok : JSString) : Bool :=
  eqIgnoringCase tok (str "season") ||
  (match tok with
    | s :: d :: ds => eqIgnoringCase [s] (str "s") && (d :: ds).all isDigit
    | _ => false) ||
  eqIgnoringCase tok (str "ep") || eqIgnoringCase tok (str "episode") ||
  eqIgnoringCase tok (str "series")

/-- Specification side: the text `tok` stands in `title` at index `i` as a whole
word: the unit before it, if any, and the unit after it, if any, are not word
characters. -/
def wholeWordAt (title : JSString) (i n : Nat) : Bool :=
  !isWordOpt ((title.take i).getLast?) && !isWordOpt ((title.drop (i + n)).head?)

/-- Specification side: the title contains a series marker as a whole word. -/
def containsSeriesMarker (title : JSString) : Bool :=
  (List.range (title.length + 1)).any fun i =>
    (List.range (title.length + 1 - i)).any fun n =>
      isSeriesMarker ((title.drop i).take n) && wholeWordAt title i n

/-- The least number of code units a match of the expression consumes. -/
def minLen : Re → Nat
  | .eps => 0
  | .one _ => 1
  | .star _ => 0
  | .wordB => 0
  | .bos => 0
  | .eos => 0
  | .seq r₁ r₂ => minLen r₁ + minLen r₂
  | .alt r₁ r₂ => min (minLen r₁) (minLen r₂)
  | .opt _ => 0
  | .cap _ r => minLen r

/-- Specification side: the platform names of the cleanup rule. -/
def platformNames : List String :=
  ["netflix", "amazon", "hulu", "disney", "hotstar", "zee5", "sony", "appletv", "hbo", "prime"]

/-- Specification side: the words that may follow a platform name. -/
def platformSuffixes : List String := ["original", "series", "web series", "tv show"]

/-- Whether the expression is free of the anchors `^` and `$`. -/
def anchorFree : Re → Bool
  | .eps => true
  | .one _ => true
  | .star _ => true
  | .wordB => true
  | .bos => false
  | .eos => false
  | .seq r₁ r₂ => anchorFree r₁ && anchorFree r₂
  | .alt r₁ r₂ => anchorFree r₁ && anchorFree r₂
  | .opt r => anchorFree r
  | .cap _ r => anchorFree r

/-- The state of the matcher at offset `k` of the text `d` taken alone. -/
def subState (d : JSString) (k : Nat) (caps : List (Nat × JSString)) : St :=
  ⟨k, (d.take k).getLast?, d.drop k, caps⟩

/-- The state of the matcher at offset `k` of `d` inside the text
`pre ++ d ++ post`. -/
def ctxState (pre d post : JSString) (k : Nat) (caps : List (Nat × JSString)) : St :=
  ⟨pre.length + k, (pre ++ d.take k).getLast?, d.drop k ++ post, caps⟩

/-- The text `d` stands in `pre ++ d ++ post` so that neither of its ends cuts a
word: not both units around its start are word characters, nor both units around
its end. -/
def CleanIn (pre d post : JSString) : Prop :=
  (isWordOpt pre.getLast? = false ∨ isWordOpt d.head? = false) ∧
    (isWordOpt d.getLast? = false ∨ isWordOpt post.head? = false)

/-- The text `d'` is cut out of `d` without cutting a word. -/
def Cut (d d' : JSString) : Prop := ∃ a b, d = a ++ d' ++ b ∧ CleanIn a d' b

/-- The text `d` is a part of the title `t` that ends at index `n` at the latest
and cuts no word of `t`. -/
def CleanPart (t : JSString) (n : Nat) (d : JSString) : Prop :=
  ∃ pre post, t = pre ++ d ++ post ∧ (pre ++ d).length ≤ n ∧ CleanIn pre d post

/-! ## Lemmas on the matcher -/

theorem mem_run_one {ic : Bool} {a : Atom} {s e : St} :
    e ∈ run ic (.one a) s ↔
      ∃ c cs, s.rest = c :: cs ∧ a.test ic c = true ∧ e = ⟨s.pos + 1, some c, cs, s.caps⟩ := by
  obtain ⟨pos, prev, rest, caps⟩ := s
  cases rest with
  | nil => simp [run]
  | cons c cs =>
    by_cases h : a.test ic c = true
    · simp only [run, h, if_true, List.mem_singleton]
      constructor
      · intro he; exact ⟨c, cs, rfl, h, he⟩
      · rintro ⟨c', cs', hcs, -, he⟩
        cases hcs; exact he
    · simp only [run, h]
      constructor
      · intro he; simp at he
      · rintro ⟨c', cs', hcs, ht, -⟩
        cases hcs; exact absurd ht h

theorem mem_run_seq {ic : Bool} {r₁ r₂ : Re} {s e : St} :
    e ∈ run ic (.seq r₁ r₂) s ↔ ∃ m, m ∈ run ic r₁ s ∧ e ∈ run ic r₂ m := by
  simp [run, List.mem_flatMap]

theorem mem_run_alt {ic : Bool} {r₁ r₂ : Re} {s e : St} :
    e ∈ run ic (.alt r₁ r₂) s ↔ e ∈ run ic r₁ s ∨ e ∈ run ic r₂ s := by
  simp [run]

theorem mem_run_wordB {ic : Bool} {s e : St} :
    e ∈ run ic .wordB s ↔ e = s ∧ isWordOpt s.prev ≠ isWordOpt s.rest.head? := by
  by_cases h : isWordOpt s.prev = isWordOpt s.rest.head? <;> simp [run, h]

theorem mem_run_cap {ic : Bool} {n : Nat} {r : Re} {s e : St} :
    e ∈ run ic (.cap n r) s ↔
      ∃ m, m ∈ run ic r s ∧
        e = { m with caps := (n, s.rest.take (m.pos - s.pos)) :: m.caps } := by
  simp [run, List.mem_map, eq_comm]

theorem mem_run_seqs_cons {ic : Bool} {r : Re} {rs : List Re} {s e : St} :
    e ∈ run ic (seqs (r :: rs)) s ↔ ∃ m, m ∈ run ic r s ∧ e ∈ run ic (seqs rs) m := by
  cases rs with
  | nil => simp [seqs, run]
  | cons r' rs' => simp [seqs, mem_run_seq]

theorem mem_run_seqs_nil {ic : Bool} {s e : St} : e ∈ run ic (seqs []) s ↔ e = s := by
  simp [seqs, run]

theorem mem_run_alts_cons {ic : Bool} {r r' : Re} {rs : List Re} {s e : St} :
    e ∈ run ic (alts (r :: r' :: rs)) s ↔ e ∈ run ic r s ∨ e ∈ run ic (alts (r' :: rs)) s := by
  simp [alts, mem_run_alt]

theorem getLast?_cons_or (c : Nat) (cs : List Nat) (o p : Option Nat) :
    ((c :: cs).getLast?).or o = ((c :: cs).getLast?).or p := by
  cases h : (c :: cs).getLast? with
  | none => simp at h
  | some x => simp

/-- The text `cs`, unit by unit (what `lit` builds from a string). -/
theorem mem_run_units {cs : List Nat} {s e : St} :
    e ∈ run false (seqs (cs.map fun c => .one (.chr c))) s ↔
      s.rest = cs ++ e.rest ∧ e.pos = s.pos + cs.length ∧ e.caps = s.caps ∧
        e.prev = (cs.getLast?).or s.prev := by
  induction cs generalizing s with
  | nil =>
    obtain ⟨p, v, r, c⟩ := s; obtain ⟨p', v', r', c'⟩ := e
    simp [mem_run_seqs_nil]; tauto
  | cons c cs ih =>
    rw [List.map_cons, mem_run_seqs_cons]
    constructor
    · rintro ⟨m, hm, he⟩
      rw [mem_run_one] at hm
      obtain ⟨c', cs', hrest, htest, rfl⟩ := hm
      have hc : c' = c := by simpa [Atom.test] using htest
      subst hc
      rw [ih] at he
      obtain ⟨h1, h2, h3, h4⟩ := he
      simp at h1 h2 h3 h4
      refine ⟨by simp [hrest, h1], by simp [h2]; omega, h3, ?_⟩
      rw [h4]; cases cs with
      | nil => simp
      | cons d ds => rw [List.getLast?_cons_cons]; exact getLast?_cons_or _ _ _ _
    · rintro ⟨h1, h2, h3, h4⟩
      refine ⟨⟨s.pos + 1, some c, cs ++ e.rest, s.caps⟩, ?_, ?_⟩
      · rw [mem_run_one]; exact ⟨c, cs ++ e.rest, by simpa using h1, by simp [Atom.test], rfl⟩
      · rw [ih]; refine ⟨rfl, by simp [h2]; omega, h3, ?_⟩
        rw [h4]; cases cs with
        | nil => simp
        | cons d ds => rw [List.getLast?_cons_cons]; exact getLast?_cons_or _ _ _ _

theorem mem_run_lit {w : String} {s e : St} :
    e ∈ run false (lit w) s ↔
      s.rest = str w ++ e.rest ∧ e.pos = s.pos + (str w).length ∧ e.caps = s.caps ∧
        e.prev = ((str w).getLast?).or s.prev := mem_run_units

theorem mem_run_words {ws : List String} (hne : ws ≠ []) {s e : St} :
    e ∈ run false (words ws) s ↔ ∃ w, w ∈ ws ∧ e ∈ run false (lit w) s := by
  induction ws with
  | nil => exact absurd rfl hne
  | cons w ws ih =>
    cases ws with
    | nil => simp [words, alts]
    | cons w' ws' =>
      have := ih (by simp)
      simp only [words, List.map_cons] at this ⊢
      rw [mem_run_alts_cons, this]
      simp

/-! ## Lemmas on searching and replacing -/

theorem matchAt_eq_none {ic : Bool} {r : Re} {pos : Nat} {prev : Option Nat} {rest : JSString} :
    matchAt ic r pos prev rest = none ↔ run ic r ⟨pos, prev, rest, []⟩ = [] := by
  unfold matchAt
  cases run ic r ⟨pos, prev, rest, []⟩ <;> simp

theorem matchAt_eq_some {ic : Bool} {r : Re} {pos : Nat} {prev : Option Nat} {rest : JSString}
    {m : Match} (h : matchAt ic r pos prev rest = some m) :
    ∃ e, e ∈ run ic r ⟨pos, prev, rest, []⟩ ∧
      (run ic r ⟨pos, prev, rest, []⟩).head? = some e ∧
      m = ⟨pos, rest.take (e.pos - pos), e.caps⟩ := by
  unfold matchAt at h
  cases hr : run ic r ⟨pos, prev, rest, []⟩ with
  | nil => simp [hr] at h
  | cons e es =>
    simp only [hr, Option.some.injEq] at h
    exact ⟨e, by simp, by simp, h.symm⟩

/-- A global replacement leaves the text alone when no position, from the current
one to the end, starts a match.  `Q` is any property of a position that excludes
a match and is handed on from each position to the next. -/
theorem replaceScan_of_invariant (ic : Bool) (r : Re) (f : JSString → JSString)
    (Q : Option Nat → JSString → Prop)
    (hno : ∀ pos prev rest, Q prev rest → matchAt ic r pos prev rest = none)
    (hstep : ∀ prev c cs, Q prev (c :: cs) → Q (some c) cs) :
    ∀ (rest : JSString) (pos : Nat) (prev : Option Nat), Q prev rest →
      replaceScan ic r f pos prev rest 0 = rest := by
  intro rest
  induction rest with
  | nil => intro pos prev hQ; simp [replaceScan, hno pos prev [] hQ]
  | cons c cs ih =>
    intro pos prev hQ
    simp [replaceScan, hno pos prev (c :: cs) hQ, ih (pos + 1) (some c) (hstep prev c cs hQ)]

/-- The class `[^a-z0-9]` accepts exactly the units that are neither lowercase
letters nor digits. -/
theorem test_nonAlnum (c : Nat) :
    Atom.test false (.cls true [(97, 122), (48, 57)]) c = !(isLower c || isDigit c) := by
  simp [Atom.test, inRange, isLower, isDigit]

/-- Deleting every match of `/[^a-z0-9]/g` keeps exactly the lowercase letters and
the digits. -/
theorem replaceScan_nonAlnum (rest : JSString) (pos : Nat) (prev : Option Nat) :
    replaceScan false nonAlnumRegex (fun _ => []) pos prev rest 0 =
      rest.filter (fun c => isLower c || isDigit c) := by
  unfold nonAlnumRegex
  induction rest generalizing pos prev with
  | nil => simp [replaceScan, matchAt, run]
  | cons c cs ih =>
    by_cases h : (isLower c || isDigit c) = true
    · have ht : Atom.test false (.cls true [(97, 122), (48, 57)]) c = false := by
        rw [test_nonAlnum, h]; rfl
      simp [replaceScan, matchAt, run, ht, List.filter_cons, h, ih]
    · have ht : Atom.test false (.cls true [(97, 122), (48, 57)]) c = true := by
        rw [test_nonAlnum]; simpa using h
      simp [replaceScan, matchAt, run, ht, List.filter_cons, h, ih]

theorem mem_constructMachineTitle {s : JSString} {c : Nat} (h : c ∈ constructMachineTitle s) :
    (isLower c || isDigit c) = true := by
  unfold constructMachineTitle replaceAll at h
  simp only [replaceScan_nonAlnum] at h
  exact (List.mem_filter.mp h).2

/-! ## The year expression -/

theorem str_19 : str "19" = [49, 57] := by decide
theorem str_20 : str "20" = [50, 48] := by decide

theorem isWordChar_of_isDigit {c : Nat} (h : isDigit c = true) : isWordChar c = true := by
  simp [isWordChar, h]

theorem mem_run_yearRegex {s e : St} (h : e ∈ run false yearRegex s) :
    yearHere s.prev s.rest = true ∧ e.pos = s.pos + 4 := by
  obtain ⟨pos, prev, rest, caps⟩ := s
  simp only [yearRegex, mem_run_seqs_cons, mem_run_seqs_nil, mem_run_wordB, mem_run_cap,
    mem_run_words (List.cons_ne_nil _ _), mem_run_lit, mem_run_one] at h
  obtain ⟨m₁, ⟨rfl, hb₁⟩, m₂, ⟨m₂', ⟨w, hw, hlit⟩, rfl⟩, m₃, ⟨c, cs, hc, hct, rfl⟩,
    m₄, ⟨d, ds, hd, hdt, rfl⟩, m₅, ⟨rfl, hb₂⟩, rfl⟩ := h
  obtain ⟨p', v', r', c'⟩ := m₂'
  dsimp only at hlit hc hd hb₂ ⊢
  obtain ⟨h1, h2, -, h4⟩ := hlit
  subst hc
  subst hd
  have hwc : isWordChar c = true := isWordChar_of_isDigit hct
  have hwd : isWordChar d = true := isWordChar_of_isDigit hdt
  simp only [List.mem_cons, List.mem_singleton, List.not_mem_nil, or_false] at hw
  rcases hw with rfl | rfl
  · rw [str_19] at h1 h2
    subst h1
    simp only [List.length_cons, List.length_nil] at h2
    subst h2
    simp only [Atom.test] at hct hdt
    simp [yearHere, isWordOpt, hct, hdt, hwd] at hb₁ hb₂ ⊢
    have h49 : isWordChar 49 = true := by decide
    simp [h49] at hb₁
    exact ⟨hb₁, hb₂⟩
  · rw [str_20] at h1 h2
    subst h1
    simp only [List.length_cons, List.length_nil] at h2
    subst h2
    simp only [Atom.test] at hct hdt
    simp [yearHere, isWordOpt, hct, hdt, hwd] at hb₁ hb₂ ⊢
    have h50 : isWordChar 50 = true := by decide
    simp [h50] at hb₁
    exact ⟨hb₁, hb₂⟩

theorem run_yearRegex_of_yearHere {pos : Nat} {prev : Option Nat} {rest : JSString}
    (h : yearHere prev rest = true) : run false yearRegex ⟨pos, prev, rest, []⟩ ≠ [] := by
  match rest, h with
  | a :: b :: c :: d :: tail, h =>
    simp only [yearHere, Bool.and_eq_true, Bool.or_eq_true, Bool.not_eq_true', beq_iff_eq] at h
    obtain ⟨⟨⟨⟨hp, hab⟩, hc⟩, hd⟩, ht⟩ := h
    have hwd : isWordChar d = true := isWordChar_of_isDigit hd
    have hne : ∀ (a b : Nat), (a = 49 ∧ b = 57) ∨ (a = 50 ∧ b = 48) →
        ∃ e, e ∈ run false yearRegex ⟨pos, prev, a :: b :: c :: d :: tail, []⟩ := by
      intro a b hab
      refine ⟨⟨pos + 4, some d, tail, [(1, [a, b])]⟩, ?_⟩
      simp only [yearRegex, mem_run_seqs_cons, mem_run_seqs_nil, mem_run_wordB, mem_run_cap,
        mem_run_words (List.cons_ne_nil _ _), mem_run_lit, mem_run_one]
      have hwa : isWordChar a = true := by rcases hab with ⟨rfl, -⟩ | ⟨rfl, -⟩ <;> decide
      refine ⟨_, ⟨rfl, by
          show isWordOpt prev ≠ isWordOpt (some a)
          rw [hp]; simp [isWordOpt, hwa]⟩, _,
        ⟨⟨pos + 2, some b, c :: d :: tail, []⟩, ?_, rfl⟩, _, ⟨c, d :: tail, rfl, hc, rfl⟩, _,
        ⟨d, tail, rfl, hd, rfl⟩, _, ⟨rfl, by
          show isWordOpt (some d) ≠ isWordOpt tail.head?
          rw [ht]; simp [isWordOpt, hwd]⟩, by simp⟩
      rcases hab with ⟨rfl, rfl⟩ | ⟨rfl, rfl⟩
      · exact ⟨"19", by simp, by simp [str_19]⟩
      · exact ⟨"20", by simp, by simp [str_20]⟩
    obtain ⟨e, he⟩ := hne a b hab
    exact List.ne_nil_of_mem he

/-! ## Leftmost search -/

/-- The first match of a global scan is the leftmost match. -/
theorem scanAll_head (ic : Bool) (r : Re) (rest : JSString) (pos : Nat) (prev : Option Nat) :
    (scanAll ic r pos prev rest 0).head? = searchFrom ic r pos prev rest := by
  induction rest generalizing pos prev with
  | nil => simp only [scanAll, searchFrom]; cases matchAt ic r pos prev [] <;> rfl
  | cons c cs ih =>
    simp only [scanAll, searchFrom]
    cases matchAt ic r pos prev (c :: cs) with
    | none => exact ih _ _
    | some m => rfl

/-- What `searchFrom` returns, in terms of the offsets from its start: the match
at the least offset at which the expression matches. -/
theorem searchFrom_eq_some (ic : Bool) (r : Re) (m : Match) (rest pre : JSString) :
    searchFrom ic r pre.length pre.getLast? rest = some m ↔
      ∃ k, k ≤ rest.length ∧
        matchAt ic r (pre.length + k) ((pre ++ rest.take k).getLast?) (rest.drop k) = some m ∧
        ∀ j, j < k →
          matchAt ic r (pre.length + j) ((pre ++ rest.take j).getLast?) (rest.drop j) = none := by
  induction rest generalizing pre with
  | nil =>
    simp only [searchFrom]
    constructor
    · intro h; exact ⟨0, by simp, by simpa using h, by simp⟩
    · rintro ⟨k, hk, h, -⟩
      have : k = 0 := by simpa using hk
      subst this; simpa using h
  | cons c cs ih =>
    have hstep : searchFrom ic r (pre.length + 1) (some c) cs = some m ↔
        ∃ k, k ≤ cs.length ∧
          matchAt ic r (pre.length + (k + 1)) ((pre ++ (c :: cs).take (k + 1)).getLast?)
            ((c :: cs).drop (k + 1)) = some m ∧
          ∀ j, j < k →
            matchAt ic r (pre.length + (j + 1)) ((pre ++ (c :: cs).take (j + 1)).getLast?)
              ((c :: cs).drop (j + 1)) = none := by
      have := ih (pre ++ [c])
      simpa [Nat.add_assoc, Nat.add_comm 1] using this
    simp only [searchFrom]
    cases h0 : matchAt ic r pre.length pre.getLast? (c :: cs) with
    | some m0 =>
      constructor
      · intro h; exact ⟨0, by simp, by simpa [h0] using h, by simp⟩
      · rintro ⟨k, -, hk, hlt⟩
        cases k with
        | zero => simpa [h0] using hk
        | succ k =>
          have := hlt 0 (by omega)
          simp [h0] at this
    | none =>
      simp only []
      rw [hstep]
      constructor
      · rintro ⟨k, hk, hm, hlt⟩
        refine ⟨k + 1, by simpa using hk, hm, ?_⟩
        intro j hj
        cases j with
        | zero => simpa using h0
        | succ j => exact hlt j (by omega)
      · rintro ⟨k, hk, hm, hlt⟩
        cases k with
        | zero => simp [h0] at hm
        | succ k =>
          exact ⟨k, by simpa using hk, hm, fun j hj => hlt (j + 1) (by omega)⟩

theorem searchFrom_eq_none (ic : Bool) (r : Re) (rest pre : JSString) :
    searchFrom ic r pre.length pre.getLast? rest = none ↔
      ∀ k, k ≤ rest.length →
        matchAt ic r (pre.length + k) ((pre ++ rest.take k).getLast?) (rest.drop k) = none := by
  induction rest generalizing pre with
  | nil =>
    simp only [searchFrom]
    constructor
    · intro h k hk
      have : k = 0 := by simpa using hk
      subst this; simpa using h
    · intro h; simpa using h 0 (by simp)
  | cons c cs ih =>
    have hstep : searchFrom ic r (pre.length + 1) (some c) cs = none ↔
        ∀ k, k ≤ cs.length →
          matchAt ic r (pre.length + (k + 1)) ((pre ++ (c :: cs).take (k + 1)).getLast?)
            ((c :: cs).drop (k + 1)) = none := by
      have := ih (pre ++ [c])
      simpa [Nat.add_assoc, Nat.add_comm 1] using this
    simp only [searchFrom]
    cases h0 : matchAt ic r pre.length pre.getLast? (c :: cs) with
    | some m0 =>
      constructor
      · intro h; cases h
      · intro h
        have := h 0 (by simp)
        simp [h0] at this
    | none =>
      simp only []
      rw [hstep]
      constructor
      · intro h k hk
        cases k with
        | zero => simpa using h0
        | succ k => exact h k (by simpa using hk)
      · intro h k hk
        exact h (k + 1) (by simpa using hk)

/-! ## Year extraction -/

theorem extractYear_eq (t : JSString) :
    extractYear t =
      match searchFrom false yearRegex 0 none t with
      | some m => m.text
      | none => str "unknown" := by
  have h := scanAll_head false yearRegex t 0 none
  unfold extractYear matchAll
  cases hs : scanAll false yearRegex 0 none t 0 with
  | nil => rw [hs] at h; simp only [List.head?_nil] at h; rw [← h]; rfl
  | cons m ms => rw [hs] at h; simp only [List.head?_cons] at h; rw [← h]; rfl

theorem getLast?_take (t : JSString) (i : Nat) (hi : i ≤ t.length) :
    (t.take i).getLast? = if i = 0 then none else t.get? (i - 1) := by
  induction t generalizing i with
  | nil => cases i <;> simp
  | cons c cs ih =>
    cases i with
    | zero => simp
    | succ i =>
      have hi' : i ≤ cs.length := by simpa using hi
      rw [List.take_succ_cons]
      cases i with
      | zero => simp
      | succ i =>
        cases cs with
        | nil => simp at hi'
        | cons d ds =>
          have := ih (i + 1) hi'
          rw [List.take_succ_cons] at this ⊢
          rw [List.getLast?_cons_cons, this]
          simp

/-- The wording of the specification and the condition read off the expression
agree. -/
theorem isYearTokenAt_eq (t : JSString) (i : Nat) :
    isYearTokenAt t i = yearHere ((t.take i).getLast?) (t.drop i) := by
  by_cases hi : i ≤ t.length
  · have hget : t.get? (i + 4) = (t.drop i).get? 4 := by
      simp [List.getElem?_drop]
    unfold isYearTokenAt
    rw [getLast?_take t i hi, hget]
    match hd : t.drop i with
    | [] => simp [yearHere]
    | [a] => simp [yearHere]
    | [a, b] => simp [yearHere]
    | [a, b, c] => simp [yearHere]
    | a :: b :: c :: d :: tail =>
      have htail : (a :: b :: c :: d :: tail).get? 4 = tail.head? := by cases tail <;> rfl
      rw [htail]
      have hprev : (!(i != 0 && isWordOpt (t.get? (i - 1)))) =
          !isWordOpt (if i = 0 then none else t.get? (i - 1)) := by
        by_cases h0 : i = 0 <;> simp [h0, isWordOpt]
      rw [hprev]
      generalize (if i = 0 then none else t.get? (i - 1)) = prev
      by_cases hab : (a = 49 ∧ b = 57) ∨ (a = 50 ∧ b = 48)
      · have h49 : isDigit 49 = true := by decide
        have h57 : isDigit 57 = true := by decide
        have h50 : isDigit 50 = true := by decide
        have h48 : isDigit 48 = true := by decide
        rcases hab with ⟨rfl, rfl⟩ | ⟨rfl, rfl⟩ <;>
          simp [yearHere, str_19, str_20, h49, h57, h50, h48, Bool.and_comm, Bool.and_assoc,
            Bool.and_left_comm]
      · have hab' : (a == 49 && b == 57 || a == 50 && b == 48) = false := by
          simpa [not_or] using hab
        simp [yearHere, str_19, str_20, hab']
  · have hd : t.drop i = [] := List.drop_eq_nil_of_le (by omega)
    simp [isYearTokenAt, hd, yearHere]

theorem parseInt_year {a b c d : Nat} (hab : (a = 49 ∧ b = 57) ∨ (a = 50 ∧ b = 48))
    (hc : isDigit c = true) (hd : isDigit d = true) :
    1900 ≤ parseInt [a, b, c, d] ∧ parseInt [a, b, c, d] ≤ 2099 := by
  have h49 : isDigit 49 = true := by decide
  have h57 : isDigit 57 = true := by decide
  have h50 : isDigit 50 = true := by decide
  have h48 : isDigit 48 = true := by decide
  have hc' := hc
  have hd' := hd
  simp only [isDigit, Bool.and_eq_true, decide_eq_true_eq] at hc' hd'
  rcases hab with ⟨rfl, rfl⟩ | ⟨rfl, rfl⟩ <;>
    simp [parseInt, List.takeWhile, h49, h57, h50, h48, hc, hd] <;> omega

/-- The result of `extractYear`, case by case: either a year token starts at some
index, none starts further left, and the result is that token; or no year token
starts anywhere and the result is `unknown`. -/
theorem extractYear_cases (t : JSString) :
    (∃ i a b c d, isYearTokenAt t i = true ∧ (∀ j, j < i → isYearTokenAt t j = false) ∧
        (t.drop i).take 4 = [a, b, c, d] ∧ extractYear t = [a, b, c, d] ∧
        ((a = 49 ∧ b = 57) ∨ (a = 50 ∧ b = 48)) ∧ isDigit c = true ∧ isDigit d = true) ∨
      ((∀ i, isYearTokenAt t i = false) ∧ extractYear t = str "unknown") := by
  rw [extractYear_eq]
  cases hs : searchFrom false yearRegex 0 none t with
  | none =>
    right
    refine ⟨fun i => ?_, rfl⟩
    have h := (searchFrom_eq_none false yearRegex t []).mp hs
    rw [isYearTokenAt_eq]
    by_cases hi : i ≤ t.length
    · have hk := h i hi
      simp only [List.length_nil, Nat.zero_add, List.nil_append] at hk
      rw [matchAt_eq_none] at hk
      by_contra hy
      exact run_yearRegex_of_yearHere (by simpa using hy) hk
    · have hd : t.drop i = [] := List.drop_eq_nil_of_le (by omega)
      simp [hd, yearHere]
  | some m =>
    left
    obtain ⟨k, hk, hm, hlt⟩ := (searchFrom_eq_some false yearRegex m t []).mp hs
    simp only [List.length_nil, Nat.zero_add, List.nil_append] at hm hlt
    obtain ⟨e, he, -, rfl⟩ := matchAt_eq_some hm
    obtain ⟨hy, hpos⟩ := mem_run_yearRegex he
    dsimp only at hy hpos
    have hy' := hy
    match hdrop : t.drop k, hy with
    | a :: b :: c :: d :: tail, hy =>
      simp only [yearHere, Bool.and_eq_true, Bool.or_eq_true, Bool.not_eq_true', beq_iff_eq] at hy
      obtain ⟨⟨⟨⟨-, hab⟩, hc⟩, hd⟩, -⟩ := hy
      refine ⟨k, a, b, c, d, ?_, ?_, by simp [hdrop], ?_, hab, hc, hd⟩
      · rw [isYearTokenAt_eq]; exact hy'
      · intro j hj
        have hn := hlt j hj
        rw [matchAt_eq_none] at hn
        rw [isYearTokenAt_eq]
        by_contra hyj
        exact run_yearRegex_of_yearHere (by simpa using hyj) hn
      · simp [hpos]

/-! ## Termination of the cleanup loop -/

theorem trim_sublist (s : JSString) : (trim s).Sublist s := by
  unfold trim
  have h₁ : ((s.dropWhile isSpace).reverse.dropWhile isSpace).reverse.Sublist
      (s.dropWhile isSpace) := by
    have := (List.dropWhile_sublist (l := (s.dropWhile isSpace).reverse) isSpace).reverse
    simpa using this
  exact h₁.trans (List.dropWhile_sublist isSpace)

theorem replaceFirst_nil_sublist (ic : Bool) (r : Re) (s : JSString) :
    (replaceFirst ic r [] s).Sublist s := by
  unfold replaceFirst
  cases exec ic r s with
  | none => exact List.Sublist.refl s
  | some m =>
    simp only [List.append_nil]
    have h : (s.take m.index ++ s.drop (m.index + m.text.length)).Sublist
        (s.take m.index ++ s.drop m.index) := by
      apply List.Sublist.append_left
      rw [← List.drop_drop]
      exact List.drop_sublist _ _
    simpa using h

theorem cleanupPass_sublist (s : JSString) : (cleanupPass s).Sublist s := by
  unfold cleanupPass
  exact (trim_sublist _).trans <| (replaceFirst_nil_sublist _ _ _).trans <|
    (trim_sublist _).trans <| (replaceFirst_nil_sublist _ _ _).trans <|
    (trim_sublist _).trans (replaceFirst_nil_sublist _ _ _)

/-- A pass of the loop body either changes nothing or shortens the title. -/
theorem cleanupPass_eq_or_lt (s : JSString) :
    cleanupPass s = s ∨ (cleanupPass s).length < s.length := by
  have h := cleanupPass_sublist s
  rcases Nat.lt_or_ge (cleanupPass s).length s.length with hlt | hge
  · exact Or.inr hlt
  · exact Or.inl (h.eq_of_length (Nat.le_antisymm h.length_le hge))

/-- The loop finishes within `length + 2` tests of its condition. -/
theorem cleanupLoop_terminates (fuel : Nat) :
    ∀ prev cleanTitle : JSString,
      (cleanTitle.length + 2 ≤ fuel ∨ (cleanTitle = prev ∧ 1 ≤ fuel)) →
      ∃ r, cleanupLoop fuel prev cleanTitle = some r := by
  induction fuel with
  | zero => intro prev c h; rcases h with h | ⟨-, h⟩ <;> omega
  | succ fuel ih =>
    intro prev c h
    unfold cleanupLoop
    by_cases hc : c = prev
    · exact ⟨c, by simp [hc]⟩
    · simp only [hc, if_false]
      apply ih
      rcases h with h | ⟨h, -⟩
      · rcases cleanupPass_eq_or_lt c with he | hlt
        · right; exact ⟨he, by omega⟩
        · left; omega
      · exact absurd h hc

theorem extractDisplayTitle_isSome (title type : JSString) :
    ∃ d, extractDisplayTitle title type = some d := by
  unfold extractDisplayTitle
  exact cleanupLoop_terminates _ _ _ (Or.inl (Nat.le_refl _))

/-- The record built by `parse` from the display title `d` and the metadata `md`
of the trimmed title `t`. -/
theorem parse_eq_record {rawTitle : JSString} {r : Record}
    (h : parse rawTitle = ParseResult.record r) :
    rawTitle ≠ [] ∧ ∃ d md,
      extractDisplayTitle (trim rawTitle) (classifyType (trim rawTitle)) = some d ∧
      extractMetadata (trim rawTitle) (classifyType (trim rawTitle)) = some md ∧
      r = { display_title := d
            machine_title := constructMachineTitle d
            canonical_key := constructMachineTitle d ++ str "|" ++ extractYear (trim rawTitle) ++
              str "|" ++ classifyType (trim rawTitle)
            type := classifyType (trim rawTitle)
            year := if extractYear (trim rawTitle) = str "unknown" then YearField.unknown
              else YearField.num (parseInt (extractYear (trim rawTitle)))
            season := md.season
            part := md.part
            volume := md.volume
            episode := md.episode
            update_info := extractUpdateInfo (trim rawTitle)
            languages := md.languages
            qualities := md.qualities
            platform := md.platform
            confidence := calculateConfidence d (extractYear (trim rawTitle))
              (classifyType (trim rawTitle)) md } := by
  by_cases hne : rawTitle = []
  · simp [parse, hne] at h
  · refine ⟨hne, ?_⟩
    obtain ⟨d, hd⟩ :=
      extractDisplayTitle_isSome (trim rawTitle) (classifyType (trim rawTitle))
    cases hmd : extractMetadata (trim rawTitle) (classifyType (trim rawTitle)) with
    | none => simp [parse, hne, hd, hmd] at h
    | some md =>
      refine ⟨d, md, hd, rfl, ?_⟩
      simp only [parse, hne, if_false, hd, hmd, ParseResult.record.injEq] at h
      exact h.symm

/-- On a non-empty input `parse` returns a record as soon as `extractMetadata`
returns, and raises the `RangeError` of `extractMetadata` otherwise. -/
theorem parse_of_ne_nil {rawTitle : JSString} (h : rawTitle ≠ []) :
    (extractMetadata (trim rawTitle) (classifyType (trim rawTitle)) = none →
        parse rawTitle = ParseResult.rangeError) ∧
      (∀ md, extractMetadata (trim rawTitle) (classifyType (trim rawTitle)) = some md →
        ∃ r, parse rawTitle = ParseResult.record r) := by
  obtain ⟨d, hd⟩ :=
    extractDisplayTitle_isSome (trim rawTitle) (classifyType (trim rawTitle))
  constructor
  · intro hmd
    simp [parse, h, hd, hmd]
  · intro md hmd
    simp [parse, h, hd, hmd]

/-- `extractMetadata` fails exactly when the range pattern matches and the range
has more than `pushLimit` members. -/
theorem extractMetadata_eq_none (title type : JSString) :
    extractMetadata title type = none ↔
      ∃ m, exec true seasonRangeRegex title = some m ∧
        pushLimit < parseInt (m.group 2) + 1 - parseInt (m.group 1) := by
  unfold extractMetadata
  simp only [Option.map_eq_none']
  cases hr : exec true seasonRangeRegex title with
  | none =>
    simp only [false_and, exists_false, iff_false]
    cases exec true seasonSingleRegex title <;> simp
  | some m =>
    simp only [Option.some.injEq, exists_eq_left', Option.map_eq_none', seasonRange]
    by_cases hle : parseInt (m.group 2) + 1 - parseInt (m.group 1) ≤ pushLimit
    · simp [hle]
    · simp [hle]; omega

/-! ## Properties of `parse` -/

/-- C1, refuted as stated: on the non-empty input `Season 1-4294967296` the season
loop of `extractMetadata` would push `2 ^ 32` numbers, more than an array takes:
`push` raises a `RangeError`, and `parse` returns no record. -/
theorem parse_not_total :
    str "Season 1-4294967296" ≠ [] ∧
      parse (str "Season 1-4294967296") = ParseResult.rangeError ∧
      ¬ ∃ r, parse (str "Season 1-4294967296") = ParseResult.record r := by
  have h : parse (str "Season 1-4294967296") = ParseResult.rangeError := by decide!
  refine ⟨by decide, h, ?_⟩
  rintro ⟨r, hr⟩
  rw [h] at hr
  cases hr

/-- C1, amended. `parse` returns `null` exactly when its input is the empty
string.  On every other input, whitespace-only ones included, it returns a
record (all of whose fields are populated, by the type `Record`) provided that
the trimmed title has no season range or one with `end` below `2 ^ 53` and at
most 112813858 members (`pushLimit`, the number of elements up to which an array
grows by `push` under V8); when the range has more members, `parse` raises the
`RangeError` of `push`.  The only other loop of the parser, the cleanup loop,
always finishes within the steps the embedding allots to it. -/
theorem parse_null_or_record (rawTitle : JSString) :
    (parse rawTitle = ParseResult.null ↔ rawTitle = []) ∧
      (rawTitle ≠ [] →
        (∀ m, exec true seasonRangeRegex (trim rawTitle) = some m →
          parseInt (m.group 2) < 2 ^ 53 ∧
          parseInt (m.group 2) + 1 - parseInt (m.group 1) ≤ pushLimit) →
        ∃ r, parse rawTitle = ParseResult.record r) ∧
      (rawTitle ≠ [] →
        ∀ m, exec true seasonRangeRegex (trim rawTitle) = some m →
          pushLimit < parseInt (m.group 2) + 1 - parseInt (m.group 1) →
          parse rawTitle = ParseResult.rangeError) := by
  refine ⟨⟨fun h => ?_, fun h => by simp [parse, h]⟩, ?_, ?_⟩
  · by_contra hne
    obtain ⟨hnone, hsome⟩ := parse_of_ne_nil hne
    cases hmd : extractMetadata (trim rawTitle) (classifyType (trim rawTitle)) with
    | none => rw [hnone hmd] at h; cases h
    | some md =>
      obtain ⟨r, hr⟩ := hsome md hmd
      rw [hr] at h; cases h
  · intro hne hsmall
    obtain ⟨-, hsome⟩ := parse_of_ne_nil hne
    cases hmd : extractMetadata (trim rawTitle) (classifyType (trim rawTitle)) with
    | none =>
      obtain ⟨m, hm, hbig⟩ := (extractMetadata_eq_none _ _).mp hmd
      have := (hsmall m hm).2
      omega
    | some md => exact hsome md hmd
  · intro hne m hm hbig
    exact (parse_of_ne_nil hne).1 ((extractMetadata_eq_none _ _).mpr ⟨m, hm, hbig⟩)

/-- C1 as amended, at the whitespace-only input of three spaces. -/
theorem parse_null_or_record_witness :
    str "   " ≠ [] ∧ ∃ r, parse (str "   ") = ParseResult.record r :=
  ⟨by decide, (parse_null_or_record (str "   ")).2.1 (by decide) (by
    have h : exec true seasonRangeRegex (trim (str "   ")) = none := by decide!
    intro m hm
    rw [h] at hm
    cases hm)⟩

theorem toString_parseInt_year :
    ∀ c ∈ List.range 10, ∀ d ∈ List.range 10,
      str (toString (parseInt [49, 57, 48 + c, 48 + d])) = [49, 57, 48 + c, 48 + d] ∧
      str (toString (parseInt [50, 48, 48 + c, 48 + d])) = [50, 48, 48 + c, 48 + d] := by
  decide!

theorem year_ne_unknown {a b c d : Nat} : [a, b, c, d] ≠ str "unknown" := by
  intro h
  have hlen : (str "unknown").length = 7 := by decide
  have := congrArg List.length h
  rw [hlen] at this
  simp at this

/-- C2. The canonical key of the record that `parse` returns is the machine
title, a vertical bar, the year token (the literal `unknown` or the decimal
digits of the integer year field), a vertical bar, and the type. -/
theorem canonical_key_eq (rawTitle : JSString) (r : Record)
    (h : parse rawTitle = ParseResult.record r) :
    r.canonical_key = r.machine_title ++ str "|" ++ r.year.token ++ str "|" ++ r.type := by
  obtain ⟨-, d, md, -, -, rfl⟩ := parse_eq_record h
  dsimp only
  rcases extractYear_cases (trim rawTitle) with ⟨i, a, b, c, d', -, -, -, hy, hab, hc, hd⟩ | ⟨-, hy⟩
  · rw [hy, if_neg year_ne_unknown]
    have hc' := hc
    have hd' := hd
    simp only [isDigit, Bool.and_eq_true, decide_eq_true_eq] at hc' hd'
    have key := toString_parseInt_year (c - 48) (List.mem_range.mpr (by omega)) (d' - 48)
      (List.mem_range.mpr (by omega))
    have e1 : 48 + (c - 48) = c := by omega
    have e2 : 48 + (d' - 48) = d' := by omega
    rw [e1, e2] at key
    rcases hab with ⟨rfl, rfl⟩ | ⟨rfl, rfl⟩
    · simp only [YearField.token, key.1]
    · simp only [YearField.token, key.2]
  · rw [hy, if_pos rfl]
    rfl

/-- The record `parse` returns for `Dune (2021)`. -/
theorem parse_dune :
    parse (str "Dune (2021)") = ParseResult.record
      { display_title := str "Dune"
        machine_title := str "dune"
        canonical_key := str "dune|2021|movie"
        type := str "movie"
        year := YearField.num 2021
        season := Season.null
        part := none
        volume := none
        episode := none
        update_info :=
          { episode_added := none, volume_added := none, part_added := PartAdded.no,
            complete := none }
        languages := []
        qualities := []
        platform := str "Unknown"
        confidence := 7205759403792793 / 9007199254740992 } := by
  decide!

/-- C2, at the input `Dune (2021)`, whose key is `dune|2021|movie`. -/
theorem canonical_key_eq_witness :
    str "dune|2021|movie" =
      str "dune" ++ str "|" ++ (YearField.num 2021).token ++ str "|" ++ str "movie" :=
  canonical_key_eq (str "Dune (2021)") _ parse_dune

theorem machine_title_of_parse {rawTitle : JSString} {r : Record}
    (h : parse rawTitle = ParseResult.record r) :
    r.machine_title = constructMachineTitle r.display_title := by
  obtain ⟨-, d, md, -, -, rfl⟩ := parse_eq_record h
  rfl

/-- C3. Every unit of the machine title built by `constructMachineTitle`, from any
string, is a lowercase ASCII letter `a`-`z` (units 97 to 122) or a digit `0`-`9`
(units 48 to 57); the same holds for the `machine_title` of any record returned
by `parse`. -/
theorem machine_title_alnum (s : JSString) :
    (∀ c, c ∈ constructMachineTitle s → (97 ≤ c ∧ c ≤ 122) ∨ (48 ≤ c ∧ c ≤ 57)) ∧
      (∀ r, parse s = ParseResult.record r →
        ∀ c, c ∈ r.machine_title → (97 ≤ c ∧ c ≤ 122) ∨ (48 ≤ c ∧ c ≤ 57)) := by
  have key : ∀ (t : JSString) (c : Nat), c ∈ constructMachineTitle t →
      (97 ≤ c ∧ c ≤ 122) ∨ (48 ≤ c ∧ c ≤ 57) := by
    intro t c hc
    have := mem_constructMachineTitle hc
    simpa [isLower, isDigit] using this
  refine ⟨key s, fun r hr c hc => ?_⟩
  rw [machine_title_of_parse hr] at hc
  exact key _ c hc

/-- C3, at the unit `m` of the machine title of `X-Men: The Last Stand`. -/
theorem machine_title_alnum_witness :
    109 ∈ constructMachineTitle (str "X-Men: The Last Stand") ∧
      ((97 ≤ 109 ∧ 109 ≤ 122) ∨ (48 ≤ 109 ∧ 109 ≤ 57)) :=
  ⟨by decide!, (machine_title_alnum (str "X-Men: The Last Stand")).1 109 (by decide!)⟩

/-- C5. `extractYear` returns the leftmost year token: if a four-digit token that
starts with `19` or `20` and has no letter, digit or underscore right before or
right after it starts at index `i`, and none starts further left, the result is
that token; the result is `unknown` exactly when no such token starts anywhere.
Hence a result other than `unknown` denotes an integer from 1900 to 2099 and is
a token that no word character follows, so that the `1080` of `1080p` and the
`2020` of `2020p` are not selected. -/
theorem extractYear_leftmost (t : JSString) :
    (∀ i, isYearTokenAt t i = true → (∀ j, j < i → isYearTokenAt t j = false) →
        extractYear t = (t.drop i).take 4) ∧
      (extractYear t = str "unknown" ↔ ∀ i, isYearTokenAt t i = false) ∧
      (extractYear t ≠ str "unknown" →
        1900 ≤ parseInt (extractYear t) ∧ parseInt (extractYear t) ≤ 2099 ∧
        ∃ i, extractYear t = (t.drop i).take 4 ∧ isYearTokenAt t i = true ∧
          isWordOpt (t.get? (i + 4)) = false) ∧
      extractYear (str "1080p") = str "unknown" ∧
      extractYear (str "2020p") = str "unknown" := by
  refine ⟨?_, ?_, ?_, by decide!, by decide!⟩
  · intro i hi hlt
    rcases extractYear_cases t with ⟨k, a, b, c, d, hk, hklt, htok, hy, -⟩ | ⟨hno, -⟩
    · rcases Nat.lt_trichotomy i k with h | h | h
      · rw [hklt i h] at hi; cases hi
      · subst h; rw [hy, htok]
      · rw [hlt k h] at hk; cases hk
    · rw [hno i] at hi; cases hi
  · rcases extractYear_cases t with ⟨k, a, b, c, d, hk, -, -, hy, -⟩ | ⟨hno, hy⟩
    · constructor
      · intro h; rw [hy] at h; exact absurd h year_ne_unknown
      · intro h; rw [h k] at hk; cases hk
    · exact ⟨fun _ => hno, fun _ => hy⟩
  · intro hne
    rcases extractYear_cases t with ⟨k, a, b, c, d, hk, -, htok, hy, hab, hc, hd⟩ | ⟨-, hy⟩
    · rw [hy]
      obtain ⟨h1, h2⟩ := parseInt_year hab hc hd
      refine ⟨h1, h2, k, htok.symm, hk, ?_⟩
      have := hk
      simp only [isYearTokenAt, Bool.and_eq_true, Bool.not_eq_true'] at this
      exact this.2
    · exact absurd hy hne

/-- The score is between 0 and 1 whatever the arguments. -/
theorem calculateConfidence_bounds (displayTitle year type : JSString) (metadata : Metadata) :
    0 ≤ calculateConfidence displayTitle year type metadata ∧
      calculateConfidence displayTitle year type metadata ≤ 1 := by
  have hone : toDouble 1 = 1 := by decide!
  unfold calculateConfidence
  rw [hone]
  refine ⟨?_, min_le_right _ _⟩
  apply le_min _ (by norm_num)
  dsimp only
  split_ifs <;> decide!

/-- C7. The `confidence` of the record that `parse` returns on a non-empty input
lies in the closed interval from 0 to 1. -/
theorem confidence_in_unit_interval (rawTitle : JSString) (r : Record)
    (h : parse rawTitle = ParseResult.record r) :
    rawTitle ≠ [] ∧ 0 ≤ r.confidence ∧ r.confidence ≤ 1 := by
  obtain ⟨hne, d, md, -, -, rfl⟩ := parse_eq_record h
  exact ⟨hne, calculateConfidence_bounds _ _ _ _⟩

/-- The record `parse` returns for `Dune 1080p`. -/
theorem parse_dune_1080p :
    parse (str "Dune 1080p") = ParseResult.record
      { display_title := str "Dune 1080p"
        machine_title := str "dune1080p"
        canonical_key := str "dune1080p|unknown|movie"
        type := str "movie"
        year := YearField.unknown
        season := Season.null
        part := none
        volume := none
        episode := none
        update_info :=
          { episode_added := none, volume_added := none, part_added := PartAdded.no,
            complete := none }
        languages := []
        qualities := [str "1080p"]
        platform := str "Unknown"
        confidence := 5404319552844595 / 9007199254740992 } := by
  decide!

/-- C7, at the input `Dune 1080p`, whose confidence is the double 0.6. -/
theorem confidence_in_unit_interval_witness :
    str "Dune 1080p" ≠ [] ∧ (0 : ℚ) ≤ 5404319552844595 / 9007199254740992 ∧
      (5404319552844595 / 9007199254740992 : ℚ) ≤ 1 :=
  confidence_in_unit_interval (str "Dune 1080p") _ parse_dune_1080p

/-! ## Word-bounded alternations on a text of word characters -/

/-- The expression `\b(w₁|w₂|...)\b`. -/
theorem mem_run_boundedWords {ws : List String} (hne : ws ≠ []) {s e : St}
    (h : e ∈ run false (seqs [.wordB, .cap 1 (words ws), .wordB]) s) :
    ∃ w, w ∈ ws ∧ s.rest = str w ++ e.rest ∧
      isWordOpt s.prev ≠ isWordOpt s.rest.head? ∧
      isWordOpt (((str w).getLast?).or s.prev) ≠ isWordOpt e.rest.head? := by
  simp only [mem_run_seqs_cons, mem_run_seqs_nil, mem_run_wordB, mem_run_cap,
    mem_run_words hne, mem_run_lit] at h
  obtain ⟨m₁, ⟨rfl, hb₁⟩, m₂, ⟨m₂', ⟨w, hw, h1, -, -, h4⟩, rfl⟩, m₃, ⟨rfl, hb₂⟩, rfl⟩ := h
  dsimp only at hb₂ ⊢
  rw [h4] at hb₂
  exact ⟨w, hw, h1, hb₁, hb₂⟩

/-- No match of `\b(w₁|w₂|...)\b` starts right after a word character inside a
text of word characters. -/
theorem matchAt_boundedWords_inside {ws : List String} (hne : ws ≠ [])
    (hws : ∀ w, w ∈ ws → str w ≠ []) (pos : Nat) (prev : Option Nat) (rest : JSString)
    (hprev : isWordOpt prev = true) (hrest : ∀ c, c ∈ rest → isWordChar c = true) :
    matchAt false (seqs [.wordB, .cap 1 (words ws), .wordB]) pos prev rest = none := by
  rw [matchAt_eq_none]
  apply List.eq_nil_iff_forall_not_mem.mpr
  intro e he
  obtain ⟨w, hw, h1, hb₁, -⟩ := mem_run_boundedWords hne he
  dsimp only at h1 hb₁
  cases rest with
  | nil =>
    have : str w = [] := by
      cases hsw : str w with
      | nil => rfl
      | cons x xs => rw [hsw] at h1; cases h1
    exact hws w hw this
  | cons c cs =>
    rw [hprev] at hb₁
    simp [isWordOpt, hrest c (by simp)] at hb₁

/-- On a text of word characters that is none of the words, replacing every match
of `\b(w₁|w₂|...)\b` changes nothing. -/
theorem replaceAll_boundedWords {ws : List String} (hne : ws ≠ [])
    (hws : ∀ w, w ∈ ws → isWordOpt (str w).getLast? = true)
    (f : JSString → JSString) (t : JSString) (ht : ∀ c, c ∈ t → isWordChar c = true)
    (hnot : ∀ w, w ∈ ws → t ≠ str w) :
    replaceAll false (seqs [.wordB, .cap 1 (words ws), .wordB]) f t = t := by
  have hws' : ∀ w, w ∈ ws → str w ≠ [] := by
    intro w hw h0
    have hc := hws w hw
    rw [h0] at hc; cases hc
  have hinv := replaceScan_of_invariant false (seqs [.wordB, .cap 1 (words ws), .wordB]) f
    (fun prev rest => isWordOpt prev = true ∧ ∀ c, c ∈ rest → isWordChar c = true)
    (fun pos prev rest hQ => matchAt_boundedWords_inside hne hws' pos prev rest hQ.1 hQ.2)
    (fun prev c cs hQ => ⟨by simpa [isWordOpt] using hQ.2 c (by simp),
      fun d hd => hQ.2 d (by simp [hd])⟩)
  unfold replaceAll
  cases t with
  | nil =>
    have h0 : matchAt false (seqs [.wordB, .cap 1 (words ws), .wordB]) 0 none [] = none := by
      rw [matchAt_eq_none]
      apply List.eq_nil_iff_forall_not_mem.mpr
      intro e he
      obtain ⟨w, -, -, hb₁, -⟩ := mem_run_boundedWords hne he
      simp [isWordOpt] at hb₁
    simp [replaceScan, h0]
  | cons c cs =>
    have h0 : matchAt false (seqs [.wordB, .cap 1 (words ws), .wordB]) 0 none (c :: cs) =
        none := by
      rw [matchAt_eq_none]
      apply List.eq_nil_iff_forall_not_mem.mpr
      intro e he
      obtain ⟨w, hw, h1, -, hb₂⟩ := mem_run_boundedWords hne he
      dsimp only at h1 hb₂
      have hlw := hws w hw
      cases hl : (str w).getLast? with
      | none => rw [hl] at hlw; cases hlw
      | some l =>
      rw [hl] at hb₂ hlw
      simp only [Option.or_some, isWordOpt] at hb₂ hlw
      rw [hlw] at hb₂
      cases hr : e.rest with
      | nil => rw [hr] at h1; exact hnot w hw (by simpa using h1)
      | cons x xs =>
        rw [hr] at hb₂ h1
        have hx : isWordChar x = true := ht x (by rw [h1]; simp)
        simp [hx] at hb₂
    have hc : isWordChar c = true := ht c (by simp)
    simp only [replaceScan, h0]
    rw [hinv cs 1 (some c) ⟨by simpa [isWordOpt] using hc, fun d hd => ht d (by simp [hd])⟩]

/-! ## Idempotence of the machine title -/

theorem toLowerCase_of_alnum (t : JSString)
    (ht : ∀ c, c ∈ t → (isLower c || isDigit c) = true) : toLowerCase t = t := by
  induction t with
  | nil => rfl
  | cons c cs ih =>
    have hc := ht c (by simp)
    have hcs := ih (fun d hd => ht d (by simp [hd]))
    unfold toLowerCase at hcs ⊢
    rw [List.foldr_cons, hcs]
    have : lowerUnit c = [c] := by
      simp only [isLower, isDigit, Bool.or_eq_true, Bool.and_eq_true, decide_eq_true_eq] at hc
      have h1 : isUpper c = false := by simp [isUpper]; omega
      have h2 : c ≠ 8490 := by omega
      have h3 : c ≠ 304 := by omega
      simp [lowerUnit, h1, h2, h3]
    rw [this]; rfl

theorem isWordChar_of_alnum {c : Nat} (h : (isLower c || isDigit c) = true) :
    isWordChar c = true := by
  simp only [Bool.or_eq_true] at h
  rcases h with h | h <;> simp [isWordChar, h]

/-- A machine title that is no standalone token is left as it is. -/
theorem constructMachineTitle_of_alnum (t : JSString)
    (ht : ∀ c, c ∈ t → (isLower c || isDigit c) = true) (hnot : t ∉ standaloneTokens) :
    constructMachineTitle t = t := by
  have hw : ∀ c, c ∈ t → isWordChar c = true := fun c hc => isWordChar_of_alnum (ht c hc)
  have hroman : replaceAll false romanRegex romanValue t = t := by
    apply replaceAll_boundedWords (List.cons_ne_nil _ _) (by decide) romanValue t hw
    intro w hw' heq
    apply hnot
    rw [heq]
    have hall : ∀ w ∈ ["i", "ii", "iii", "iv", "v", "vi", "vii", "viii", "ix", "x"],
        str w ∈ standaloneTokens := by decide
    exact hall w hw'
  have hstop : replaceAll false stopwordRegex (fun _ => []) t = t := by
    apply replaceAll_boundedWords (List.cons_ne_nil _ _) (by decide) _ t hw
    intro w hw' heq
    apply hnot
    rw [heq]
    have hall : ∀ w ∈ ["the", "a", "an"], str w ∈ standaloneTokens := by decide
    exact hall w hw'
  unfold constructMachineTitle
  simp only [toLowerCase_of_alnum t ht, hroman, hstop]
  unfold replaceAll
  rw [replaceScan_nonAlnum]
  exact List.filter_eq_self.mpr ht

theorem constructMachineTitle_token_ne :
    ∀ w ∈ standaloneTokens, constructMachineTitle w ≠ w := by
  decide!

/-- C4, refuted as stated: the machine title of `t he` is `the`, whose machine
title is the empty string. -/
theorem constructMachineTitle_not_idempotent :
    constructMachineTitle (constructMachineTitle (str "t he")) ≠
      constructMachineTitle (str "t he") := by
  decide!

/-- C4, amended. Applying `constructMachineTitle` to its own output gives that
output again exactly when the output is not a standalone token, that is, none of
the numerals `i` to `x` of `romanMap` and none of the stopwords `the`, `a`,
`an`. -/
theorem constructMachineTitle_idempotent_iff (s : JSString) :
    constructMachineTitle (constructMachineTitle s) = constructMachineTitle s ↔
      constructMachineTitle s ∉ standaloneTokens := by
  constructor
  · intro h hmem
    exact constructMachineTitle_token_ne _ hmem h
  · intro h
    exact constructMachineTitle_of_alnum _ (fun c hc => mem_constructMachineTitle hc) h

/-! ## Season ranges -/

/-- C6, refuted as stated: in the title `Season 1-4294967296` the range pattern
matches, with groups `1` and `4294967296`, and `extractMetadata` produces no
season field at all: the loop raises the `RangeError` of `push`. -/
theorem season_range_overflow :
    exec true seasonRangeRegex (str "Season 1-4294967296") =
        some ⟨0, str "Season 1-4294967296", [(2, str "4294967296"), (1, str "1")]⟩ ∧
      extractMetadata (str "Season 1-4294967296") (str "series") = none := by
  decide!

/-- C6, amended. Whenever the range pattern matches somewhere in the title, with
`start` and `end` the integers of its two groups, `end` below `2 ^ 53` and at
most 112813858 integers from `start` to `end` (`pushLimit`, the number of
elements up to which an array grows by `push` under V8), `extractMetadata` returns
and the `season` field (of the metadata, and of the record `parse` builds from a
title that is trimmed already) is a list, strictly ascending, whose members are
exactly the integers from `start` to `end`; whether the single-season pattern
matches as well, or earlier, plays no role. -/
theorem season_range_list (title type : JSString) (m : Match)
    (h : exec true seasonRangeRegex title = some m)
    (_hexact : parseInt (m.group 2) < 2 ^ 53)
    (hsize : parseInt (m.group 2) + 1 - parseInt (m.group 1) ≤ pushLimit) :
    ∃ l, (∃ md, extractMetadata title type = some md ∧ md.season = Season.list l) ∧
      (∀ rawTitle r, trim rawTitle = title → parse rawTitle = ParseResult.record r →
        r.season = Season.list l) ∧
      List.Pairwise (· < ·) l ∧
      ∀ n, n ∈ l ↔ parseInt (m.group 1) ≤ n ∧ n ≤ parseInt (m.group 2) := by
  have hmeta : ∀ ty md, extractMetadata title ty = some md →
      md.season = Season.list
        (List.range' (parseInt (m.group 1)) (parseInt (m.group 2) + 1 - parseInt (m.group 1))) := by
    intro ty md hmd
    simp only [extractMetadata, h, seasonRange, hsize, if_true, Option.map_some',
      Option.some.injEq] at hmd
    rw [← hmd]
  refine ⟨List.range' (parseInt (m.group 1)) (parseInt (m.group 2) + 1 - parseInt (m.group 1)),
    ?_, ?_, List.pairwise_lt_range' _ _, ?_⟩
  · cases hmd : extractMetadata title type with
    | none =>
      obtain ⟨m', hm', hbig⟩ := (extractMetadata_eq_none _ _).mp hmd
      rw [h] at hm'
      cases hm'
      omega
    | some md => exact ⟨md, rfl, hmeta type md hmd⟩
  · intro rawTitle r htrim hp
    obtain ⟨-, d, md, -, hmd, rfl⟩ := parse_eq_record hp
    dsimp only
    rw [htrim] at hmd
    exact hmeta _ md hmd
  · intro n
    rw [List.mem_range'_1]
    omega

/-- C6 as amended, at the title `Season 1-5`: the members of the list are the
integers from 1 to 5. -/
theorem season_range_list_witness :
    ∃ l, (∃ md, extractMetadata (str "Season 1-5") (str "series") = some md ∧
        md.season = Season.list l) ∧
      (∀ rawTitle r, trim rawTitle = str "Season 1-5" →
        parse rawTitle = ParseResult.record r → r.season = Season.list l) ∧
      List.Pairwise (· < ·) l ∧
      ∀ n, n ∈ l ↔ parseInt (str "1") ≤ n ∧ n ≤ parseInt (str "5") :=
  season_range_list (str "Season 1-5") (str "series")
    ⟨0, str "Season 1-5", [(2, str "5"), (1, str "1")]⟩ (by decide!) (by decide!) (by decide!)

/-- The bound is met: a range of 112813858 integers gives a season field, a range
of 112813859 integers raises the `RangeError`. -/
theorem season_range_boundary :
    (∃ md, extractMetadata (str "Season 1-112813858") (str "series") = some md) ∧
      extractMetadata (str "Season 1-112813859") (str "series") = none := by
  constructor
  · cases hmd : extractMetadata (str "Season 1-112813858") (str "series") with
    | some md => exact ⟨md, rfl⟩
    | none =>
      exfalso
      obtain ⟨m, hm, hbig⟩ := (extractMetadata_eq_none _ _).mp hmd
      have hexec : exec true seasonRangeRegex (str "Season 1-112813858") =
          some ⟨0, str "Season 1-112813858", [(2, str "112813858"), (1, str "1")]⟩ := by
        decide!
      rw [hexec] at hm
      cases hm
      revert hbig
      decide
  · decide!

/-- The example of the specification: `Season 1-5` gives the list 1, 2, 3, 4, 5;
so does `S01 Season 1-5`, where a single-season token comes first. -/
theorem season_range_examples :
    (extractMetadata (str "Season 1-5") (str "series")).map (·.season) =
        some (Season.list [1, 2, 3, 4, 5]) ∧
      (extractMetadata (str "S01 Season 1-5") (str "series")).map (·.season) =
        some (Season.list [1, 2, 3, 4, 5]) := by
  decide!

/-! ## The scenarios of the specification -/

/-- The record `parse` returns for the Wednesday title. -/
theorem parse_wednesdayTitle :
    parse wednesdayTitle = ParseResult.record
      { display_title := str "Wednesday"
        machine_title := str "wednesday"
        canonical_key := str "wednesday|2025|series"
        type := str "series"
        year := YearField.num 2025
        season := Season.num 2
        part := some 1
        volume := none
        episode := none
        update_info :=
          { episode_added := none, volume_added := none, part_added := PartAdded.num 1,
            complete := none }
        languages := [str "Hindi", str "English", str "Dual Audio"]
        qualities := [str "480p", str "720p", str "1080p", str "2160p", str "4K", str "WEB-DL"]
        platform := str "Netflix"
        confidence := 9007199254740991 / 9007199254740992 } := by
  decide!

/-- C8, the behaviour of the code: for the Wednesday title, whose only block with
`Added` is ` [Part 1 & 2 Added]`, the numbered pattern matches `Part 1` first and
`part_added` is the integer 1, not `true`. -/
theorem wednesday_part_added :
    addedBlocks wednesdayTitle = [str " [Part 1 & 2 Added]"] ∧
      ∃ r, parse wednesdayTitle = ParseResult.record r ∧
        r.update_info.part_added = PartAdded.num 1 ∧
        r.update_info.part_added ≠ PartAdded.yes :=
  ⟨by decide!, _, parse_wednesdayTitle, rfl, by decide⟩

/-- The record `parse` returns for the Gangs of Wasseypur title. -/
theorem parse_wasseypurTitle :
    parse wasseypurTitle = ParseResult.record
      { display_title := str "Gangs of Wasseypur Part – 2"
        machine_title := str "gangsofwasseypurpart2"
        canonical_key := str "gangsofwasseypurpart2|2012|movie"
        type := str "movie"
        year := YearField.num 2012
        season := Season.null
        part := none
        volume := none
        episode := none
        update_info :=
          { episode_added := none, volume_added := none, part_added := PartAdded.no,
            complete := none }
        languages := [str "Hindi"]
        qualities := [str "480p", str "720p", str "1080p", str "BluRay"]
        platform := str "Unknown"
        confidence := 9007199254740991 / 9007199254740992 } := by
  decide!

/-- C9, refuted as stated: no record returned for the Gangs of Wasseypur title has
all the fields of the scenario, because `part` is `null`, not 2. -/
theorem wasseypur_scenario_fails :
    ¬ ∃ r, parse wasseypurTitle = ParseResult.record r ∧
        r.type = str "movie" ∧ r.year = YearField.num 2012 ∧
        r.display_title = str "Gangs of Wasseypur Part – 2" ∧
        r.machine_title = str "gangsofwasseypurpart2" ∧ r.part = some 2 ∧
        r.languages = [str "Hindi"] ∧
        str "BluRay" ∈ r.qualities ∧ str "480p" ∈ r.qualities ∧ str "720p" ∈ r.qualities ∧
        str "1080p" ∈ r.qualities := by
  rintro ⟨r, hr, -, -, -, -, hpart, -⟩
  rw [parse_wasseypurTitle] at hr
  cases hr
  cases hpart

/-- C9, amended. For the Gangs of Wasseypur title `parse` returns type `movie`,
year 2012, display title `Gangs of Wasseypur Part – 2`, machine title
`gangsofwasseypurpart2`, languages `Hindi` alone, qualities containing `BluRay`,
`480p`, `720p` and `1080p`, and `part` `null`: the en dash between `Part` and `2`
is not a separator of the part pattern. -/
theorem wasseypur_scenario :
    ∃ r, parse wasseypurTitle = ParseResult.record r ∧
      r.type = str "movie" ∧ r.year = YearField.num 2012 ∧
      r.display_title = str "Gangs of Wasseypur Part – 2" ∧
      r.machine_title = str "gangsofwasseypurpart2" ∧ r.part = none ∧
      r.languages = [str "Hindi"] ∧
      str "BluRay" ∈ r.qualities ∧ str "480p" ∈ r.qualities ∧ str "720p" ∈ r.qualities ∧
      str "1080p" ∈ r.qualities :=
  ⟨_, parse_wasseypurTitle, rfl, rfl, rfl, rfl, rfl, rfl, by decide, by decide, by decide,
    by decide⟩

/-- The record `parse` returns for the Panchayat title. -/
theorem parse_panchayatTitle :
    parse panchayatTitle = ParseResult.record
      { display_title := str "Panchayat"
        machine_title := str "panchayat"
        canonical_key := str "panchayat|2025|series"
        type := str "series"
        year := YearField.num 2025
        season := Season.num 4
        part := none
        volume := none
        episode := none
        update_info :=
          { episode_added := none, volume_added := none, part_added := PartAdded.no,
            complete := some true }
        languages := [str "Hindi"]
        qualities := [str "480p", str "720p", str "1080p", str "2160p", str "4K", str "WEB-DL"]
        platform := str "Amazon"
        confidence := 9007199254740991 / 9007199254740992 } := by
  decide!

/-- C10. For the Panchayat title `parse` returns type `series`, year 2025, display
title `Panchayat`, machine title `panchayat`, season 4, languages `Hindi` alone,
platform `Amazon`, `update_info.complete` true, and qualities containing `480p`,
`720p`, `1080p`, `2160p` and `4K`. -/
theorem panchayat_scenario :
    ∃ r, parse panchayatTitle = ParseResult.record r ∧
      r.type = str "series" ∧ r.year = YearField.num 2025 ∧
      r.display_title = str "Panchayat" ∧ r.machine_title = str "panchayat" ∧
      r.season = Season.num 4 ∧ r.languages = [str "Hindi"] ∧ r.platform = str "Amazon" ∧
      r.update_info.complete = some true ∧
      str "480p" ∈ r.qualities ∧ str "720p" ∈ r.qualities ∧ str "1080p" ∈ r.qualities ∧
      str "2160p" ∈ r.qualities ∧ str "4K" ∈ r.qualities :=
  ⟨_, parse_panchayatTitle, rfl, rfl, rfl, rfl, rfl, rfl, rfl, rfl, by decide, by decide,
    by decide, by decide, by decide⟩

/-! ## The confidence score and the canonical key -/

theorem classifyType_cases (t : JSString) :
    classifyType t = str "series" ∨ classifyType t = str "movie" := by
  unfold classifyType
  split
  · exact Or.inl rfl
  · exact Or.inr rfl

theorem classifyType_ne_nil (t : JSString) : classifyType t ≠ [] := by
  rcases classifyType_cases t with h | h <;> rw [h] <;> decide

/-- The string `extractYear` returns is `unknown` or four digits that print back
from their integer value. -/
theorem extractYear_token (t : JSString) :
    extractYear t = str "unknown" ∨
      (extractYear t ≠ str "unknown" ∧ (extractYear t).length = 4 ∧
        (∀ c, c ∈ extractYear t → isDigit c = true) ∧
        str (toString (parseInt (extractYear t))) = extractYear t) := by
  rcases extractYear_cases t with ⟨i, a, b, c, d, -, -, -, hy, hab, hc, hd⟩ | ⟨-, hy⟩
  · right
    rw [hy]
    have hc' := hc
    have hd' := hd
    simp only [isDigit, Bool.and_eq_true, decide_eq_true_eq] at hc' hd'
    have key := toString_parseInt_year (c - 48) (List.mem_range.mpr (by omega)) (d - 48)
      (List.mem_range.mpr (by omega))
    have e1 : 48 + (c - 48) = c := by omega
    have e2 : 48 + (d - 48) = d := by omega
    rw [e1, e2] at key
    have h49 : isDigit 49 = true := by decide
    have h57 : isDigit 57 = true := by decide
    have h50 : isDigit 50 = true := by decide
    have h48 : isDigit 48 = true := by decide
    refine ⟨year_ne_unknown, rfl, ?_, ?_⟩
    · intro x hx
      simp only [List.mem_cons, List.mem_singleton, List.not_mem_nil, or_false] at hx
      rcases hab with ⟨rfl, rfl⟩ | ⟨rfl, rfl⟩ <;> rcases hx with rfl | rfl | rfl | rfl <;>
        assumption
    · rcases hab with ⟨rfl, rfl⟩ | ⟨rfl, rfl⟩
      · exact key.1
      · exact key.2
  · exact Or.inl hy

/-- Two texts without the unit `sep`, each followed by `sep`, split in one way
only. -/
theorem append_sep_inj (sep : Nat) :
    ∀ (x x' r r' : JSString), sep ∉ x → sep ∉ x' → x ++ sep :: r = x' ++ sep :: r' →
      x = x' ∧ r = r' := by
  intro x
  induction x with
  | nil =>
    intro x' r r' _ hx' h
    cases x' with
    | nil => simpa using h
    | cons c cs =>
      simp only [List.nil_append, List.cons_append, List.cons.injEq] at h
      exact absurd (by simp [h.1]) hx'
  | cons c cs ih =>
    intro x' r r' hx hx' h
    cases x' with
    | nil =>
      simp only [List.nil_append, List.cons_append, List.cons.injEq] at h
      exact absurd (by simp [h.1]) hx
    | cons c' cs' =>
      simp only [List.cons_append, List.cons.injEq] at h
      obtain ⟨h1, h2⟩ := ih cs' r r' (fun hm => hx (by simp [hm])) (fun hm => hx' (by simp [hm])) h.2
      exact ⟨by rw [h.1, h1], h2⟩

theorem bar_not_mem_constructMachineTitle (s : JSString) : 124 ∉ constructMachineTitle s := by
  intro h
  have := mem_constructMachineTitle h
  revert this
  decide

theorem bar_not_mem_extractYear (t : JSString) : 124 ∉ extractYear t := by
  rcases extractYear_token t with h | ⟨-, -, hd, -⟩
  · rw [h]; decide
  · intro hm
    have := hd 124 hm
    revert this
    decide

theorem bar_not_mem_classifyType (t : JSString) : 124 ∉ classifyType t := by
  rcases classifyType_cases t with h | h <;> rw [h] <;> decide

/-- The year field determines the year string and conversely. -/
theorem yearField_eq_iff (t u : JSString) :
    ((if extractYear t = str "unknown" then YearField.unknown
        else YearField.num (parseInt (extractYear t))) =
      (if extractYear u = str "unknown" then YearField.unknown
        else YearField.num (parseInt (extractYear u)))) ↔
      extractYear t = extractYear u := by
  constructor
  · intro h
    rcases extractYear_token t with ht | ⟨ht, -, -, ht'⟩ <;>
      rcases extractYear_token u with hu | ⟨hu, -, -, hu'⟩
    · rw [ht, hu]
    · simp [ht, hu] at h
    · simp [ht, hu] at h
    · simp only [ht, hu, if_false, YearField.num.injEq] at h
      rw [← ht', ← hu', h]
  · intro h
    rw [h]

/-- C18. The canonical key encodes machine title, year and type injectively: for
two inputs on which `parse` returns records (non-empty inputs), the canonical keys
are equal if and only if the machine titles, the years and the types are equal.
The delimiter `|` (unit 124) occurs neither in a machine title nor in a year
string nor in a type. -/
theorem canonical_key_injective (a b : JSString) (ra rb : Record)
    (ha : parse a = ParseResult.record ra) (hb : parse b = ParseResult.record rb) :
    (ra.canonical_key = rb.canonical_key ↔
        ra.machine_title = rb.machine_title ∧ ra.year = rb.year ∧ ra.type = rb.type) ∧
      124 ∉ ra.machine_title ∧ 124 ∉ ra.year.token ∧ 124 ∉ ra.type := by
  obtain ⟨-, da, mda, -, -, rfl⟩ := parse_eq_record ha
  obtain ⟨-, db, mdb, -, -, rfl⟩ := parse_eq_record hb
  dsimp only
  have hbar : str "|" = [124] := by decide
  refine ⟨?_, bar_not_mem_constructMachineTitle _, ?_, bar_not_mem_classifyType _⟩
  · rw [yearField_eq_iff, hbar]
    constructor
    · intro h
      simp only [List.append_assoc, List.singleton_append] at h
      obtain ⟨h1, h2⟩ := append_sep_inj 124 _ _ _ _ (bar_not_mem_constructMachineTitle _)
        (bar_not_mem_constructMachineTitle _) h
      obtain ⟨h3, h4⟩ := append_sep_inj 124 _ _ _ _ (bar_not_mem_extractYear _)
        (bar_not_mem_extractYear _) h2
      exact ⟨h1, h3, h4⟩
    · rintro ⟨h1, h2, h3⟩
      rw [h1, h2, h3]
  · rcases extractYear_token (trim a) with h | ⟨h, -, hd, hs⟩
    · simp only [h, if_true, YearField.token]; decide
    · simp only [h, if_false, YearField.token, hs]
      exact bar_not_mem_extractYear _

/-- C18, at the inputs `Dune (2021)` and `Dune 1080p`: the keys `dune|2021|movie`
and `dune1080p|unknown|movie` differ, and so do the machine titles. -/
theorem canonical_key_injective_witness :
    (str "dune|2021|movie" = str "dune1080p|unknown|movie" ↔
        str "dune" = str "dune1080p" ∧ YearField.num 2021 = YearField.unknown ∧
          str "movie" = str "movie") ∧
      124 ∉ str "dune" ∧ 124 ∉ (YearField.num 2021).token ∧ 124 ∉ str "movie" :=
  canonical_key_injective (str "Dune (2021)") (str "Dune 1080p") _ _ parse_dune parse_dune_1080p

/-! ## Further lemmas on the matcher -/

theorem mem_run_eps {ic : Bool} {s e : St} : e ∈ run ic .eps s ↔ e = s := by
  simp [run]

theorem mem_run_opt {ic : Bool} {r : Re} {s e : St} :
    e ∈ run ic (.opt r) s ↔ e ∈ run ic r s ∨ e = s := by
  simp [run]

theorem mem_run_eos {ic : Bool} {s e : St} : e ∈ run ic .eos s ↔ e = s ∧ s.rest = [] := by
  cases hr : s.rest <;> simp [run, hr]

theorem mem_run_bos {ic : Bool} {s e : St} : e ∈ run ic .bos s ↔ e = s ∧ s.pos = 0 := by
  by_cases h : s.pos = 0 <;> simp [run, h]

/-- The end states of `a*`: any run of accepted units may be consumed. -/
theorem mem_starEnds {ic : Bool} {a : Atom} {caps : List (Nat × JSString)} :
    ∀ (rest : JSString) (pos : Nat) (prev : Option Nat) (e : St),
      e ∈ starEnds ic a caps pos prev rest ↔
        ∃ w, rest = w ++ e.rest ∧ (∀ c, c ∈ w → a.test ic c = true) ∧
          e.pos = pos + w.length ∧ e.prev = (w.getLast?).or prev ∧ e.caps = caps := by
  intro rest
  induction rest with
  | nil =>
    intro pos prev e
    simp only [starEnds, List.mem_singleton]
    constructor
    · rintro rfl
      exact ⟨[], rfl, by simp, rfl, rfl, rfl⟩
    · rintro ⟨w, hw, -, hp, hv, hc⟩
      obtain ⟨p', v', r', c'⟩ := e
      have hw' : w = [] ∧ r' = [] := by
        cases w with
        | nil => exact ⟨rfl, by simpa using hw.symm⟩
        | cons x xs => cases hw
      obtain ⟨rfl, rfl⟩ := hw'
      simp only [List.length_nil, Nat.add_zero, List.getLast?_nil, Option.none_or] at hp hv
      dsimp only at hc
      subst hp; subst hv; subst hc
      rfl
  | cons c cs ih =>
    intro pos prev e
    have hself : ∀ w, c :: cs = w ++ e.rest → w = [] → e.pos = pos + w.length →
        e.prev = (w.getLast?).or prev → e.caps = caps →
        e = ⟨pos, prev, c :: cs, caps⟩ := by
      intro w hw hnil hp hv hc
      subst hnil
      obtain ⟨p', v', r', c'⟩ := e
      simp only [List.nil_append, List.length_nil, Nat.add_zero, List.getLast?_nil,
        Option.none_or] at hw hp hv hc
      subst hw; subst hp; subst hv; subst hc
      rfl
    by_cases ht : a.test ic c = true
    · simp only [starEnds, ht, if_true, List.mem_append, List.mem_singleton]
      rw [ih]
      constructor
      · rintro (⟨w, hw, hall, hp, hv, hc⟩ | he)
        · refine ⟨c :: w, by simp [hw], ?_, by simp [hp]; omega, ?_, hc⟩
          · intro x hx
            rcases List.mem_cons.mp hx with rfl | hx
            · exact ht
            · exact hall x hx
          · rw [hv]
            cases w with
            | nil => simp
            | cons d ds => rw [List.getLast?_cons_cons]; exact getLast?_cons_or _ _ _ _
        · subst he
          exact ⟨[], rfl, by simp, rfl, rfl, rfl⟩
      · rintro ⟨w, hw, hall, hp, hv, hc⟩
        cases w with
        | nil => exact Or.inr (hself [] hw rfl hp hv hc)
        | cons x xs =>
          simp only [List.cons_append, List.cons.injEq] at hw
          obtain ⟨rfl, hw⟩ := hw
          refine Or.inl ⟨xs, hw, fun y hy => hall y (by simp [hy]), by simp at hp; omega, ?_, hc⟩
          rw [hv]
          cases xs with
          | nil => simp
          | cons d ds => rw [List.getLast?_cons_cons]; exact getLast?_cons_or _ _ _ _
    · have ht' : a.test ic c = false := by simpa using ht
      simp only [starEnds, ht', Bool.false_eq_true, if_false, List.mem_singleton]
      constructor
      · intro he
        subst he
        exact ⟨[], rfl, by simp, rfl, rfl, rfl⟩
      · rintro ⟨w, hw, hall, hp, hv, hc⟩
        cases w with
        | nil => exact hself [] hw rfl hp hv hc
        | cons x xs =>
          simp only [List.cons_append, List.cons.injEq] at hw
          obtain ⟨rfl, -⟩ := hw
          exact absurd (hall _ (by simp)) ht

theorem mem_run_star {ic : Bool} {a : Atom} {s e : St} :
    e ∈ run ic (.star a) s ↔
      ∃ w, s.rest = w ++ e.rest ∧ (∀ c, c ∈ w → a.test ic c = true) ∧
        e.pos = s.pos + w.length ∧ e.prev = (w.getLast?).or s.prev ∧ e.caps = s.caps := by
  simp only [run]
  exact mem_starEnds _ _ _ _

theorem getLast?_append_or (w₁ w₂ : JSString) (o : Option Nat) :
    ((w₁ ++ w₂).getLast?).or o = (w₂.getLast?).or ((w₁.getLast?).or o) := by
  rw [List.getLast?_append]
  cases w₂.getLast? <;> cases w₁.getLast? <;> cases o <;> rfl

/-- Every end state lies further right in the same text: it has consumed a
prefix `w` of the rest, and its `prev` is the last unit consumed. -/
theorem run_inv {ic : Bool} (r : Re) :
    ∀ {s e : St}, e ∈ run ic r s →
      ∃ w, s.rest = w ++ e.rest ∧ e.pos = s.pos + w.length ∧
        e.prev = (w.getLast?).or s.prev := by
  induction r with
  | eps =>
    intro s e h
    rw [mem_run_eps] at h; subst h
    exact ⟨[], rfl, rfl, rfl⟩
  | one a =>
    intro s e h
    rw [mem_run_one] at h
    obtain ⟨c, cs, hr, -, rfl⟩ := h
    exact ⟨[c], by simpa using hr, rfl, rfl⟩
  | star a =>
    intro s e h
    rw [mem_run_star] at h
    obtain ⟨w, h1, -, h2, h3, -⟩ := h
    exact ⟨w, h1, h2, h3⟩
  | wordB =>
    intro s e h
    rw [mem_run_wordB] at h
    obtain ⟨rfl, -⟩ := h
    exact ⟨[], rfl, rfl, rfl⟩
  | bos =>
    intro s e h
    rw [mem_run_bos] at h
    obtain ⟨rfl, -⟩ := h
    exact ⟨[], rfl, rfl, rfl⟩
  | eos =>
    intro s e h
    rw [mem_run_eos] at h
    obtain ⟨rfl, -⟩ := h
    exact ⟨[], rfl, rfl, rfl⟩
  | seq r₁ r₂ ih₁ ih₂ =>
    intro s e h
    rw [mem_run_seq] at h
    obtain ⟨m, hm, he⟩ := h
    obtain ⟨w₁, a1, a2, a3⟩ := ih₁ hm
    obtain ⟨w₂, b1, b2, b3⟩ := ih₂ he
    refine ⟨w₁ ++ w₂, by rw [a1, b1, List.append_assoc], by rw [b2, a2, List.length_append]; omega,
      ?_⟩
    rw [b3, a3, getLast?_append_or]
  | alt r₁ r₂ ih₁ ih₂ =>
    intro s e h
    rw [mem_run_alt] at h
    rcases h with h | h
    · exact ih₁ h
    · exact ih₂ h
  | opt r ih =>
    intro s e h
    rw [mem_run_opt] at h
    rcases h with h | rfl
    · exact ih h
    · exact ⟨[], rfl, rfl, rfl⟩
  | cap n r ih =>
    intro s e h
    rw [mem_run_cap] at h
    obtain ⟨m, hm, rfl⟩ := h
    obtain ⟨w, h1, h2, h3⟩ := ih (e := m) hm
    exact ⟨w, h1, h2, h3⟩

/-- `seqs` as a fold, whatever the list. -/
theorem mem_run_seqs_append {ic : Bool} {rs₁ rs₂ : List Re} {s e : St} :
    e ∈ run ic (seqs (rs₁ ++ rs₂)) s ↔
      ∃ m, m ∈ run ic (seqs rs₁) s ∧ e ∈ run ic (seqs rs₂) m := by
  induction rs₁ generalizing s with
  | nil => simp [mem_run_seqs_nil]
  | cons r rs ih =>
    simp only [List.cons_append, mem_run_seqs_cons, ih]
    constructor
    · rintro ⟨m, hm, m', hm', he⟩
      exact ⟨m', ⟨m, hm, hm'⟩, he⟩
    · rintro ⟨m', ⟨m, hm, hm'⟩, he⟩
      exact ⟨m, hm, m', hm', he⟩

/-- A literal under either setting of the `i` flag: the units consumed agree
with the literal one by one, as `Atom.test` decides. -/
theorem mem_run_unitsOf {ic : Bool} {cs : List Nat} {s e : St} :
    e ∈ run ic (seqs (cs.map fun c => .one (.chr c))) s ↔
      ∃ w, s.rest = w ++ e.rest ∧ List.Forall₂ (fun u c => Atom.test ic (.chr c) u = true) w cs ∧
        e.pos = s.pos + w.length ∧ e.caps = s.caps ∧ e.prev = (w.getLast?).or s.prev := by
  induction cs generalizing s with
  | nil =>
    obtain ⟨p, v, r, c⟩ := s; obtain ⟨p', v', r', c'⟩ := e
    simp only [List.map_nil, mem_run_seqs_nil, St.mk.injEq, List.forall₂_nil_right_iff]
    constructor
    · rintro ⟨rfl, rfl, rfl, rfl⟩
      exact ⟨[], rfl, rfl, rfl, rfl, rfl⟩
    · rintro ⟨w, h1, rfl, h2, h3, h4⟩
      simp at h1 h2 h4
      exact ⟨h2, h4, h1.symm, h3⟩
  | cons c cs ih =>
    rw [List.map_cons, mem_run_seqs_cons]
    constructor
    · rintro ⟨m, hm, he⟩
      rw [mem_run_one] at hm
      obtain ⟨u, us, hrest, htest, rfl⟩ := hm
      rw [ih] at he
      obtain ⟨w, h1, hf, h2, h3, h4⟩ := he
      dsimp only at h1 h2 h3 h4
      refine ⟨u :: w, by rw [hrest, h1]; rfl, List.Forall₂.cons htest hf,
        by rw [h2, List.length_cons]; omega, h3, ?_⟩
      rw [h4]
      cases w with
      | nil => simp
      | cons d ds => rw [List.getLast?_cons_cons]; exact getLast?_cons_or _ _ _ _
    · rintro ⟨w, h1, hf, h2, h3, h4⟩
      cases hf with
      | cons htest hf' =>
        rename_i u us
        refine ⟨⟨s.pos + 1, some u, us ++ e.rest, s.caps⟩, ?_, ?_⟩
        · rw [mem_run_one]; exact ⟨u, us ++ e.rest, by simpa using h1, htest, rfl⟩
        · rw [ih]
          refine ⟨us, rfl, hf', by rw [h2, List.length_cons]; dsimp only; omega, h3, ?_⟩
          rw [h4]
          dsimp only
          cases us with
          | nil => simp
          | cons d ds => rw [List.getLast?_cons_cons]; exact getLast?_cons_or _ _ _ _

theorem mem_run_litOf {ic : Bool} {w₀ : String} {s e : St} :
    e ∈ run ic (lit w₀) s ↔
      ∃ w, s.rest = w ++ e.rest ∧
        List.Forall₂ (fun u c => Atom.test ic (.chr c) u = true) w (str w₀) ∧
        e.pos = s.pos + w.length ∧ e.caps = s.caps ∧ e.prev = (w.getLast?).or s.prev :=
  mem_run_unitsOf

theorem mem_run_wordsOf {ic : Bool} {ws : List String} (hne : ws ≠ []) {s e : St} :
    e ∈ run ic (words ws) s ↔ ∃ w, w ∈ ws ∧ e ∈ run ic (lit w) s := by
  induction ws with
  | nil => exact absurd rfl hne
  | cons w ws ih =>
    cases ws with
    | nil => simp [words, alts]
    | cons w' ws' =>
      have := ih (by simp)
      simp only [words, List.map_cons] at this ⊢
      rw [mem_run_alts_cons, this]
      simp

/-! ## The cleanup loop -/

/-- What the loop returns: the title after some number `n` of passes, with
`n + 1` tests of the condition; either no pass was made because the title was
equal to `prev` at once, or the last pass changed nothing. -/
theorem cleanupLoop_eq_some (fuel : Nat) :
    ∀ (prev cleanTitle r : JSString), cleanupLoop fuel prev cleanTitle = some r →
      ∃ n, n + 1 ≤ fuel ∧ r = cleanupPass^[n] cleanTitle ∧
        (n = 0 → cleanTitle = prev) ∧ (0 < n → cleanupPass r = r) := by
  induction fuel with
  | zero => intro prev c r h; simp [cleanupLoop] at h
  | succ fuel ih =>
    intro prev c r h
    unfold cleanupLoop at h
    by_cases hc : c = prev
    · simp only [hc, if_true, Option.some.injEq] at h
      exact ⟨0, by omega, by simp [h, hc], fun _ => hc, fun h0 => absurd h0 (by omega)⟩
    · simp only [hc, if_false] at h
      obtain ⟨n, hn, hr, h0, hpos⟩ := ih c (cleanupPass c) r h
      refine ⟨n + 1, by omega, by simpa [Function.iterate_succ_apply] using hr,
        fun h1 => absurd h1 (by omega), fun _ => ?_⟩
      rcases Nat.eq_zero_or_pos n with hz | hp
      · subst hz
        simp only [Function.iterate_zero, id_eq] at hr
        have := h0 rfl
        rw [hr, this, this]
      · exact hpos hp

theorem cleanupPass_nil : cleanupPass [] = [] := by decide

/-- The display title is left unchanged by one more pass of the loop. -/
theorem cleanupPass_extractDisplayTitle {title type d : JSString}
    (h : extractDisplayTitle title type = some d) : cleanupPass d = d := by
  unfold extractDisplayTitle at h
  obtain ⟨n, -, hr, h0, hpos⟩ := cleanupLoop_eq_some _ _ _ _ h
  rcases Nat.eq_zero_or_pos n with hz | hp
  · subst hz
    simp only [Function.iterate_zero, id_eq] at hr
    rw [hr, h0 rfl]
    exact cleanupPass_nil
  · exact hpos hp

/-- One rule of the loop, a replacement by the empty string followed by `trim`,
leaves the title unchanged or makes it shorter. -/
theorem trim_replaceFirst_eq_or_lt (ic : Bool) (r : Re) (s : JSString) :
    trim (replaceFirst ic r [] s) = s ∨ (trim (replaceFirst ic r [] s)).length < s.length := by
  have h := (trim_sublist _).trans (replaceFirst_nil_sublist ic r s)
  rcases Nat.lt_or_ge (trim (replaceFirst ic r [] s)).length s.length with hlt | hge
  · exact Or.inr hlt
  · exact Or.inl (h.eq_of_length (Nat.le_antisymm h.length_le hge))

/-- C15. The cleanup loop of `extractDisplayTitle` terminates on every input.
Each of its three rules followed by `trim`, and hence each pass, leaves the title
unchanged or strictly shortens it; started on a title of length `n` (whatever
`prev` is) the loop stops after at most `n + 1` passes, that is within `n + 2`
tests of its condition, and `extractDisplayTitle` returns. -/
theorem cleanup_loop_terminates (s : JSString) :
    (∀ ic r, trim (replaceFirst ic r [] s) = s ∨
        (trim (replaceFirst ic r [] s)).length < s.length) ∧
      (cleanupPass s = s ∨ (cleanupPass s).length < s.length) ∧
      (∀ prev, ∃ n, n ≤ s.length + 1 ∧
        cleanupLoop (s.length + 2) prev s = some (cleanupPass^[n] s)) ∧
      ∀ type, ∃ d, extractDisplayTitle s type = some d := by
  refine ⟨fun ic r => trim_replaceFirst_eq_or_lt ic r s, cleanupPass_eq_or_lt s, ?_,
    fun type => extractDisplayTitle_isSome s type⟩
  intro prev
  obtain ⟨r, hr⟩ := cleanupLoop_terminates (s.length + 2) prev s (Or.inl (Nat.le_refl _))
  obtain ⟨n, hn, hrn, -, -⟩ := cleanupLoop_eq_some _ _ _ _ hr
  exact ⟨n, by omega, by rw [hr, hrn]⟩

/-! ## Update information -/

theorem exec_eq_none {ic : Bool} {r : Re} {t : JSString} :
    exec ic r t = none ↔
      ∀ k, k ≤ t.length → run ic r ⟨k, (t.take k).getLast?, t.drop k, []⟩ = [] := by
  unfold exec
  have h := searchFrom_eq_none ic r t []
  simp only [List.length_nil, Nat.zero_add, List.nil_append, List.getLast?_nil] at h
  rw [h]
  constructor
  · intro hk k hle
    exact matchAt_eq_none.mp (hk k hle)
  · intro hk k hle
    exact matchAt_eq_none.mpr (hk k hle)

theorem test_eq_true {ic : Bool} {r : Re} {t : JSString} :
    test ic r t = true ↔
      ∃ k e, k ≤ t.length ∧ e ∈ run ic r ⟨k, (t.take k).getLast?, t.drop k, []⟩ := by
  unfold test
  rw [Option.isSome_iff_ne_none, Ne, exec_eq_none]
  simp only [not_forall]
  constructor
  · rintro ⟨k, hk, hne⟩
    obtain ⟨e, he⟩ := List.exists_mem_of_ne_nil _ hne
    exact ⟨k, e, hk, he⟩
  · rintro ⟨k, e, hk, he⟩
    exact ⟨k, hk, List.ne_nil_of_mem he⟩

/-- The branch for `Part X & Y` cannot be reached: where the list pattern
matches, the numbered pattern matches as well. -/
theorem partList_imp_partAdded {block : JSString}
    (h : test true partListRegex block = true) : ∃ m, exec true partAddedRegex block = some m := by
  rw [test_eq_true] at h
  obtain ⟨k, e, hk, he⟩ := h
  cases hx : exec true partAddedRegex block with
  | some m => exact ⟨m, rfl⟩
  | none =>
    exfalso
    have hnone := exec_eq_none.mp hx k hk
    simp only [partListRegex, plus, mem_run_seqs_cons, mem_run_seq] at he
    obtain ⟨m₁, h₁, m₂, h₂, m₃, h₃, m₄, ⟨m₄', hd, hs⟩, -⟩ := he
    have hmem : ({ m₄ with caps := (1, m₃.rest.take (m₄.pos - m₃.pos)) :: m₄.caps } : St) ∈
        run true partAddedRegex ⟨k, (block.take k).getLast?, block.drop k, []⟩ := by
      simp only [partAddedRegex, dashOrDot, plus, mem_run_seqs_cons, mem_run_seqs_nil]
      refine ⟨m₁, h₁, m₂, h₂, m₃, h₃, m₃, mem_run_opt.mpr (Or.inr rfl), m₃, ?_, _, ?_, rfl⟩
      · rw [mem_run_star]
        exact ⟨[], rfl, by simp, rfl, rfl, rfl⟩
      · rw [mem_run_cap]
        exact ⟨m₄, mem_run_seq.mpr ⟨m₄', hd, hs⟩, rfl⟩
    rw [hnone] at hmem
    cases hmem

theorem partList_eq_false {block : JSString} (h : exec true partAddedRegex block = none) :
    test true partListRegex block = false := by
  by_contra hne
  obtain ⟨m, hm⟩ := partList_imp_partAdded (by simpa using hne)
  rw [h] at hm
  cases hm

/-! ### One block -/

theorem updateFromBlock_episode (info : UpdateInfo) (block : JSString) :
    (updateFromBlock info block).episode_added = (episodeOf block).or info.episode_added := by
  unfold updateFromBlock episodeOf
  cases exec true epAddedRegex block <;> cases exec true volAddedRegex block <;>
    cases exec true partAddedRegex block <;> dsimp only <;>
    (try split_ifs) <;> rfl

theorem updateFromBlock_volume (info : UpdateInfo) (block : JSString) :
    (updateFromBlock info block).volume_added = (volumeOf block).or info.volume_added := by
  unfold updateFromBlock volumeOf
  cases exec true epAddedRegex block <;> cases exec true volAddedRegex block <;>
    cases exec true partAddedRegex block <;> dsimp only <;>
    (try split_ifs) <;> rfl

theorem updateFromBlock_part (info : UpdateInfo) (block : JSString) :
    (updateFromBlock info block).part_added =
      match partOf block with
      | some v => PartAdded.num v
      | none =>
        if genericPart block = true ∧ info.part_added = PartAdded.no then PartAdded.yes
        else info.part_added := by
  unfold updateFromBlock partOf genericPart
  cases hp : exec true partAddedRegex block with
  | some m =>
    cases exec true epAddedRegex block <;> cases exec true volAddedRegex block <;> rfl
  | none =>
    have hl := partList_eq_false hp
    cases exec true epAddedRegex block <;> cases exec true volAddedRegex block <;>
      dsimp only [Option.map] <;>
      by_cases hw : test true partWordRegex block = true <;>
      by_cases hg : test true partGenericRegex block = true <;>
      by_cases hn : info.part_added = PartAdded.no <;>
      simp [hl, hw, hg, hn]

/-! ### All blocks -/

theorem foldl_updateFromBlock_append (pre post : List JSString) (b : JSString)
    (info : UpdateInfo) :
    (pre ++ b :: post).foldl updateFromBlock info =
      post.foldl updateFromBlock (updateFromBlock (pre.foldl updateFromBlock info) b) := by
  rw [List.foldl_append, List.foldl_cons]

theorem foldl_episode_of_none (bs : List JSString) (info : UpdateInfo)
    (h : ∀ b, b ∈ bs → episodeOf b = none) :
    (bs.foldl updateFromBlock info).episode_added = info.episode_added := by
  induction bs generalizing info with
  | nil => rfl
  | cons b bs ih =>
    rw [List.foldl_cons, ih _ (fun b' hb' => h b' (by simp [hb'])), updateFromBlock_episode,
      h b (by simp)]
    rfl

theorem foldl_volume_of_none (bs : List JSString) (info : UpdateInfo)
    (h : ∀ b, b ∈ bs → volumeOf b = none) :
    (bs.foldl updateFromBlock info).volume_added = info.volume_added := by
  induction bs generalizing info with
  | nil => rfl
  | cons b bs ih =>
    rw [List.foldl_cons, ih _ (fun b' hb' => h b' (by simp [hb'])), updateFromBlock_volume,
      h b (by simp)]
    rfl

/-- Blocks without a part number leave a number alone, and turn `false` into
`true` exactly when one of them passes the two generic tests. -/
theorem foldl_part_of_none (bs : List JSString) (info : UpdateInfo)
    (h : ∀ b, b ∈ bs → partOf b = none) :
    (bs.foldl updateFromBlock info).part_added =
      if (∃ b, b ∈ bs ∧ genericPart b = true) ∧ info.part_added = PartAdded.no then PartAdded.yes
      else info.part_added := by
  induction bs generalizing info with
  | nil => simp
  | cons b bs ih =>
    rw [List.foldl_cons, ih _ (fun b' hb' => h b' (by simp [hb'])), updateFromBlock_part,
      h b (by simp)]
    dsimp only
    by_cases hg : genericPart b = true <;> by_cases hn : info.part_added = PartAdded.no <;>
      by_cases he : ∃ b', b' ∈ bs ∧ genericPart b' = true
    all_goals simp [hg, hn, he]

/-- The last block that supplies a number, when some block does. -/
theorem exists_last_some {α : Type} (f : JSString → Option α) :
    ∀ (bs : List JSString), (∃ b, b ∈ bs ∧ f b ≠ none) →
      ∃ pre b post v, bs = pre ++ b :: post ∧ f b = some v ∧ ∀ b', b' ∈ post → f b' = none := by
  intro bs
  induction bs with
  | nil => rintro ⟨b, hb, -⟩; cases hb
  | cons c cs ih =>
    intro h
    by_cases hcs : ∃ b, b ∈ cs ∧ f b ≠ none
    · obtain ⟨pre, b, post, v, hsplit, hv, hpost⟩ := ih hcs
      exact ⟨c :: pre, b, post, v, by rw [hsplit]; rfl, hv, hpost⟩
    · obtain ⟨b, hb, hne⟩ := h
      have hbc : b = c := by
        rcases List.mem_cons.mp hb with h1 | h1
        · exact h1
        · exact absurd ⟨b, h1, hne⟩ hcs
      subst hbc
      cases hv : f b with
      | none => exact absurd hv hne
      | some v =>
        refine ⟨[], b, cs, v, rfl, hv, fun b' hb' => ?_⟩
        by_contra hx
        exact hcs ⟨b', hb', hx⟩

theorem extractUpdateInfo_fields (title : JSString) :
    (extractUpdateInfo title).episode_added =
        ((addedBlocks title).foldl updateFromBlock
          { episode_added := none, volume_added := none, part_added := PartAdded.no,
            complete := none }).episode_added ∧
      (extractUpdateInfo title).volume_added =
        ((addedBlocks title).foldl updateFromBlock
          { episode_added := none, volume_added := none, part_added := PartAdded.no,
            complete := none }).volume_added ∧
      (extractUpdateInfo title).part_added =
        ((addedBlocks title).foldl updateFromBlock
          { episode_added := none, volume_added := none, part_added := PartAdded.no,
            complete := none }).part_added := by
  unfold extractUpdateInfo
  dsimp only
  split <;> exact ⟨rfl, rfl, rfl⟩

/-- C11, refuted as stated: for `[Ep 1 Added] [Ep 2 Added]` the two blocks are
`[Ep 1 Added]` and ` [Ep 2 Added]`, and `episode_added` is 2, the number of the
later block, not 1. -/
theorem episode_added_not_first :
    addedBlocks (str "[Ep 1 Added] [Ep 2 Added]") = [str "[Ep 1 Added]", str " [Ep 2 Added]"] ∧
      (extractUpdateInfo (str "[Ep 1 Added] [Ep 2 Added]")).episode_added = some 2 ∧
      (extractUpdateInfo (str "[Ep 1 Added] [Ep 2 Added]")).episode_added ≠ some 1 := by
  decide!

/-- C11, amended. When a title has several blocks with `added`, each of
`episode_added`, `volume_added` and `part_added` takes the number found in the
last (rightmost) block that supplies one: the block's number overwrites whatever
earlier blocks have set, and later blocks without a number leave it in place.  A
field gets no number only when no block supplies one. -/
theorem added_fields_last_wins (title : JSString) (pre post : List JSString) (b : JSString)
    (hsplit : addedBlocks title = pre ++ b :: post) :
    (∀ v, episodeOf b = some v → (∀ b', b' ∈ post → episodeOf b' = none) →
        (extractUpdateInfo title).episode_added = some v) ∧
      (∀ v, volumeOf b = some v → (∀ b', b' ∈ post → volumeOf b' = none) →
        (extractUpdateInfo title).volume_added = some v) ∧
      (∀ v, partOf b = some v → (∀ b', b' ∈ post → partOf b' = none) →
        (extractUpdateInfo title).part_added = PartAdded.num v) ∧
      ((∀ b', b' ∈ addedBlocks title → episodeOf b' = none) →
        (extractUpdateInfo title).episode_added = none) ∧
      ((∀ b', b' ∈ addedBlocks title → volumeOf b' = none) →
        (extractUpdateInfo title).volume_added = none) ∧
      ((∀ b', b' ∈ addedBlocks title → partOf b' = none) →
        ∀ v, (extractUpdateInfo title).part_added ≠ PartAdded.num v) := by
  obtain ⟨he, hv, hp⟩ := extractUpdateInfo_fields title
  rw [he, hv, hp]
  refine ⟨?_, ?_, ?_, ?_, ?_, ?_⟩
  · intro v hb hpost
    rw [hsplit, foldl_updateFromBlock_append, foldl_episode_of_none _ _ hpost,
      updateFromBlock_episode, hb]
    rfl
  · intro v hb hpost
    rw [hsplit, foldl_updateFromBlock_append, foldl_volume_of_none _ _ hpost,
      updateFromBlock_volume, hb]
    rfl
  · intro v hb hpost
    rw [hsplit, foldl_updateFromBlock_append, foldl_part_of_none _ _ hpost,
      updateFromBlock_part, hb]
    simp
  · intro hall
    rw [foldl_episode_of_none _ _ hall]
  · intro hall
    rw [foldl_volume_of_none _ _ hall]
  · intro hall v
    rw [foldl_part_of_none _ _ hall]
    split <;> simp

/-- C11 as amended, at `[Ep 1 Added] [Ep 2 Added]`: the last block supplies 2. -/
theorem added_fields_last_wins_witness :
    (extractUpdateInfo (str "[Ep 1 Added] [Ep 2 Added]")).episode_added = some 2 :=
  (added_fields_last_wins (str "[Ep 1 Added] [Ep 2 Added]") [str "[Ep 1 Added]"] []
    (str " [Ep 2 Added]") (by decide!)).1 2 (by decide!) (by intro b' hb'; cases hb')

/-- C12, the behaviour of the code: for `Movie Part 2 [Ep 5 Added]` the only block
is the whole title, because a block starts where the previous closing bracket
ended or at the start of the title, not at its opening bracket; so the `Part 2`
in front of the bracket sets `part_added` to 2. -/
theorem part_outside_bracket :
    addedBlocks (str "Movie Part 2 [Ep 5 Added]") = [str "Movie Part 2 [Ep 5 Added]"] ∧
      extractUpdateInfo (str "Movie Part 2 [Ep 5 Added]") =
        { episode_added := some 5, volume_added := none, part_added := PartAdded.num 2,
          complete := none } := by
  decide!

/-- C19, refuted as stated, whichever way the phrase `part added` is read.  Read as
the pattern `/\bpart\s*added\b/i`, it occurs in the only block of `[partadded]`,
which has no part number, and yet `part_added` is `false` (the test `/\bpart\b/i`
fails).  Read as `part`, white space, `added`, it occurs in no block of
`[part x partadded]`, and yet `part_added` is `true`. -/
theorem part_added_phrase_mismatch :
    (addedBlocks (str "[partadded]") = [str "[partadded]"] ∧
        partOf (str "[partadded]") = none ∧
        test true partGenericRegex (str "[partadded]") = true ∧
        (extractUpdateInfo (str "[partadded]")).part_added = PartAdded.no) ∧
      (addedBlocks (str "[part x partadded]") = [str "[part x partadded]"] ∧
        partOf (str "[part x partadded]") = none ∧
        test true (seqs [lit "part", plus .space, lit "added"]) (str "[part x partadded]") =
          false ∧
        (extractUpdateInfo (str "[part x partadded]")).part_added = PartAdded.yes) := by
  decide!

/-- C19, amended. In `extractUpdateInfo` the branch for `Part X & Y` is
unreachable: a block in which the list pattern matches has a part number.  For
every title, `part_added` is `true` if and only if no block with `added` has a
part number (`part`, optional white space, an optional hyphen or dot, digits) and
at least one block passes both generic tests of the source, `/\bpart\b/i` and
`/\bpart\s*added\b/i`; and whenever a block contains `part <digits> & <digits>`,
`part_added` is an integer, never `true`. -/
theorem part_added_true_iff (title : JSString) :
    (∀ b, test true partListRegex b = true → partOf b ≠ none) ∧
      ((extractUpdateInfo title).part_added = PartAdded.yes ↔
        (∀ b, b ∈ addedBlocks title → partOf b = none) ∧
          ∃ b, b ∈ addedBlocks title ∧ genericPart b = true) ∧
      ((∃ b, b ∈ addedBlocks title ∧ test true partListRegex b = true) →
        ∃ v, (extractUpdateInfo title).part_added = PartAdded.num v) := by
  have hdead : ∀ b, test true partListRegex b = true → partOf b ≠ none := by
    intro b hb
    obtain ⟨m, hm⟩ := partList_imp_partAdded hb
    simp [partOf, hm]
  have hnum : (∃ b, b ∈ addedBlocks title ∧ partOf b ≠ none) →
      ∃ v, (extractUpdateInfo title).part_added = PartAdded.num v := by
    intro h
    obtain ⟨pre, b, post, v, hsplit, hv, hpost⟩ := exists_last_some partOf _ h
    refine ⟨v, ?_⟩
    rw [(extractUpdateInfo_fields title).2.2, hsplit, foldl_updateFromBlock_append,
      foldl_part_of_none _ _ hpost, updateFromBlock_part, hv]
    simp
  refine ⟨hdead, ?_, ?_⟩
  · by_cases hall : ∀ b, b ∈ addedBlocks title → partOf b = none
    · rw [(extractUpdateInfo_fields title).2.2, foldl_part_of_none _ _ hall]
      by_cases hg : ∃ b, b ∈ addedBlocks title ∧ genericPart b = true
      · rw [if_pos ⟨hg, rfl⟩]
        exact ⟨fun _ => ⟨hall, hg⟩, fun _ => rfl⟩
      · rw [if_neg (fun h => hg h.1)]
        constructor
        · intro h; cases h
        · rintro ⟨-, h⟩; exact absurd h hg
    · have hex : ∃ b, b ∈ addedBlocks title ∧ partOf b ≠ none := by
        by_contra hx
        apply hall
        intro b hb
        by_contra hb'
        exact hx ⟨b, hb, hb'⟩
      obtain ⟨v, hv⟩ := hnum hex
      rw [hv]
      constructor
      · intro h; cases h
      · rintro ⟨h, -⟩; exact absurd h hall
  · rintro ⟨b, hb, hl⟩
    exact hnum ⟨b, hb, hdead b hl⟩

/-! ## Lowercasing and search without regard to case -/

theorem toLowerCase_cons (c : Nat) (cs : JSString) :
    toLowerCase (c :: cs) = lowerUnit c ++ toLowerCase cs := rfl

theorem beq_lower_upper {a c : Nat} (ha : (isLower a || isDigit a) = true)
    (hc : isUpper c = true) : (a == c + 32) = (canon a == canon c) := by
  rw [Bool.eq_iff_iff, beq_iff_eq, beq_iff_eq]
  simp only [isLower, isDigit, isUpper, canon, Bool.or_eq_true, Bool.and_eq_true,
    decide_eq_true_eq] at *
  split_ifs <;> omega

theorem beq_lower_other {a c : Nat} (ha : (isLower a || isDigit a) = true)
    (hc : ¬ isUpper c = true) : (a == c) = (canon a == canon c) := by
  rw [Bool.eq_iff_iff, beq_iff_eq, beq_iff_eq]
  simp only [isLower, isDigit, isUpper, canon, Bool.or_eq_true, Bool.and_eq_true,
    decide_eq_true_eq] at *
  split_ifs <;> omega

theorem canon_ne_of_large {a c : Nat} (ha : (isLower a || isDigit a) = true)
    (hc : 128 ≤ c) : (canon a == canon c) = false := by
  rw [beq_eq_false_iff_ne]
  simp only [isLower, isDigit, canon, Bool.or_eq_true, Bool.and_eq_true,
    decide_eq_true_eq] at *
  split_ifs <;> omega

theorem startsWith_toLowerCase (hay : JSString) :
    ∀ needle : JSString,
      (∀ u, u ∈ needle → (isLower u || isDigit u) = true ∧ u ≠ 107) →
      needle.getLast? ≠ some 105 →
      startsWith needle (toLowerCase hay) = startsWithIgnoringCase needle hay := by
  induction hay with
  | nil =>
    intro needle _ _
    cases needle <;> rfl
  | cons c cs ih =>
    intro needle hA hL
    cases needle with
    | nil => simp [startsWith, startsWithIgnoringCase]
    | cons a as =>
      have ha := hA a (by simp)
      have hA' : ∀ u, u ∈ as → (isLower u || isDigit u) = true ∧ u ≠ 107 :=
        fun u hu => hA u (by simp [hu])
      have hL' : as ≠ [] → as.getLast? ≠ some 105 := by
        intro hne
        cases as with
        | nil => exact absurd rfl hne
        | cons b bs => simpa [List.getLast?_cons_cons] using hL
      have hrec : as ≠ [] →
          startsWith as (toLowerCase cs) = startsWithIgnoringCase as cs :=
        fun hne => ih as hA' (hL' hne)
      have hrec' : startsWith as (toLowerCase cs) = startsWithIgnoringCase as cs := by
        cases as with
        | nil => simp [startsWith, startsWithIgnoringCase]
        | cons b bs => exact hrec (by simp)
      rw [toLowerCase_cons]
      unfold lowerUnit
      split_ifs with h1 h2 h3
      · simp only [List.singleton_append, startsWith, startsWithIgnoringCase]
        rw [beq_lower_upper ha.1 h1]
        exact congrArg _ hrec'
      · subst h2
        simp only [List.singleton_append, startsWith, startsWithIgnoringCase]
        rw [canon_ne_of_large ha.1 (by decide)]
        have : (a == 107) = false := by rw [beq_eq_false_iff_ne]; exact ha.2
        rw [this]
        rfl
      · subst h3
        simp only [List.cons_append, List.nil_append, startsWith, startsWithIgnoringCase]
        rw [canon_ne_of_large ha.1 (by decide)]
        cases as with
        | nil =>
          have : a ≠ 105 := by
            intro h
            apply hL
            rw [h]
            rfl
          have : (a == 105) = false := by rw [beq_eq_false_iff_ne]; exact this
          rw [this]
          rfl
        | cons b bs =>
          have hb := (hA' b (by simp)).1
          have : (b == 775) = false := by
            rw [beq_eq_false_iff_ne]
            simp only [isLower, isDigit, Bool.or_eq_true, Bool.and_eq_true,
              decide_eq_true_eq] at hb
            omega
          simp [startsWith, this]
      · simp only [List.singleton_append, startsWith, startsWithIgnoringCase]
        rw [beq_lower_other ha.1 h1]
        exact congrArg _ hrec'

theorem includes_cons (needle : JSString) (c : Nat) (cs : JSString) :
    includes needle (c :: cs) = (startsWith needle (c :: cs) || includes needle cs) := rfl

theorem startsWith_of_head_ne {needle : JSString} {c : Nat} {cs : JSString}
    (h : needle.head? ≠ some c) (hne : needle ≠ []) : startsWith needle (c :: cs) = false := by
  cases needle with
  | nil => exact absurd rfl hne
  | cons a as =>
    have : (a == c) = false := by
      rw [beq_eq_false_iff_ne]
      intro h'
      apply h
      rw [h']
      rfl
    simp [startsWith, this]

/-- For a plain keyword, searching the lowercased title is searching the title
without regard to case. -/
theorem includes_toLowerCase {needle : JSString} (hk : plainKeyword needle = true)
    (hay : JSString) :
    includes needle (toLowerCase hay) = occursIgnoringCase needle hay := by
  simp only [plainKeyword, Bool.and_eq_true, List.all_eq_true, Bool.or_eq_true, bne_iff_ne,
    ne_eq, Bool.not_eq_true', List.isEmpty_eq_false] at hk
  obtain ⟨⟨hA, hL⟩, hne⟩ := hk
  have hA' : ∀ u, u ∈ needle → (isLower u || isDigit u) = true ∧ u ≠ 107 := by
    intro u hu
    have := hA u hu
    exact ⟨by simpa using this.1, this.2⟩
  have hsw := fun hay => startsWith_toLowerCase hay needle hA' hL
  induction hay with
  | nil => exact hsw []
  | cons c cs ih =>
    have hstep : includes needle (toLowerCase (c :: cs)) =
        (startsWith needle (toLowerCase (c :: cs)) || includes needle (toLowerCase cs)) := by
      rw [toLowerCase_cons]
      unfold lowerUnit
      split_ifs with h1 h2 h3
      · rfl
      · rfl
      · simp only [List.cons_append, List.nil_append, includes_cons]
        have : startsWith needle (775 :: toLowerCase cs) = false := by
          apply startsWith_of_head_ne _ hne
          cases needle with
          | nil => simp
          | cons a as =>
            have ha := (hA' a (by simp)).1
            simp only [isLower, isDigit, Bool.or_eq_true, Bool.and_eq_true,
              decide_eq_true_eq] at ha
            simp only [List.head?_cons, ne_eq, Option.some.injEq]
            omega
        rw [this, Bool.false_or]
      · rfl
    rw [hstep, hsw, ih]
    rfl

theorem plainKeyword_platformKeywords :
    ∀ p, p ∈ platformKeywords → plainKeyword (str p) = true := by decide

theorem platformName_platformDisplay :
    ∀ p, p ∈ platformDisplay → platformName p.1 = str p.2 := by decide

theorem find?_table (f : JSString → Bool) (u : JSString) (l : List (String × String))
    (hl : ∀ p, p ∈ l → platformName p.1 = str p.2) :
    (match (l.map Prod.fst).find? (fun p => f (str p)) with
      | some p => platformName p
      | none => u) =
    (match l.find? (fun p => f (str p.1)) with
      | some p => str p.2
      | none => u) := by
  induction l with
  | nil => rfl
  | cons p ps ih =>
    rw [List.map_cons, List.find?_cons, List.find?_cons]
    cases hf : f (str p.1) with
    | true => exact hl p (by simp)
    | false => exact ih (fun q hq => hl q (by simp [hq]))

theorem extractMetadata_platform {title type : JSString} {md : Metadata}
    (h : extractMetadata title type = some md) :
    md.platform =
      match platformKeywords.find? (fun p => includes (str p) (toLowerCase title)) with
      | some p => platformName p
      | none => str "Unknown" := by
  unfold extractMetadata at h
  simp only [Option.map_eq_some'] at h
  obtain ⟨_, -, h⟩ := h
  exact (congrArg Metadata.platform h).symm

/-- C13. The platform field is the display form of the first entry of the
vocabulary, in the order netflix, amazon, hulu, disney, hotstar, zee5, sony,
appletv, hbo, prime, original, series, that occurs in the title as a substring
without regard to case, wherever in the title the entries occur; it is `Unknown`
exactly when no entry occurs. -/
theorem platform_first_keyword (title type : JSString) (md : Metadata)
    (h : extractMetadata title type = some md) :
    md.platform = platformOf title ∧
      (md.platform = str "Unknown" ↔
        ∀ p, p ∈ platformDisplay → occursIgnoringCase (str p.1) title = false) := by
  have hfind : platformKeywords.find? (fun p => includes (str p) (toLowerCase title)) =
      platformKeywords.find? (fun p => occursIgnoringCase (str p) title) := by
    have hgen : ∀ l : List String, (∀ p, p ∈ l → p ∈ platformKeywords) →
        l.find? (fun p => includes (str p) (toLowerCase title)) =
          l.find? (fun p => occursIgnoringCase (str p) title) := by
      intro l
      induction l with
      | nil => intro _; rfl
      | cons p ps ih =>
        intro hsub
        rw [List.find?_cons, List.find?_cons,
          includes_toLowerCase (plainKeyword_platformKeywords p (hsub p (by simp))) title,
          ih (fun q hq => hsub q (by simp [hq]))]
    exact hgen _ (fun _ hp => hp)
  have hplat : md.platform = platformOf title := by
    rw [extractMetadata_platform h, hfind]
    exact find?_table (fun k => occursIgnoringCase k title) (str "Unknown") platformDisplay
      platformName_platformDisplay
  refine ⟨hplat, ?_⟩
  rw [hplat]
  unfold platformOf
  cases hf : platformDisplay.find? (fun p => occursIgnoringCase (str p.1) title) with
  | none =>
    simp only [true_iff]
    intro p hp
    have := List.find?_eq_none.mp hf p hp
    simpa using this
  | some q =>
    have hq := List.mem_of_find?_eq_some hf
    have hq' := List.find?_some hf
    have hne : ∀ p, p ∈ platformDisplay → str p.2 ≠ str "Unknown" := by decide
    constructor
    · intro h'
      exact absurd h' (hne q hq)
    · intro hall
      rw [hall q hq] at hq'
      cases hq'

/-- C13 at `SONY on Netflix`: `netflix` comes first in the vocabulary, though
`sony` comes first in the title. -/
theorem platform_first_keyword_witness :
    str "Netflix" = platformOf (str "SONY on Netflix") ∧
      (str "Netflix" = str "Unknown" ↔
        ∀ p, p ∈ platformDisplay → occursIgnoringCase (str p.1) (str "SONY on Netflix") = false) :=
  platform_first_keyword (str "SONY on Netflix") (str "movie")
    { season := Season.null, episode := none, part := none, volume := none, qualities := [],
      languages := [], platform := str "Netflix" } (by decide!)

/-! ## Classification -/

theorem forall₂_canon (w cs : JSString) :
    List.Forall₂ (fun u c => Atom.test true (.chr c) u = true) w cs ↔
      w.map canon = cs.map canon := by
  induction w generalizing cs with
  | nil =>
    cases cs with
    | nil => simp
    | cons c cs => simp
  | cons u us ih =>
    cases cs with
    | nil => simp
    | cons c cs =>
      rw [List.forall₂_cons, ih]
      simp [Atom.test]

theorem mem_run_lit_ic {w₀ : String} {s e : St} :
    e ∈ run true (lit w₀) s ↔
      ∃ w, s.rest = w ++ e.rest ∧ eqIgnoringCase w (str w₀) = true ∧
        e.pos = s.pos + w.length ∧ e.caps = s.caps ∧ e.prev = (w.getLast?).or s.prev := by
  rw [mem_run_litOf]
  simp only [forall₂_canon, eqIgnoringCase, beq_iff_eq]

theorem eqIgnoringCase_length {a b : JSString} (h : eqIgnoringCase a b = true) :
    a.length = b.length := by
  simp only [eqIgnoringCase, beq_iff_eq] at h
  have := congrArg List.length h
  simpa using this

theorem getLast?_or_of_ne_nil {w : JSString} (h : w ≠ []) (o : Option Nat) :
    (w.getLast?).or o = w.getLast? := by
  cases hw : w.getLast? with
  | none => exact absurd (List.getLast?_eq_none_iff.mp hw) h
  | some c => rfl

theorem mem_run_plus_digit {ic : Bool} {s e : St} :
    e ∈ run ic (plus .digit) s ↔
      ∃ d ds, s.rest = d :: ds ++ e.rest ∧ (d :: ds).all isDigit = true ∧
        e.pos = s.pos + (ds.length + 1) ∧ e.caps = s.caps ∧
        e.prev = (d :: ds).getLast? := by
  unfold plus
  rw [mem_run_seq]
  constructor
  · rintro ⟨m, hm, he⟩
    rw [mem_run_one] at hm
    obtain ⟨c, cs, hrest, hc, rfl⟩ := hm
    rw [mem_run_star] at he
    obtain ⟨w, hw, hall, hpos, hprev, hcaps⟩ := he
    dsimp only at hw hpos hprev hcaps
    refine ⟨c, w, by rw [hrest, hw]; rfl, ?_, by rw [hpos]; omega, hcaps, ?_⟩
    · simp only [List.all_cons, Bool.and_eq_true, List.all_eq_true]
      exact ⟨hc, hall⟩
    · rw [hprev]
      cases w with
      | nil => rfl
      | cons x xs =>
        rw [getLast?_or_of_ne_nil (by simp), List.getLast?_cons_cons]
  · rintro ⟨d, ds, hrest, hall, hpos, hcaps, hprev⟩
    simp only [List.all_cons, Bool.and_eq_true, List.all_eq_true] at hall
    refine ⟨⟨s.pos + 1, some d, ds ++ e.rest, s.caps⟩, ?_, ?_⟩
    · rw [mem_run_one]
      exact ⟨d, ds ++ e.rest, hrest, hall.1, rfl⟩
    · rw [mem_run_star]
      refine ⟨ds, rfl, hall.2, by rw [hpos]; dsimp only; omega, ?_, hcaps⟩
      rw [hprev]
      cases ds with
      | nil => rfl
      | cons x xs =>
        rw [getLast?_or_of_ne_nil (by simp), List.getLast?_cons_cons]

/-- The alternation of `seriesKeywords` consumes exactly a series marker. -/
theorem mem_run_marker {s e : St} :
    e ∈ run true (alts [lit "season", .seq (lit "s") (plus .digit), lit "ep", lit "episode",
        lit "series"]) s ↔
      ∃ tok, s.rest = tok ++ e.rest ∧ isSeriesMarker tok = true ∧
        e.pos = s.pos + tok.length ∧ e.caps = s.caps ∧ e.prev = tok.getLast? := by
  have hne : ∀ {tok w : JSString}, eqIgnoringCase tok w = true → w ≠ [] → tok ≠ [] := by
    intro tok w h hw ht
    subst ht
    have := eqIgnoringCase_length h
    exact hw (List.length_eq_zero.mp this.symm)
  have hs : ∀ {s e : St}, e ∈ run true (.seq (lit "s") (plus .digit)) s ↔
      ∃ c d ds, s.rest = c :: d :: ds ++ e.rest ∧ eqIgnoringCase [c] (str "s") = true ∧
        (d :: ds).all isDigit = true ∧ e.pos = s.pos + (ds.length + 2) ∧ e.caps = s.caps ∧
        e.prev = (d :: ds).getLast? := by
    intro s e
    rw [mem_run_seq]
    constructor
    · rintro ⟨m, hm, he⟩
      rw [mem_run_lit_ic] at hm
      obtain ⟨w, hw, hweq, hwpos, hwcaps, -⟩ := hm
      rw [mem_run_plus_digit] at he
      obtain ⟨d, ds, hrest, hall, hpos, hcaps, hprev⟩ := he
      have hlen := eqIgnoringCase_length hweq
      obtain ⟨c, rfl⟩ : ∃ c, w = [c] := by
        have : w.length = 1 := by rw [hlen]; decide
        exact List.length_eq_one.mp this
      refine ⟨c, d, ds, by rw [hw, hrest]; rfl, hweq, hall, ?_, by rw [hcaps, hwcaps], hprev⟩
      rw [hpos, hwpos]
      simp only [List.length_singleton]
      omega
    · rintro ⟨c, d, ds, hrest, hc, hall, hpos, hcaps, hprev⟩
      refine ⟨⟨s.pos + 1, some c, d :: ds ++ e.rest, s.caps⟩, ?_, ?_⟩
      · rw [mem_run_lit_ic]
        exact ⟨[c], hrest, hc, rfl, rfl, rfl⟩
      · rw [mem_run_plus_digit]
        exact ⟨d, ds, rfl, hall, by rw [hpos]; dsimp only; omega, hcaps, hprev⟩
  rw [mem_run_alts_cons, mem_run_alts_cons, mem_run_alts_cons, mem_run_alts_cons]
  simp only [alts]
  rw [hs, mem_run_lit_ic, mem_run_lit_ic, mem_run_lit_ic, mem_run_lit_ic]
  constructor
  · rintro (h | h | h | h | h)
    · obtain ⟨w, hw, heq, hpos, hcaps, hprev⟩ := h
      refine ⟨w, hw, by simp [isSeriesMarker, heq], hpos, hcaps, ?_⟩
      rw [hprev, getLast?_or_of_ne_nil (hne heq (by decide))]
    · obtain ⟨c, d, ds, hrest, hc, hall, hpos, hcaps, hprev⟩ := h
      refine ⟨c :: d :: ds, hrest, ?_, hpos, hcaps, ?_⟩
      · simp only [isSeriesMarker, hc, hall, Bool.and_self, Bool.or_true, Bool.true_or]
      · rw [hprev, List.getLast?_cons_cons]
    · obtain ⟨w, hw, heq, hpos, hcaps, hprev⟩ := h
      refine ⟨w, hw, by simp [isSeriesMarker, heq], hpos, hcaps, ?_⟩
      rw [hprev, getLast?_or_of_ne_nil (hne heq (by decide))]
    · obtain ⟨w, hw, heq, hpos, hcaps, hprev⟩ := h
      refine ⟨w, hw, by simp [isSeriesMarker, heq], hpos, hcaps, ?_⟩
      rw [hprev, getLast?_or_of_ne_nil (hne heq (by decide))]
    · obtain ⟨w, hw, heq, hpos, hcaps, hprev⟩ := h
      refine ⟨w, hw, by simp [isSeriesMarker, heq], hpos, hcaps, ?_⟩
      rw [hprev, getLast?_or_of_ne_nil (hne heq (by decide))]
  · rintro ⟨tok, hw, hm, hpos, hcaps, hprev⟩
    simp only [isSeriesMarker, Bool.or_eq_true] at hm
    rcases hm with (((heq | hsd) | heq) | heq) | heq
    · exact Or.inl ⟨tok, hw, heq, hpos, hcaps, by
        rw [hprev, getLast?_or_of_ne_nil (hne heq (by decide))]⟩
    · refine Or.inr (Or.inl ?_)
      match tok, hsd with
      | c :: d :: ds, hsd =>
        simp only [Bool.and_eq_true] at hsd
        exact ⟨c, d, ds, hw, hsd.1, hsd.2, hpos, hcaps, by
          rw [hprev, List.getLast?_cons_cons]⟩
    · exact Or.inr (Or.inr (Or.inl ⟨tok, hw, heq, hpos, hcaps, by
        rw [hprev, getLast?_or_of_ne_nil (hne heq (by decide))]⟩))
    · exact Or.inr (Or.inr (Or.inr (Or.inl ⟨tok, hw, heq, hpos, hcaps, by
        rw [hprev, getLast?_or_of_ne_nil (hne heq (by decide))]⟩)))
    · exact Or.inr (Or.inr (Or.inr (Or.inr ⟨tok, hw, heq, hpos, hcaps, by
        rw [hprev, getLast?_or_of_ne_nil (hne heq (by decide))]⟩)))

theorem isWordChar_of_canon_upper {c u : Nat} (h : canon c = u) (hu : isUpper u = true) :
    isWordChar c = true := by
  simp only [canon, isLower, isUpper, isWordChar, isDigit, Bool.and_eq_true, Bool.or_eq_true,
    decide_eq_true_eq, beq_iff_eq] at *
  split_ifs at h <;> omega

theorem head?_getLast?_of_eqIgnoringCase {tok w : JSString} (h : eqIgnoringCase tok w = true) :
    tok.head?.map canon = w.head?.map canon ∧ tok.getLast?.map canon = w.getLast?.map canon := by
  simp only [eqIgnoringCase, beq_iff_eq] at h
  constructor
  · have := congrArg List.head? h
    simpa [List.head?_map] using this
  · have := congrArg List.getLast? h
    simpa [List.getLast?_map] using this

theorem isWordOpt_of_canon {o : Option Nat} {u : Nat} (h : o.map canon = some (canon u))
    (hu : isUpper (canon u) = true) : isWordOpt o = true := by
  cases o with
  | none => cases h
  | some c =>
    simp only [Option.map_some', Option.some.injEq] at h
    exact isWordChar_of_canon_upper h hu

/-- A series marker starts and ends with a word character. -/
theorem isSeriesMarker_word {tok : JSString} (h : isSeriesMarker tok = true) :
    isWordOpt tok.head? = true ∧ isWordOpt tok.getLast? = true := by
  have hlit : ∀ w : JSString, eqIgnoringCase tok w = true →
      (∃ a, w.head? = some a ∧ isUpper (canon a) = true) →
      (∃ b, w.getLast? = some b ∧ isUpper (canon b) = true) →
      isWordOpt tok.head? = true ∧ isWordOpt tok.getLast? = true := by
    rintro w hw ⟨a, ha, hau⟩ ⟨b, hb, hbu⟩
    obtain ⟨h1, h2⟩ := head?_getLast?_of_eqIgnoringCase hw
    rw [ha] at h1
    rw [hb] at h2
    exact ⟨isWordOpt_of_canon h1 hau, isWordOpt_of_canon h2 hbu⟩
  simp only [isSeriesMarker, Bool.or_eq_true] at h
  rcases h with (((heq | hsd) | heq) | heq) | heq
  · exact hlit _ heq ⟨115, by decide, by decide⟩ ⟨110, by decide, by decide⟩
  · match tok, hsd with
    | c :: d :: ds, hsd =>
      simp only [Bool.and_eq_true] at hsd
      obtain ⟨h1, -⟩ := head?_getLast?_of_eqIgnoringCase hsd.1
      refine ⟨isWordOpt_of_canon (u := 115) h1 (by decide), ?_⟩
      rw [List.getLast?_cons_cons]
      have hall := List.all_eq_true.mp hsd.2
      cases hl : (d :: ds).getLast? with
      | none => simp at hl
      | some l =>
        have hmem : l ∈ d :: ds := List.mem_of_getLast?_eq_some hl
        exact isWordChar_of_isDigit (hall l hmem)
  · exact hlit _ heq ⟨101, by decide, by decide⟩ ⟨112, by decide, by decide⟩
  · exact hlit _ heq ⟨101, by decide, by decide⟩ ⟨101, by decide, by decide⟩
  · exact hlit _ heq ⟨115, by decide, by decide⟩ ⟨115, by decide, by decide⟩

theorem bool_ne_true_left {a b : Bool} (h : a ≠ b) (hb : b = true) : a = false := by
  cases a <;> cases b <;> simp_all

theorem bool_ne_true_right {a b : Bool} (h : a ≠ b) (ha : a = true) : b = false := by
  cases a <;> cases b <;> simp_all

theorem containsSeriesMarker_iff (title : JSString) :
    containsSeriesMarker title = true ↔
      ∃ i n, i ≤ title.length ∧ n ≤ title.length - i ∧
        isSeriesMarker ((title.drop i).take n) = true ∧ wholeWordAt title i n = true := by
  simp only [containsSeriesMarker, List.any_eq_true, List.mem_range, Bool.and_eq_true]
  constructor
  · rintro ⟨i, hi, n, hn, h1, h2⟩
    exact ⟨i, n, by omega, by omega, h1, h2⟩
  · rintro ⟨i, n, hi, hn, h1, h2⟩
    exact ⟨i, by omega, n, by omega, h1, h2⟩

/-- C14. `classifyType` returns `series` or `movie`; it returns `series` exactly
when the title contains, as a whole word and in any case, one of `season`, `s`
immediately followed by one or more digits, `ep`, `episode`, `series`, and `movie`
otherwise. -/
theorem classifyType_series_iff (title : JSString) :
    (classifyType title = str "series" ∨ classifyType title = str "movie") ∧
      (classifyType title = str "series" ↔ containsSeriesMarker title = true) ∧
      (classifyType title = str "movie" ↔ containsSeriesMarker title = false) := by
  have hne : str "series" ≠ str "movie" := by decide
  have hkey : test true seriesKeywords title = true ↔ containsSeriesMarker title = true := by
    rw [test_eq_true, containsSeriesMarker_iff]
    constructor
    · rintro ⟨k, e, hk, he⟩
      unfold seriesKeywords at he
      rw [mem_run_seqs_cons] at he
      obtain ⟨m₁, hm₁, he⟩ := he
      rw [mem_run_wordB] at hm₁
      obtain ⟨rfl, hb₁⟩ := hm₁
      rw [mem_run_seqs_cons] at he
      obtain ⟨m₂, hm₂, he⟩ := he
      rw [mem_run_cap] at hm₂
      obtain ⟨m, hm, rfl⟩ := hm₂
      simp only [seqs] at he
      rw [mem_run_wordB] at he
      obtain ⟨-, hb₂⟩ := he
      rw [mem_run_marker] at hm
      obtain ⟨tok, hrest, hmark, -, -, hprev⟩ := hm
      dsimp only at hrest hprev hb₁ hb₂
      obtain ⟨hw₁, hw₂⟩ := isSeriesMarker_word hmark
      have htokne : tok ≠ [] := by
        intro h
        rw [h] at hw₁
        cases hw₁
      have hlen : (title.drop k).length = tok.length + m.rest.length := by
        rw [hrest, List.length_append]
      rw [List.length_drop] at hlen
      refine ⟨k, tok.length, hk, by omega, ?_, ?_⟩
      · rw [hrest, List.take_left]
        exact hmark
      · simp only [wholeWordAt, Bool.and_eq_true, Bool.not_eq_true']
        constructor
        · apply bool_ne_true_left hb₁
          rw [hrest]
          cases tok with
          | nil => exact absurd rfl htokne
          | cons c cs => exact hw₁
        · have hd : title.drop (k + tok.length) = m.rest := by
            rw [← List.drop_drop, hrest, List.drop_left]
          rw [hd]
          apply bool_ne_true_right hb₂
          rw [hprev]
          exact hw₂
    · rintro ⟨i, n, hi, -, hmark, hww⟩
      simp only [wholeWordAt, Bool.and_eq_true, Bool.not_eq_true'] at hww
      obtain ⟨hw₁, hw₂⟩ := isSeriesMarker_word hmark
      have hsplit : title.drop i = (title.drop i).take n ++ title.drop (i + n) := by
        rw [← List.drop_drop, List.take_append_drop]
      generalize htok : (title.drop i).take n = tok at hmark hw₁ hw₂ hsplit
      have hhead : (title.drop i).head? = tok.head? := by
        rw [hsplit]
        cases tok with
        | nil => cases hw₁
        | cons c cs => rfl
      let m : St := ⟨i + tok.length, tok.getLast?, title.drop (i + n), []⟩
      refine ⟨i, { m with caps := (1, (title.drop i).take (m.pos - i)) :: m.caps }, hi, ?_⟩
      unfold seriesKeywords
      rw [mem_run_seqs_cons]
      refine ⟨_, mem_run_wordB.mpr ⟨rfl, ?_⟩, ?_⟩
      · dsimp only
        rw [hhead, hw₁, hww.1]
        decide
      rw [mem_run_seqs_cons]
      refine ⟨_, mem_run_cap.mpr ⟨m, mem_run_marker.mpr ⟨tok, hsplit, hmark, rfl, rfl, rfl⟩, rfl⟩,
        ?_⟩
      simp only [seqs]
      rw [mem_run_wordB]
      refine ⟨rfl, ?_⟩
      dsimp only [m]
      rw [hw₂, hww.2]
      decide
  unfold classifyType
  by_cases ht : test true seriesKeywords title = true
  · have hc := hkey.mp ht
    rw [if_pos ht, hc]
    exact ⟨Or.inl rfl, ⟨fun _ => rfl, fun _ => rfl⟩,
      ⟨fun h => absurd h hne, fun h => by cases h⟩⟩
  · have hc : containsSeriesMarker title = false := by
      cases h : containsSeriesMarker title with
      | false => rfl
      | true => exact absurd (hkey.mpr h) ht
    rw [if_neg ht, hc]
    exact ⟨Or.inr rfl, ⟨fun h => absurd h.symm hne, fun h => by cases h⟩,
      ⟨fun _ => rfl, fun _ => rfl⟩⟩

/-! ## Matches and replacements as decompositions of the text -/

theorem run_minLen {ic : Bool} (r : Re) :
    ∀ {s e : St}, e ∈ run ic r s → s.pos + minLen r ≤ e.pos := by
  induction r with
  | eps => intro s e h; rw [mem_run_eps] at h; rw [h]; exact Nat.le_refl _
  | one a =>
    intro s e h
    rw [mem_run_one] at h
    obtain ⟨c, cs, -, -, rfl⟩ := h
    exact Nat.le_refl _
  | star a =>
    intro s e h
    obtain ⟨w, -, hp, -⟩ := run_inv _ h
    simp only [minLen]; omega
  | wordB => intro s e h; rw [mem_run_wordB] at h; rw [h.1]; exact Nat.le_refl _
  | bos => intro s e h; rw [mem_run_bos] at h; rw [h.1]; exact Nat.le_refl _
  | eos => intro s e h; rw [mem_run_eos] at h; rw [h.1]; exact Nat.le_refl _
  | seq r₁ r₂ ih₁ ih₂ =>
    intro s e h
    rw [mem_run_seq] at h
    obtain ⟨m, hm, he⟩ := h
    have h₁ := ih₁ hm
    have h₂ := ih₂ he
    simp only [minLen]; omega
  | alt r₁ r₂ ih₁ ih₂ =>
    intro s e h
    rw [mem_run_alt] at h
    simp only [minLen]
    rcases h with h | h
    · have := ih₁ h; omega
    · have := ih₂ h; omega
  | opt r _ =>
    intro s e h
    obtain ⟨w, -, hp, -⟩ := run_inv _ h
    simp only [minLen]; omega
  | cap n r ih =>
    intro s e h
    rw [mem_run_cap] at h
    obtain ⟨m, hm, rfl⟩ := h
    exact ih (e := m) hm

/-- A successful search splits the text as `a ++ x ++ b`, where `x` is the match
and the matcher, started after `a`, ends before `b`; and there is no match
further to the left. -/
theorem exec_eq_some {ic : Bool} {r : Re} {t : JSString} {m : Match}
    (h : exec ic r t = some m) :
    ∃ a b e, t = a ++ m.text ++ b ∧ m.index = a.length ∧
      e ∈ run ic r ⟨a.length, a.getLast?, m.text ++ b, []⟩ ∧ e.rest = b ∧
      e.pos = a.length + m.text.length ∧ e.prev = (m.text.getLast?).or a.getLast? ∧
      ∀ j, j < a.length → run ic r ⟨j, (t.take j).getLast?, t.drop j, []⟩ = [] := by
  unfold exec at h
  have h' := (searchFrom_eq_some ic r m t []).mp (by simpa using h)
  obtain ⟨k, hk, hm, hleft⟩ := h'
  simp only [List.length_nil, Nat.zero_add, List.nil_append] at hm hleft
  obtain ⟨e, he, -, hmeq⟩ := matchAt_eq_some hm
  obtain ⟨w, hw, hpos, hprev⟩ := run_inv _ he
  dsimp only at hw hpos hprev
  have htext : m.text = w := by
    rw [hmeq]
    dsimp only
    rw [hpos, Nat.add_sub_cancel_left, hw, List.take_left]
  have hidx : m.index = k := by rw [hmeq]
  have hlen : (t.take k).length = k := by
    rw [List.length_take]; omega
  refine ⟨t.take k, e.rest, e, ?_, by rw [hidx, hlen], ?_, rfl, ?_, ?_, ?_⟩
  · rw [htext, List.append_assoc, ← hw, List.take_append_drop]
  · rw [hlen, htext, ← hw]
    exact he
  · rw [hlen, htext, hpos]
  · rw [htext, hprev]
  · intro j hj
    rw [hlen] at hj
    exact matchAt_eq_none.mp (hleft j hj)

/-- Removing the first match: either there is none and the text is unchanged, or
the text is `a ++ x ++ b` with the match `x`, and the result is `a ++ b`. -/
theorem replaceFirst_cases (ic : Bool) (r : Re) (t : JSString) :
    (exec ic r t = none ∧ replaceFirst ic r [] t = t) ∨
      ∃ a x b e, t = a ++ x ++ b ∧ replaceFirst ic r [] t = a ++ b ∧
        e ∈ run ic r ⟨a.length, a.getLast?, x ++ b, []⟩ ∧ e.rest = b ∧
        e.pos = a.length + x.length ∧ e.prev = (x.getLast?).or a.getLast? := by
  cases h : exec ic r t with
  | none =>
    left
    exact ⟨rfl, by unfold replaceFirst; rw [h]⟩
  | some m =>
    right
    obtain ⟨a, b, e, ht, hidx, he, hrest, hpos, hprev, -⟩ := exec_eq_some h
    refine ⟨a, m.text, b, e, ht, ?_, he, hrest, hpos, hprev⟩
    unfold replaceFirst
    rw [h]
    dsimp only
    rw [hidx, List.append_nil]
    conv_lhs => rw [ht]
    rw [List.append_assoc, List.take_left, ← List.drop_drop, List.drop_left, List.drop_left]

/-- An expression whose matches are not empty: removing its first match changes
nothing exactly when there is no match. -/
theorem exec_eq_none_of_replaceFirst_eq {ic : Bool} {r : Re} {t : JSString}
    (hr : 0 < minLen r) (h : replaceFirst ic r [] t = t) : exec ic r t = none := by
  rcases replaceFirst_cases ic r t with ⟨hn, -⟩ | ⟨a, x, b, e, ht, hrep, he, -, hpos, -⟩
  · exact hn
  · exfalso
    have hmin := run_minLen r he
    dsimp only at hmin
    have hlen := congrArg List.length (h.symm.trans hrep)
    rw [ht] at hlen
    simp only [List.length_append] at hlen
    omega

/-! ## The display title is a fixed point of the cleanup rules -/

theorem cleanupPass_fixed {d : JSString} (h : cleanupPass d = d) :
    trim d = d ∧ replaceFirst false trailingSeparator [] d = d ∧
      replaceFirst true platformRegex [] d = d ∧ replaceFirst false trailingOpen [] d = d := by
  unfold cleanupPass at h
  dsimp only at h
  have c1 := replaceFirst_nil_sublist false trailingSeparator d
  have c2 := trim_sublist (replaceFirst false trailingSeparator [] d)
  have c3 := replaceFirst_nil_sublist true platformRegex
    (trim (replaceFirst false trailingSeparator [] d))
  have c4 := trim_sublist (replaceFirst true platformRegex []
    (trim (replaceFirst false trailingSeparator [] d)))
  have c5 := replaceFirst_nil_sublist false trailingOpen (trim (replaceFirst true platformRegex []
    (trim (replaceFirst false trailingSeparator [] d))))
  have c6 := trim_sublist (replaceFirst false trailingOpen [] (trim (replaceFirst true
    platformRegex [] (trim (replaceFirst false trailingSeparator [] d)))))
  rw [h] at c6
  have e1 : replaceFirst false trailingSeparator [] d = d :=
    c1.antisymm (c6.trans (c5.trans (c4.trans (c3.trans c2))))
  rw [e1] at c2 c3 c4 c5 c6 h
  have e2 : trim d = d := c2.antisymm (c6.trans (c5.trans (c4.trans c3)))
  rw [e2] at c3 c4 c5 c6 h
  have e3 : replaceFirst true platformRegex [] d = d := c3.antisymm (c6.trans (c5.trans c4))
  rw [e3, e2] at c5 c6 h
  exact ⟨e2, e1, e3, c5.antisymm c6⟩

theorem dropWhile_length_lt {p : Nat → Bool} {c : Nat} (cs : List Nat) (h : p c = true) :
    ((c :: cs).dropWhile p).length < (c :: cs).length := by
  rw [List.dropWhile_cons_of_pos h]
  have := (List.dropWhile_sublist (l := cs) p).length_le
  simp only [List.length_cons]
  omega

/-- A trimmed text neither starts nor ends with white space. -/
theorem trim_eq_self {d : JSString} (h : trim d = d) :
    (∀ c, d.head? = some c → isSpace c = false) ∧
      (∀ c, d.getLast? = some c → isSpace c = false) := by
  unfold trim at h
  have h1 := (List.dropWhile_sublist (l := d) isSpace)
  have h2 := (List.dropWhile_sublist (l := (d.dropWhile isSpace).reverse) isSpace)
  have hl := congrArg List.length h
  rw [List.length_reverse] at hl
  have hl1 := h1.length_le
  have hl2 := h2.length_le
  rw [List.length_reverse] at hl2
  have hd : d.dropWhile isSpace = d := h1.eq_of_length (by omega)
  rw [hd] at h hl
  constructor
  · intro c hc
    cases d with
    | nil => cases hc
    | cons x xs =>
      simp only [List.head?_cons, Option.some.injEq] at hc
      subst hc
      by_contra hsp
      have := dropWhile_length_lt xs (Bool.eq_true_of_not_eq_false hsp)
      rw [hd] at this
      omega
  · intro c hc
    have hr : d.reverse.head? = some c := by rw [List.head?_reverse]; exact hc
    cases hrev : d.reverse with
    | nil => rw [hrev] at hr; cases hr
    | cons x xs =>
      rw [hrev] at hr hl
      simp only [List.head?_cons, Option.some.injEq] at hr
      subst hr
      by_contra hsp
      have := dropWhile_length_lt xs (Bool.eq_true_of_not_eq_false hsp)
      have hlen : (x :: xs).length = d.length := by rw [← hrev, List.length_reverse]
      omega

theorem run_seqs_cons_of {ic : Bool} {r : Re} {rs : List Re} {s m e : St}
    (h₁ : m ∈ run ic r s) (h₂ : e ∈ run ic (seqs rs) m) : e ∈ run ic (seqs (r :: rs)) s :=
  mem_run_seqs_cons.mpr ⟨m, h₁, h₂⟩

theorem run_star_nil {ic : Bool} {a : Atom} (s : St) : s ∈ run ic (.star a) s :=
  mem_run_star.mpr ⟨[], rfl, (fun _ h => by cases h), rfl, rfl, rfl⟩

theorem take_drop_of_append (pre R : JSString) :
    (pre ++ R).take pre.length = pre ∧ (pre ++ R).drop pre.length = R :=
  ⟨List.take_left _ _, List.drop_left _ _⟩

/-- A match of the expression started after `pre` makes `test` succeed. -/
theorem test_of_run {ic : Bool} {r : Re} {pre R : JSString} {e : St}
    (h : e ∈ run ic r ⟨pre.length, pre.getLast?, R, []⟩) : test ic r (pre ++ R) = true := by
  rw [test_eq_true]
  refine ⟨pre.length, e, by simp, ?_⟩
  rw [List.take_left, List.drop_left]
  exact h

theorem separator_test :
    ∀ c, c ∈ [45, 124, 58, 8211, 8212] →
      Atom.test false (.cls false [(45, 45), (124, 124), (58, 58), (8211, 8211), (8212, 8212)]) c =
        true := by decide

theorem open_test :
    ∀ c, c ∈ [40, 91] → Atom.test false (.cls false [(40, 40), (91, 91)]) c = true := by decide

theorem getLast?_eq_some_append {d : JSString} {c : Nat} (h : d.getLast? = some c) :
    ∃ init, d = init ++ [c] := by
  have hne : d ≠ [] := by
    intro hd
    rw [hd] at h
    cases h
  refine ⟨d.dropLast, ?_⟩
  have := List.dropLast_append_getLast? c (by simpa using h)
  exact this.symm

theorem not_ends_with_separator {d : JSString}
    (h : exec false trailingSeparator d = none) (c : Nat) (hc : d.getLast? = some c) :
    c ∉ [45, 124, 58, 8211, 8212] := by
  intro hmem
  obtain ⟨init, rfl⟩ := getLast?_eq_some_append hc
  have ht : test false trailingSeparator (init ++ [c]) = true := by
    apply test_of_run (e := ⟨init.length + 1, some c, [], []⟩)
    unfold trailingSeparator
    refine run_seqs_cons_of (mem_run_one.mpr ⟨c, [], rfl, separator_test c hmem, rfl⟩) ?_
    refine run_seqs_cons_of (run_star_nil _) ?_
    simp only [seqs]
    exact mem_run_eos.mpr ⟨rfl, rfl⟩
  unfold test at ht
  rw [h] at ht
  cases ht

theorem not_ends_with_open {d : JSString}
    (h : exec false trailingOpen d = none) (c : Nat) (hc : d.getLast? = some c) :
    c ∉ [40, 91] := by
  intro hmem
  obtain ⟨init, rfl⟩ := getLast?_eq_some_append hc
  have ht : test false trailingOpen (init ++ [c]) = true := by
    apply test_of_run (e := ⟨init.length + 1, some c, [], []⟩)
    unfold trailingOpen
    refine run_seqs_cons_of (mem_run_one.mpr ⟨c, [], rfl, open_test c hmem, rfl⟩) ?_
    simp only [seqs]
    exact mem_run_eos.mpr ⟨rfl, rfl⟩
  unfold test at ht
  rw [h] at ht
  cases ht

theorem platformNames_head :
    ∀ p, p ∈ platformNames → ∃ a, (str p).head? = some a ∧ isUpper (canon a) = true := by
  decide

theorem space_test (ic : Bool) (c : Nat) : Atom.test ic .space c = isSpace c := rfl

/-- A text that ends with a platform name standing after a non-word position,
then white space, then possibly one of the suffix words, is matched by
`platformRegex`. -/
theorem test_platformRegex_of_phrase {pre name ws phrase : JSString}
    (hpre : isWordOpt pre.getLast? = false)
    (hname : ∃ p, p ∈ platformNames ∧ eqIgnoringCase name (str p) = true)
    (hws : ∀ c, c ∈ ws → isSpace c = true)
    (hphrase : phrase = [] ∨ ∃ q, q ∈ platformSuffixes ∧ eqIgnoringCase phrase (str q) = true) :
    test true platformRegex (pre ++ (name ++ (ws ++ phrase))) = true := by
  obtain ⟨p, hp, hpeq⟩ := hname
  obtain ⟨a, ha, hau⟩ := platformNames_head p hp
  have hhead : isWordOpt name.head? = true := by
    have := (head?_getLast?_of_eqIgnoringCase hpeq).1
    rw [ha] at this
    exact isWordOpt_of_canon this hau
  have hR : (name ++ (ws ++ phrase)).head? = name.head? := by
    cases name with
    | nil => cases hhead
    | cons c cs => rfl
  let s₀ : St := ⟨pre.length, pre.getLast?, name ++ (ws ++ phrase), []⟩
  let m₁ : St := ⟨pre.length + name.length, (name.getLast?).or pre.getLast?, ws ++ phrase, []⟩
  let s₁ : St := { m₁ with caps := (1, s₀.rest.take (m₁.pos - s₀.pos)) :: m₁.caps }
  let s₂ : St := ⟨s₁.pos + ws.length, (ws.getLast?).or s₁.prev, phrase, s₁.caps⟩
  have h5 : s₁ ∈ run true (.cap 1 (words ["netflix", "amazon", "hulu", "disney", "hotstar",
      "zee5", "sony", "appletv", "hbo", "prime"])) s₀ :=
    mem_run_cap.mpr ⟨m₁, (mem_run_wordsOf (by simp)).mpr
      ⟨p, hp, mem_run_lit_ic.mpr ⟨name, rfl, hpeq, rfl, rfl, rfl⟩⟩, rfl⟩
  have h6 : s₂ ∈ run true (.star .space) s₁ :=
    mem_run_star.mpr ⟨ws, rfl, (fun c hc => by rw [space_test]; exact hws c hc), rfl, rfl, rfl⟩
  have h7 : ∃ s₃, s₃ ∈ run true (.opt (.cap 2 (words ["original", "series", "web series",
      "tv show"]))) s₂ ∧ s₃.rest = [] := by
    rcases hphrase with hnil | ⟨q, hq, hqeq⟩
    · exact ⟨s₂, mem_run_opt.mpr (Or.inr rfl), hnil⟩
    · let m₃ : St := ⟨s₂.pos + phrase.length, (phrase.getLast?).or s₂.prev, [], s₂.caps⟩
      refine ⟨{ m₃ with caps := (2, s₂.rest.take (m₃.pos - s₂.pos)) :: m₃.caps },
        mem_run_opt.mpr (Or.inl (mem_run_cap.mpr ⟨m₃, (mem_run_wordsOf (by simp)).mpr
          ⟨q, hq, mem_run_lit_ic.mpr ⟨phrase, (List.append_nil _).symm, hqeq, rfl, rfl, rfl⟩⟩,
          rfl⟩)), rfl⟩
  obtain ⟨s₃, h7, hrest⟩ := h7
  apply test_of_run (e := s₃)
  unfold platformRegex
  refine run_seqs_cons_of (run_star_nil _) ?_
  refine run_seqs_cons_of (mem_run_opt.mpr (Or.inr rfl)) ?_
  refine run_seqs_cons_of (run_star_nil _) ?_
  refine run_seqs_cons_of (m := s₀) (mem_run_wordB.mpr ⟨rfl, ?_⟩) ?_
  · dsimp only
    rw [hR, hhead, hpre]
    decide
  refine run_seqs_cons_of h5 ?_
  refine run_seqs_cons_of h6 ?_
  refine run_seqs_cons_of h7 ?_
  refine run_seqs_cons_of (run_star_nil _) ?_
  simp only [seqs]
  exact mem_run_eos.mpr ⟨rfl, hrest⟩

theorem minLen_cleanup :
    0 < minLen trailingSeparator ∧ 0 < minLen platformRegex ∧ 0 < minLen trailingOpen := by
  decide

theorem extractDisplayTitle_wednesday :
    extractDisplayTitle
      (str ("Download Wednesday – Netflix Original (2022) Season 1 Dual Audio " ++
        "\x7bHindi-English\x7d 480p | 720p | 1080p WEB-DL")) (str "series") =
      some (str "Wednesday") := by
  decide!

/-- C16. The display title that `extractDisplayTitle` returns is a fixed point of
the three cleanup rules and of `trim`: it neither starts nor ends with white
space, does not end with a hyphen, vertical bar, colon, en dash or em dash, does
not end with `(` or `[`, and does not end with a whole-word platform name (in any
case) optionally followed by `original`, `series`, `web series` or `tv show`.  The
title `Download Wednesday – Netflix Original (2022) Season 1 ...` of the test
runner yields `Wednesday`. -/
theorem display_title_fixed_point (title type : JSString) :
    (∃ d, extractDisplayTitle title type = some d ∧
      cleanupPass d = d ∧ trim d = d ∧
      replaceFirst false trailingSeparator [] d = d ∧
      replaceFirst true platformRegex [] d = d ∧
      replaceFirst false trailingOpen [] d = d ∧
      (∀ c, d.head? = some c → isSpace c = false) ∧
      (∀ c, d.getLast? = some c →
        isSpace c = false ∧ c ∉ [45, 124, 58, 8211, 8212] ∧ c ∉ [40, 91]) ∧
      (∀ pre name ws phrase, d = pre ++ (name ++ (ws ++ phrase)) →
        isWordOpt pre.getLast? = false →
        (∃ p, p ∈ platformNames ∧ eqIgnoringCase name (str p) = true) →
        (∀ c, c ∈ ws → isSpace c = true) →
        ¬ (phrase = [] ∨ ∃ q, q ∈ platformSuffixes ∧ eqIgnoringCase phrase (str q) = true))) ∧
      extractDisplayTitle
        (str ("Download Wednesday – Netflix Original (2022) Season 1 Dual Audio " ++
          "\x7bHindi-English\x7d 480p | 720p | 1080p WEB-DL")) (str "series") =
        some (str "Wednesday") := by
  refine ⟨?_, extractDisplayTitle_wednesday⟩
  obtain ⟨d, hd⟩ := extractDisplayTitle_isSome title type
  have hfix := cleanupPass_extractDisplayTitle hd
  obtain ⟨htrim, hsep, hplat, hopen⟩ := cleanupPass_fixed hfix
  have nsep := exec_eq_none_of_replaceFirst_eq minLen_cleanup.1 hsep
  have nplat := exec_eq_none_of_replaceFirst_eq minLen_cleanup.2.1 hplat
  have nopen := exec_eq_none_of_replaceFirst_eq minLen_cleanup.2.2 hopen
  refine ⟨d, hd, hfix, htrim, hsep, hplat, hopen, (trim_eq_self htrim).1, ?_, ?_⟩
  · intro c hc
    exact ⟨(trim_eq_self htrim).2 c hc, not_ends_with_separator nsep c hc,
      not_ends_with_open nopen c hc⟩
  · intro pre name ws phrase hsplit hpre hname hws hphrase
    have ht := test_platformRegex_of_phrase hpre hname hws hphrase
    rw [← hsplit] at ht
    unfold test at ht
    rw [nplat] at ht
    cases ht

/-! ## A match inside a part of the title is a match in the title -/

theorem getLast?_append_eq (a w : JSString) :
    (a ++ w).getLast? = (w.getLast?).or a.getLast? := by
  cases w using List.reverseRecOn with
  | nil => simp
  | append_singleton ws c =>
    rw [← List.append_assoc, List.getLast?_append, List.getLast?_append]
    simp

theorem take_add_of_drop {d w y : JSString} {k : Nat} (hk : k ≤ d.length)
    (h : d.drop k = w ++ y) :
    d.take (k + w.length) = d.take k ++ w ∧ d.drop (k + w.length) = y ∧
      k + w.length ≤ d.length := by
  have hd : d = d.take k ++ (w ++ y) := by rw [← h, List.take_append_drop]
  have hlen : (d.take k).length = k := by rw [List.length_take]; omega
  refine ⟨?_, ?_, ?_⟩
  · conv_lhs => rw [hd]
    rw [← List.append_assoc]
    have : k + w.length = (d.take k ++ w).length := by rw [List.length_append, hlen]
    rw [this, List.take_left]
  · rw [← List.drop_drop, h, List.drop_left]
  · have := congrArg List.length hd
    rw [List.length_append, List.length_append, hlen] at this
    omega

/-- The end states of a run on `d` alone are states of `d`. -/
theorem run_subState {ic : Bool} {r : Re} {d : JSString} {k : Nat} {c : List (Nat × JSString)}
    {e : St} (hk : k ≤ d.length) (h : e ∈ run ic r (subState d k c)) :
    ∃ k', k ≤ k' ∧ k' ≤ d.length ∧ e = subState d k' e.caps := by
  obtain ⟨w, hw, hpos, hprev⟩ := run_inv r h
  simp only [subState] at hw hpos hprev
  obtain ⟨h1, h2, h3⟩ := take_add_of_drop hk hw
  refine ⟨k + w.length, by omega, h3, ?_⟩
  obtain ⟨p, v, rest, caps⟩ := e
  simp only [subState, St.mk.injEq, and_true]
  dsimp only at hpos hprev h2
  refine ⟨hpos, ?_, h2.symm⟩
  rw [hprev, h1, getLast?_append_eq]

theorem bool_ne_of {a b : Bool} (ha : a = false) (hb : b = true) : a ≠ b := by
  rw [ha, hb]; decide

theorem bool_ne_of' {a b : Bool} (ha : a = true) (hb : b = false) : a ≠ b := by
  rw [ha, hb]; decide

theorem bool_false_or_false {a b : Bool} (h : a ≠ b) : a = false ∨ b = false := by
  cases a <;> cases b <;> simp_all

/-- A word boundary seen in `d` alone is a word boundary in the title. -/
theorem wordB_lift {pre d post : JSString} (hclean : CleanIn pre d post) {k : Nat}
    (hk : k ≤ d.length)
    (h : isWordOpt (d.take k).getLast? ≠ isWordOpt (d.drop k).head?) :
    isWordOpt (pre ++ d.take k).getLast? ≠ isWordOpt (d.drop k ++ post).head? := by
  by_cases ht : d.take k = []
  · have hk0 : k = 0 ∨ d = [] := by
      rcases Nat.eq_zero_or_pos k with h0 | hp
      · exact Or.inl h0
      · right
        cases d with
        | nil => rfl
        | cons x xs =>
          cases k with
          | zero => omega
          | succ k => simp at ht
    have hdrop : d.drop k = d := by
      rcases hk0 with h0 | hd
      · rw [h0]; rfl
      · rw [hd]; simp
    rw [ht] at h ⊢
    rw [hdrop] at h ⊢
    have hw : isWordOpt d.head? = true := by
      cases hx : isWordOpt d.head? with
      | false => rw [hx] at h; exact absurd rfl h
      | true => rfl
    have hne : d ≠ [] := by
      intro hd
      rw [hd] at hw
      cases hw
    have hhead : (d ++ post).head? = d.head? := by
      cases d with
      | nil => exact absurd rfl hne
      | cons x xs => rfl
    rw [List.append_nil, hhead, hw]
    rcases hclean.1 with h1 | h1
    · rw [h1]; decide
    · rw [h1] at hw; cases hw
  · have hprev : (pre ++ d.take k).getLast? = (d.take k).getLast? := by
      rw [getLast?_append_eq, getLast?_or_of_ne_nil ht]
    rw [hprev]
    by_cases hd : d.drop k = []
    · have hkd : d.length ≤ k := by
        have := congrArg List.length hd
        rw [List.length_drop] at this
        simp only [List.length_nil] at this
        omega
      have htake : d.take k = d := List.take_of_length_le hkd
      rw [hd] at h ⊢
      rw [htake] at h ⊢
      have hw : isWordOpt d.getLast? = true := by
        cases hx : isWordOpt d.getLast? with
        | false => rw [hx] at h; exact absurd rfl h
        | true => rfl
      rw [List.nil_append, hw]
      rcases hclean.2 with h1 | h1
      · rw [h1] at hw; cases hw
      · rw [h1]; decide
    · have hhead : (d.drop k ++ post).head? = (d.drop k).head? := by
        cases hx : d.drop k with
        | nil => exact absurd hx hd
        | cons x xs => rfl
      rw [hhead]
      exact h

/-- A run of an expression without anchors on `d` alone can be replayed at the
same place inside `pre ++ d ++ post`, when `d` cuts no word there. -/
theorem run_lift {ic : Bool} {pre d post : JSString} (hclean : CleanIn pre d post) (r : Re) :
    anchorFree r = true →
    ∀ (k k' : Nat) (c c' c₁ : List (Nat × JSString)), k ≤ d.length → k' ≤ d.length →
      subState d k' c' ∈ run ic r (subState d k c) →
      ∃ c₁', ctxState pre d post k' c₁' ∈ run ic r (ctxState pre d post k c₁) := by
  induction r with
  | eps =>
    intro _ k k' c c' c₁ hk hk' h
    rw [mem_run_eps] at h
    have hkk : k' = k := congrArg St.pos h
    subst hkk
    exact ⟨c₁, mem_run_eps.mpr rfl⟩
  | one a =>
    intro _ k k' c c' c₁ hk hk' h
    rw [mem_run_one] at h
    obtain ⟨c₀, cs, hrest, htest, he⟩ := h
    have hkk : k' = k + 1 := congrArg St.pos he
    subst hkk
    simp only [subState] at hrest
    obtain ⟨h1, h2, -⟩ := take_add_of_drop (w := [c₀]) (y := cs) hk hrest
    simp only [List.length_singleton] at h1 h2
    refine ⟨c₁, mem_run_one.mpr ⟨c₀, cs ++ post, ?_, htest, ?_⟩⟩
    · simp only [ctxState, hrest]; rfl
    · simp only [ctxState, St.mk.injEq, and_true]
      refine ⟨by omega, ?_, by rw [h2]⟩
      rw [h1, ← List.append_assoc, List.getLast?_append]
      rfl
  | star a =>
    intro _ k k' c c' c₁ hk hk' h
    rw [mem_run_star] at h
    obtain ⟨w, hw, hall, hpos, -, -⟩ := h
    simp only [subState] at hw hpos
    subst hpos
    obtain ⟨h1, -, -⟩ := take_add_of_drop hk hw
    refine ⟨c₁, mem_run_star.mpr ⟨w, ?_, hall, ?_, ?_, rfl⟩⟩
    · simp only [ctxState]
      rw [hw, List.append_assoc]
    · simp only [ctxState]; omega
    · simp only [ctxState]
      rw [h1, ← List.append_assoc, getLast?_append_eq]
  | wordB =>
    intro _ k k' c c' c₁ hk hk' h
    rw [mem_run_wordB] at h
    obtain ⟨he, hcond⟩ := h
    have hkk : k' = k := congrArg St.pos he
    subst hkk
    exact ⟨c₁, mem_run_wordB.mpr ⟨rfl, wordB_lift hclean hk hcond⟩⟩
  | bos => intro h; cases h
  | eos => intro h; cases h
  | seq r₁ r₂ ih₁ ih₂ =>
    intro ha k k' c c' c₁ hk hk' h
    simp only [anchorFree, Bool.and_eq_true] at ha
    rw [mem_run_seq] at h
    obtain ⟨m, hm, he⟩ := h
    obtain ⟨k'', hk1, hk2, hmeq⟩ := run_subState hk hm
    rw [hmeq] at hm he
    obtain ⟨c₂, h₁⟩ := ih₁ ha.1 k k'' c m.caps c₁ hk hk2 hm
    obtain ⟨c₃, h₂⟩ := ih₂ ha.2 k'' k' m.caps c' c₂ hk2 hk' he
    exact ⟨c₃, mem_run_seq.mpr ⟨_, h₁, h₂⟩⟩
  | alt r₁ r₂ ih₁ ih₂ =>
    intro ha k k' c c' c₁ hk hk' h
    simp only [anchorFree, Bool.and_eq_true] at ha
    rw [mem_run_alt] at h
    rcases h with h | h
    · obtain ⟨c₂, h₁⟩ := ih₁ ha.1 k k' c c' c₁ hk hk' h
      exact ⟨c₂, mem_run_alt.mpr (Or.inl h₁)⟩
    · obtain ⟨c₂, h₁⟩ := ih₂ ha.2 k k' c c' c₁ hk hk' h
      exact ⟨c₂, mem_run_alt.mpr (Or.inr h₁)⟩
  | opt r ih =>
    intro ha k k' c c' c₁ hk hk' h
    simp only [anchorFree] at ha
    rw [mem_run_opt] at h
    rcases h with h | h
    · obtain ⟨c₂, h₁⟩ := ih ha k k' c c' c₁ hk hk' h
      exact ⟨c₂, mem_run_opt.mpr (Or.inl h₁)⟩
    · have hkk : k' = k := congrArg St.pos h
      subst hkk
      exact ⟨c₁, mem_run_opt.mpr (Or.inr rfl)⟩
  | cap n r ih =>
    intro ha k k' c c' c₁ hk hk' h
    simp only [anchorFree] at ha
    rw [mem_run_cap] at h
    obtain ⟨m, hm, he⟩ := h
    obtain ⟨k'', hk1, hk2, hmeq⟩ := run_subState hk hm
    have hkk : k' = k'' := by
      have h1 := congrArg St.pos he
      have h2 := congrArg St.pos hmeq
      simp only [subState] at h1 h2
      omega
    subst hkk
    rw [hmeq] at hm
    obtain ⟨c₂, h₁⟩ := ih ha k k' c m.caps c₁ hk hk2 hm
    exact ⟨_, mem_run_cap.mpr ⟨_, h₁, rfl⟩⟩

/-! ## The cutoff index -/

theorem foldl_cutoff (t : JSString) (l : List (Bool × Re)) :
    ∀ init : Nat,
      l.foldl
          (fun cut p =>
            match exec p.1 p.2 t with
            | some m => if m.index < cut then m.index else cut
            | none => cut) init ≤ init ∧
        (∀ p, p ∈ l → ∀ m, exec p.1 p.2 t = some m →
          l.foldl
            (fun cut p =>
              match exec p.1 p.2 t with
              | some m => if m.index < cut then m.index else cut
              | none => cut) init ≤ m.index) ∧
        (l.foldl
            (fun cut p =>
              match exec p.1 p.2 t with
              | some m => if m.index < cut then m.index else cut
              | none => cut) init = init ∨
          ∃ p, p ∈ l ∧ ∃ m, exec p.1 p.2 t = some m ∧
            m.index = l.foldl
              (fun cut p =>
                match exec p.1 p.2 t with
                | some m => if m.index < cut then m.index else cut
                | none => cut) init) := by
  induction l with
  | nil =>
    intro init
    exact ⟨Nat.le_refl _, (fun p hp => by cases hp), Or.inl rfl⟩
  | cons q qs ih =>
    intro init
    rw [List.foldl_cons]
    cases hq : exec q.1 q.2 t with
    | none =>
      dsimp only
      obtain ⟨h1, h2, h3⟩ := ih init
      refine ⟨h1, ?_, ?_⟩
      · intro p hp m hm
        rcases List.mem_cons.mp hp with rfl | hp'
        · rw [hq] at hm; cases hm
        · exact h2 p hp' m hm
      · rcases h3 with h3 | ⟨p, hp, m, hm, hidx⟩
        · exact Or.inl h3
        · exact Or.inr ⟨p, List.mem_cons_of_mem _ hp, m, hm, hidx⟩
    | some mq =>
      dsimp only
      by_cases hlt : mq.index < init
      · rw [if_pos hlt]
        obtain ⟨h1, h2, h3⟩ := ih mq.index
        refine ⟨by omega, ?_, ?_⟩
        · intro p hp m hm
          rcases List.mem_cons.mp hp with rfl | hp'
          · rw [hq] at hm
            cases hm
            exact h1
          · exact h2 p hp' m hm
        · rcases h3 with h3 | ⟨p, hp, m, hm, hidx⟩
          · exact Or.inr ⟨q, List.mem_cons_self _ _, mq, hq, h3.symm⟩
          · exact Or.inr ⟨p, List.mem_cons_of_mem _ hp, m, hm, hidx⟩
      · rw [if_neg hlt]
        obtain ⟨h1, h2, h3⟩ := ih init
        refine ⟨h1, ?_, ?_⟩
        · intro p hp m hm
          rcases List.mem_cons.mp hp with rfl | hp'
          · rw [hq] at hm
            cases hm
            omega
          · exact h2 p hp' m hm
        · rcases h3 with h3 | ⟨p, hp, m, hm, hidx⟩
          · exact Or.inl h3
          · exact Or.inr ⟨p, List.mem_cons_of_mem _ hp, m, hm, hidx⟩

theorem cutoffIndex_le (t : JSString) : cutoffIndex t ≤ t.length :=
  (foldl_cutoff t cutoffPatterns t.length).1

/-- The cutoff index is at most the index of any match of a cutoff pattern. -/
theorem cutoffIndex_le_match {t : JSString} {p : Bool × Re} (hp : p ∈ cutoffPatterns)
    {j : Nat} (hj : j ≤ t.length) {e : St}
    (he : e ∈ run p.1 p.2 ⟨j, (t.take j).getLast?, t.drop j, []⟩) : cutoffIndex t ≤ j := by
  cases hx : exec p.1 p.2 t with
  | none =>
    have := exec_eq_none.mp hx j hj
    rw [this] at he
    cases he
  | some m =>
    have h1 := (foldl_cutoff t cutoffPatterns t.length).2.1 p hp m hx
    obtain ⟨a, b, e', -, hidx, -, -, -, -, hleft⟩ := exec_eq_some hx
    have : m.index ≤ j := by
      by_contra hlt
      have := hleft j (by omega)
      rw [this] at he
      cases he
    exact Nat.le_trans h1 this

theorem isWordChar_40 : isWordChar 40 = false := by decide
theorem isWordChar_91 : isWordChar 91 = false := by decide

/-- A match of a cutoff pattern never starts between two word characters. -/
theorem cutoffPatterns_start {p : Bool × Re} (hp : p ∈ cutoffPatterns) {s e : St}
    (he : e ∈ run p.1 p.2 s) :
    isWordOpt s.prev = false ∨ isWordOpt s.rest.head? = false := by
  simp only [cutoffPatterns, List.mem_cons, List.mem_singleton, List.not_mem_nil,
    or_false] at hp
  rcases hp with rfl | rfl | rfl | rfl
  · rw [mem_run_seqs_cons] at he
    obtain ⟨m, hm, -⟩ := he
    rw [mem_run_lit] at hm
    right
    rw [hm.1]
    exact isWordChar_40
  · rw [mem_run_seqs_cons] at he
    obtain ⟨m, hm, -⟩ := he
    rw [mem_run_lit] at hm
    right
    rw [hm.1]
    exact isWordChar_91
  · rw [mem_run_seqs_cons] at he
    obtain ⟨m, hm, -⟩ := he
    rw [mem_run_wordB] at hm
    exact bool_false_or_false hm.2
  · rw [mem_run_seqs_cons] at he
    obtain ⟨m, hm, -⟩ := he
    rw [mem_run_wordB] at hm
    exact bool_false_or_false hm.2

theorem cutoffPatterns_shape :
    ∀ p, p ∈ cutoffPatterns → 0 < minLen p.2 ∧ anchorFree p.2 = true := by decide

theorem cleanIn_nil (d : JSString) : CleanIn [] d [] := ⟨Or.inl rfl, Or.inr rfl⟩

/-- The title up to the cutoff index cuts no word. -/
theorem cleanPart_cutoff (t : JSString) :
    CleanPart t (cutoffIndex t) (t.take (cutoffIndex t)) := by
  refine ⟨[], t.drop (cutoffIndex t), by simp, by simp, Or.inl rfl, ?_⟩
  rcases (foldl_cutoff t cutoffPatterns t.length).2.2 with h | ⟨p, hp, m, hm, hidx⟩
  · right
    have : cutoffIndex t = t.length := h
    rw [this, List.drop_length]
    rfl
  · have hc : m.index = cutoffIndex t := hidx
    obtain ⟨a, b, e, ht, hia, he, -, -, -, -⟩ := exec_eq_some hm
    have hstart := cutoffPatterns_start hp he
    dsimp only at hstart
    have h1 : t.take (cutoffIndex t) = a := by
      rw [← hc, hia]
      conv_lhs => rw [ht, List.append_assoc]
      exact List.take_left _ _
    have h2 : t.drop (cutoffIndex t) = m.text ++ b := by
      rw [← hc, hia]
      conv_lhs => rw [ht, List.append_assoc]
      exact List.drop_left _ _
    rw [h1, h2]
    exact hstart

/-! ## Cutting without cutting a word -/

theorem isWordChar_of_isSpace {c : Nat} (h : isSpace c = true) : isWordChar c = false := by
  simp only [isSpace, Bool.or_eq_true, Bool.and_eq_true, decide_eq_true_eq, beq_iff_eq] at h
  simp only [isWordChar, isLower, isUpper, isDigit, Bool.or_eq_false_iff, Bool.and_eq_false_iff,
    decide_eq_false_iff_not, beq_eq_false_iff_ne]
  omega

theorem isWordOpt_of_all_space {l : JSString} (h : ∀ c, c ∈ l → isSpace c = true) :
    isWordOpt l.getLast? = false ∧ isWordOpt l.head? = false := by
  constructor
  · cases hl : l.getLast? with
    | none => rfl
    | some c => exact isWordChar_of_isSpace (h c (List.mem_of_getLast?_eq_some hl))
  · cases hl : l.head? with
    | none => rfl
    | some c => exact isWordChar_of_isSpace (h c (List.mem_of_mem_head? hl))

theorem cut_refl (d : JSString) : Cut d d := ⟨[], [], by simp, cleanIn_nil d⟩

theorem head?_append_of_ne_nil {a : JSString} (h : a ≠ []) (b : JSString) :
    (a ++ b).head? = a.head? := by
  cases a with
  | nil => exact absurd rfl h
  | cons x xs => rfl

/-- Cutting a part out of a part. -/
theorem cleanIn_comp {pre d post a d' b : JSString} (h : CleanIn pre d post)
    (hd : d = a ++ d' ++ b) (h' : CleanIn a d' b) : CleanIn (pre ++ a) d' (b ++ post) := by
  constructor
  · by_cases ha : a = []
    · subst ha
      rw [List.append_nil]
      rcases h.1 with h1 | h1
      · exact Or.inl h1
      · right
        by_cases hd' : d' = []
        · rw [hd']; rfl
        · rw [hd, List.nil_append, head?_append_of_ne_nil hd'] at h1
          exact h1
    · rw [getLast?_append_eq, getLast?_or_of_ne_nil ha]
      exact h'.1
  · by_cases hb : b = []
    · subst hb
      rw [List.nil_append]
      rcases h.2 with h1 | h1
      · left
        by_cases hd' : d' = []
        · rw [hd']; rfl
        · rw [hd, List.append_nil, getLast?_append_eq, getLast?_or_of_ne_nil hd'] at h1
          exact h1
      · exact Or.inr h1
    · rw [head?_append_of_ne_nil hb]
      exact h'.2

theorem cut_trans {d d' d'' : JSString} (h₁ : Cut d d') (h₂ : Cut d' d'') : Cut d d'' := by
  obtain ⟨a, b, hd, hc⟩ := h₁
  obtain ⟨a', b', hd', hc'⟩ := h₂
  refine ⟨a ++ a', b' ++ b, ?_, cleanIn_comp hc hd' hc'⟩
  rw [hd, hd']
  simp only [List.append_assoc]

theorem cleanPart_cut {t : JSString} {n : Nat} {d d' : JSString} (h : CleanPart t n d)
    (hc : Cut d d') : CleanPart t n d' := by
  obtain ⟨pre, post, ht, hlen, hclean⟩ := h
  obtain ⟨a, b, hd, hc'⟩ := hc
  refine ⟨pre ++ a, b ++ post, ?_, ?_, cleanIn_comp hclean hd hc'⟩
  · rw [ht, hd]
    simp only [List.append_assoc]
  · rw [hd] at hlen
    simp only [List.length_append] at hlen ⊢
    omega

theorem cut_trim (s : JSString) : Cut s (trim s) := by
  unfold trim
  refine ⟨s.takeWhile isSpace, ((s.dropWhile isSpace).reverse.takeWhile isSpace).reverse,
    ?_, ?_, ?_⟩
  · have h1 := List.takeWhile_append_dropWhile isSpace s
    have h2 := List.takeWhile_append_dropWhile isSpace (s.dropWhile isSpace).reverse
    have h3 := congrArg List.reverse h2
    rw [List.reverse_append, List.reverse_reverse] at h3
    rw [List.append_assoc, h3, h1]
  · left
    exact (isWordOpt_of_all_space (fun c hc => (List.mem_takeWhile_imp hc))).1
  · right
    refine (isWordOpt_of_all_space (fun c hc => ?_)).2
    rw [List.mem_reverse] at hc
    exact List.mem_takeWhile_imp hc

/-- Removing a match that reaches the end of the text and does not start between
two word characters. -/
theorem cut_suffix {ic : Bool} {r : Re} (s : JSString)
    (hend : ∀ {s₀ e : St}, e ∈ run ic r s₀ → e.rest = [])
    (hstart : ∀ {s₀ e : St}, e ∈ run ic r s₀ →
      isWordOpt s₀.prev = false ∨ isWordOpt s₀.rest.head? = false) :
    Cut s (replaceFirst ic r [] s) := by
  rcases replaceFirst_cases ic r s with ⟨-, h⟩ | ⟨a, x, b, e, hs, hrep, he, hrest, -, -⟩
  · rw [h]; exact cut_refl s
  · have hb : b = [] := by rw [← hrest]; exact hend he
    subst hb
    rw [hrep, List.append_nil]
    refine ⟨[], x, by rw [hs]; simp, Or.inl rfl, ?_⟩
    have := hstart he
    dsimp only at this
    rw [List.append_nil] at this
    exact this

theorem run_ends_eos {ic : Bool} (rs : List Re) {s e : St}
    (h : e ∈ run ic (seqs (rs ++ [.eos])) s) : e.rest = [] := by
  rw [mem_run_seqs_append] at h
  obtain ⟨m, -, he⟩ := h
  simp only [seqs] at he
  rw [mem_run_eos] at he
  rw [he.1]
  exact he.2

theorem separator_nonword {c : Nat}
    (h : Atom.test false
      (.cls false [(45, 45), (124, 124), (58, 58), (8211, 8211), (8212, 8212)]) c = true) :
    isWordChar c = false := by
  have hc : c = 45 ∨ c = 124 ∨ c = 58 ∨ c = 8211 ∨ c = 8212 := by
    simp only [Atom.test, inRange, List.any_cons, List.any_nil, Bool.false_and, Bool.or_false,
      Bool.false_bne, Bool.or_eq_true, Bool.and_eq_true, decide_eq_true_eq] at h
    omega
  rcases hc with rfl | rfl | rfl | rfl | rfl <;> decide

theorem open_nonword {c : Nat}
    (h : Atom.test false (.cls false [(40, 40), (91, 91)]) c = true) :
    isWordChar c = false := by
  have hc : c = 40 ∨ c = 91 := by
    simp only [Atom.test, inRange, List.any_cons, List.any_nil, Bool.false_and, Bool.or_false,
      Bool.false_bne, Bool.or_eq_true, Bool.and_eq_true, decide_eq_true_eq] at h
    omega
  rcases hc with rfl | rfl <;> decide

theorem dashBar_nonword {c : Nat}
    (h : Atom.test true (.cls false [(45, 45), (124, 124)]) c = true) :
    isWordChar c = false := by
  have hc : c = 45 ∨ c = 124 := by
    simp only [Atom.test, inRange, List.any_cons, List.any_nil, Bool.or_false,
      Bool.false_bne, Bool.or_eq_true, Bool.and_eq_true, decide_eq_true_eq, Bool.true_and,
      isLower, isUpper] at h
    omega
  rcases hc with rfl | rfl <;> decide

theorem head?_of_all_space {w y : JSString} (hw : ∀ c, c ∈ w → isSpace c = true)
    (hne : w ≠ []) : isWordOpt (w ++ y).head? = false := by
  rw [head?_append_of_ne_nil hne]
  exact (isWordOpt_of_all_space hw).2

theorem separator_cut (s : JSString) : Cut s (replaceFirst false trailingSeparator [] s) := by
  apply cut_suffix
  · intro s₀ e he
    exact run_ends_eos [.one (.cls false [(45, 45), (124, 124), (58, 58), (8211, 8211),
      (8212, 8212)]), .star .space] he
  · intro s₀ e he
    unfold trailingSeparator at he
    rw [mem_run_seqs_cons] at he
    obtain ⟨m, hm, -⟩ := he
    rw [mem_run_one] at hm
    obtain ⟨c, cs, hrest, htest, -⟩ := hm
    right
    rw [hrest]
    exact separator_nonword htest

theorem open_cut (s : JSString) : Cut s (replaceFirst false trailingOpen [] s) := by
  apply cut_suffix
  · intro s₀ e he
    exact run_ends_eos [.one (.cls false [(40, 40), (91, 91)])] he
  · intro s₀ e he
    unfold trailingOpen at he
    rw [mem_run_seqs_cons] at he
    obtain ⟨m, hm, -⟩ := he
    rw [mem_run_one] at hm
    obtain ⟨c, cs, hrest, htest, -⟩ := hm
    right
    rw [hrest]
    exact open_nonword htest

theorem platform_cut (s : JSString) : Cut s (replaceFirst true platformRegex [] s) := by
  apply cut_suffix
  · intro s₀ e he
    exact run_ends_eos [.star .space, .opt (.one (.cls false [(45, 45), (124, 124)])),
      .star .space, .wordB,
      .cap 1 (words ["netflix", "amazon", "hulu", "disney", "hotstar", "zee5", "sony",
        "appletv", "hbo", "prime"]),
      .star .space,
      .opt (.cap 2 (words ["original", "series", "web series", "tv show"])),
      .star .space] he
  · intro s₀ e he
    unfold platformRegex at he
    rw [mem_run_seqs_cons] at he
    obtain ⟨m₁, hm₁, he⟩ := he
    rw [mem_run_star] at hm₁
    obtain ⟨w₁, hw₁, hall₁, -, hprev₁, -⟩ := hm₁
    by_cases hne₁ : w₁ = []
    swap
    · right
      rw [hw₁]
      exact head?_of_all_space (fun c hc => by rw [← space_test true]; exact hall₁ c hc)
        hne₁
    subst hne₁
    simp only [List.nil_append, List.getLast?_nil, Option.none_or] at hw₁ hprev₁
    rw [mem_run_seqs_cons] at he
    obtain ⟨m₂, hm₂, he⟩ := he
    rw [mem_run_opt] at hm₂
    rcases hm₂ with hm₂ | hm₂
    · rw [mem_run_one] at hm₂
      obtain ⟨c, cs, hrest, htest, -⟩ := hm₂
      right
      rw [hw₁, hrest]
      exact dashBar_nonword htest
    subst hm₂
    rw [mem_run_seqs_cons] at he
    obtain ⟨m₃, hm₃, he⟩ := he
    rw [mem_run_star] at hm₃
    obtain ⟨w₃, hw₃, hall₃, -, hprev₃, -⟩ := hm₃
    by_cases hne₃ : w₃ = []
    swap
    · right
      rw [hw₁, hw₃]
      exact head?_of_all_space (fun c hc => by rw [← space_test true]; exact hall₃ c hc)
        hne₃
    subst hne₃
    simp only [List.nil_append, List.getLast?_nil, Option.none_or] at hw₃ hprev₃
    rw [mem_run_seqs_cons] at he
    obtain ⟨m₄, hm₄, -⟩ := he
    rw [mem_run_wordB] at hm₄
    have := bool_false_or_false hm₄.2
    rw [hprev₃, hprev₁, ← hw₃, ← hw₁] at this
    exact this

theorem mem_run_plus_space {ic : Bool} {s e : St} (h : e ∈ run ic (plus .space) s) :
    ∃ c, e.prev = some c ∧ isSpace c = true := by
  unfold plus at h
  rw [mem_run_seq] at h
  obtain ⟨m, hm, he⟩ := h
  rw [mem_run_one] at hm
  obtain ⟨c, cs, -, hc, rfl⟩ := hm
  rw [mem_run_star] at he
  obtain ⟨w, -, hall, -, hprev, -⟩ := he
  dsimp only at hprev
  cases hl : w.getLast? with
  | none =>
    rw [hl] at hprev
    exact ⟨c, hprev, hc⟩
  | some x =>
    rw [hl] at hprev
    exact ⟨x, hprev, hall x (List.mem_of_getLast?_eq_some hl)⟩

theorem download_cut (s : JSString) : Cut s (replaceFirst true downloadPrefix [] s) := by
  rcases replaceFirst_cases true downloadPrefix s with
    ⟨-, h⟩ | ⟨a, x, b, e, hs, hrep, he, -, -, hprev⟩
  · rw [h]; exact cut_refl s
  · unfold downloadPrefix at he
    rw [mem_run_seqs_cons] at he
    obtain ⟨m₁, hm₁, he⟩ := he
    rw [mem_run_bos] at hm₁
    obtain ⟨rfl, hpos⟩ := hm₁
    dsimp only at hpos
    have ha : a = [] := List.length_eq_zero.mp hpos
    subst ha
    rw [mem_run_seqs_cons] at he
    obtain ⟨m₂, -, he⟩ := he
    simp only [seqs] at he
    obtain ⟨c, hc, hsp⟩ := mem_run_plus_space he
    rw [hrep, List.nil_append]
    refine ⟨x, [], by rw [hs]; simp, ?_, Or.inr rfl⟩
    left
    rw [hprev, List.getLast?_nil, Option.or_none] at hc
    rw [hc]
    exact isWordChar_of_isSpace hsp

theorem cleanupPass_cut (s : JSString) : Cut s (cleanupPass s) := by
  unfold cleanupPass
  exact cut_trans (separator_cut s) <| cut_trans (cut_trim _) <|
    cut_trans (platform_cut _) <| cut_trans (cut_trim _) <|
    cut_trans (open_cut _) (cut_trim _)

theorem iterate_cleanupPass_cut (n : Nat) (s : JSString) : Cut s (cleanupPass^[n] s) := by
  induction n generalizing s with
  | zero => exact cut_refl s
  | succ n ih =>
    rw [Function.iterate_succ_apply]
    exact cut_trans (cleanupPass_cut s) (ih _)

/-- The display title is a part of the title that ends at the cutoff index at the
latest and cuts no word of the title. -/
theorem cleanPart_extractDisplayTitle {title type d : JSString}
    (h : extractDisplayTitle title type = some d) : CleanPart title (cutoffIndex title) d := by
  unfold extractDisplayTitle at h
  obtain ⟨n, -, hr, -, -⟩ := cleanupLoop_eq_some _ _ _ _ h
  rw [hr]
  exact cleanPart_cut (cleanPart_cutoff title)
    (cut_trans (cut_trim _) (cut_trans (download_cut _) (iterate_cleanupPass_cut n _)))

/-- C20. The display title that `extractDisplayTitle` returns is a contiguous
substring of the title, placed before the cutoff index, and no boundary pattern
matches in it: no year in parentheses or square brackets, no whole-word `season`
or `s<digits>`, no whole-word `episode` or `ep <digits>`, in any case.  The
stripping of the prefix and of the suffixes never creates such a match. -/
theorem display_title_no_boundary (title type : JSString) :
    ∃ d, extractDisplayTitle title type = some d ∧
      (∃ pre post, title = pre ++ d ++ post ∧ (pre ++ d).length ≤ cutoffIndex title) ∧
      ∀ p, p ∈ cutoffPatterns → test p.1 p.2 d = false := by
  obtain ⟨d, hd⟩ := extractDisplayTitle_isSome title type
  obtain ⟨pre, post, ht, hlen, hclean⟩ := cleanPart_extractDisplayTitle hd
  refine ⟨d, hd, ⟨pre, post, ht, hlen⟩, ?_⟩
  intro p hp
  obtain ⟨hmin, hfree⟩ := cutoffPatterns_shape p hp
  cases htest : test p.1 p.2 d with
  | false => rfl
  | true =>
    exfalso
    obtain ⟨k, e, hk, he⟩ := test_eq_true.mp htest
    have he' : e ∈ run p.1 p.2 (subState d k []) := he
    obtain ⟨k', hk1, hk2, heq⟩ := run_subState hk he'
    have hmin' := run_minLen p.2 he'
    rw [heq] at he' hmin'
    simp only [subState] at hmin'
    obtain ⟨c₁, hlift⟩ := run_lift hclean p.2 hfree k k' [] e.caps [] hk hk2 he'
    have hstate : ctxState pre d post k [] =
        ⟨pre.length + k, (title.take (pre.length + k)).getLast?,
          title.drop (pre.length + k), []⟩ := by
      simp only [ctxState, St.mk.injEq, and_true, true_and]
      rw [ht, List.append_assoc]
      constructor
      · rw [List.take_append, List.take_append_eq_append_take]
        have : k - d.length = 0 := by omega
        rw [this, List.take_zero, List.append_nil]
      · rw [List.drop_append, List.drop_append_eq_append_drop]
        have : k - d.length = 0 := by omega
        rw [this, List.drop_zero]
    rw [hstate] at hlift
    have hjl : pre.length + k ≤ title.length := by
      rw [ht]
      simp only [List.length_append]
      omega
    have hcut := cutoffIndex_le_match hp hjl hlift
    rw [List.length_append] at hlen
    omega

/-! ## The confidence score in double arithmetic -/

/-- The doubles of the literals 0.4, 0.3 and 0.1, and the first sums of the source
in double arithmetic: 0.4 + 0.3 is the double 0.7, 0.7 + 0.1 is the double
0.7999999999999999 (one unit in the last place below the double 0.8), and
0.1 + 0.1 + 0.1 is the double 0.30000000000000004. -/
theorem double_values :
    toDouble (4 / 10) = 3602879701896397 / 2 ^ 53 ∧
      toDouble (3 / 10) = 5404319552844595 / 2 ^ 54 ∧
      toDouble (1 / 10) = 3602879701896397 / 2 ^ 55 ∧
      addDouble (toDouble (4 / 10)) (toDouble (3 / 10)) = toDouble (7 / 10) ∧
      addDouble (toDouble (7 / 10)) (toDouble (1 / 10)) = 7205759403792793 / 2 ^ 53 ∧
      toDouble (8 / 10) = 7205759403792794 / 2 ^ 53 ∧
      addDouble (addDouble (toDouble (1 / 10)) (toDouble (1 / 10))) (toDouble (1 / 10)) =
        5404319552844596 / 2 ^ 54 ∧
      toDouble 1 = 1 := by
  decide!

/-- The double sums of the weights, one for each combination of the four
conditions (the term of the type is always there): what the steps of
`calculateConfidence` compute, and its distance to the exact decimal sum. -/
theorem confidence_table (p₁ p₂ p₃ p₄ : Prop) [Decidable p₁] [Decidable p₂] [Decidable p₃]
    [Decidable p₄] :
    min
        (if p₄ then
          addDouble
            (if p₃ then
              addDouble
                (addDouble
                  (if p₂ then
                    addDouble (if p₁ then addDouble 0 (toDouble (4 / 10)) else 0)
                      (toDouble (3 / 10))
                  else if p₁ then addDouble 0 (toDouble (4 / 10)) else 0)
                  (toDouble (1 / 10)))
                (toDouble (1 / 10))
            else
              addDouble
                (if p₂ then
                  addDouble (if p₁ then addDouble 0 (toDouble (4 / 10)) else 0)
                    (toDouble (3 / 10))
                else if p₁ then addDouble 0 (toDouble (4 / 10)) else 0)
                (toDouble (1 / 10)))
            (toDouble (1 / 10))
        else if p₃ then
          addDouble
            (addDouble
              (if p₂ then
                addDouble (if p₁ then addDouble 0 (toDouble (4 / 10)) else 0)
                  (toDouble (3 / 10))
              else if p₁ then addDouble 0 (toDouble (4 / 10)) else 0)
              (toDouble (1 / 10)))
            (toDouble (1 / 10))
        else
          addDouble
            (if p₂ then
              addDouble (if p₁ then addDouble 0 (toDouble (4 / 10)) else 0)
                (toDouble (3 / 10))
            else if p₁ then addDouble 0 (toDouble (4 / 10)) else 0)
            (toDouble (1 / 10)))
        (toDouble 1) =
      addDouble (addDouble (addDouble (addDouble (addDouble 0
        (if p₁ then toDouble (4 / 10) else 0))
        (if p₂ then toDouble (3 / 10) else 0))
        (toDouble (1 / 10)))
        (if p₃ then toDouble (1 / 10) else 0))
        (if p₄ then toDouble (1 / 10) else 0) ∧
    (1 / 10 + (if p₁ then 4 / 10 else 0) + (if p₂ then 3 / 10 else 0) +
        (if p₃ then 1 / 10 else 0) + (if p₄ then 1 / 10 else 0) : ℚ) - 1 / 2 ^ 53 ≤
      addDouble (addDouble (addDouble (addDouble (addDouble 0
        (if p₁ then toDouble (4 / 10) else 0))
        (if p₂ then toDouble (3 / 10) else 0))
        (toDouble (1 / 10)))
        (if p₃ then toDouble (1 / 10) else 0))
        (if p₄ then toDouble (1 / 10) else 0) ∧
    addDouble (addDouble (addDouble (addDouble (addDouble 0
        (if p₁ then toDouble (4 / 10) else 0))
        (if p₂ then toDouble (3 / 10) else 0))
        (toDouble (1 / 10)))
        (if p₃ then toDouble (1 / 10) else 0))
        (if p₄ then toDouble (1 / 10) else 0) ≤
      (1 / 10 + (if p₁ then 4 / 10 else 0) + (if p₂ then 3 / 10 else 0) +
        (if p₃ then 1 / 10 else 0) + (if p₄ then 1 / 10 else 0) : ℚ) + 1 / 2 ^ 53 ∧
    1 / 10 ≤
      addDouble (addDouble (addDouble (addDouble (addDouble 0
        (if p₁ then toDouble (4 / 10) else 0))
        (if p₂ then toDouble (3 / 10) else 0))
        (toDouble (1 / 10)))
        (if p₃ then toDouble (1 / 10) else 0))
        (if p₄ then toDouble (1 / 10) else 0) ∧
    addDouble (addDouble (addDouble (addDouble (addDouble 0
        (if p₁ then toDouble (4 / 10) else 0))
        (if p₂ then toDouble (3 / 10) else 0))
        (toDouble (1 / 10)))
        (if p₃ then toDouble (1 / 10) else 0))
        (if p₄ then toDouble (1 / 10) else 0) < 1 ∧
    (addDouble (addDouble (addDouble (addDouble (addDouble 0
        (if p₁ then toDouble (4 / 10) else 0))
        (if p₂ then toDouble (3 / 10) else 0))
        (toDouble (1 / 10)))
        (if p₃ then toDouble (1 / 10) else 0))
        (if p₄ then toDouble (1 / 10) else 0) = 9007199254740991 / 9007199254740992 ↔
      p₁ ∧ p₂ ∧ p₃ ∧ p₄) := by
  by_cases h1 : p₁ <;> by_cases h2 : p₂ <;> by_cases h3 : p₃ <;> by_cases h4 : p₄ <;>
    simp only [h1, h2, h3, h4, if_true, if_false, and_true, and_false, true_and, false_and] <;>
    decide!

/-- The record `parse` returns for `Dune (2021) Hindi 1080p`. -/
theorem parse_dune_hindi :
    parse (str "Dune (2021) Hindi 1080p") = ParseResult.record
      { display_title := str "Dune"
        machine_title := str "dune"
        canonical_key := str "dune|2021|movie"
        type := str "movie"
        year := YearField.num 2021
        season := Season.null
        part := none
        volume := none
        episode := none
        update_info :=
          { episode_added := none, volume_added := none, part_added := PartAdded.no,
            complete := none }
        languages := [str "Hindi"]
        qualities := [str "1080p"]
        platform := str "Unknown"
        confidence := 9007199254740991 / 9007199254740992 } := by
  decide!

/-- C17, refuted as stated: for `Dune (2021) Hindi 1080p` all four conditions hold
(display title `Dune`, year 2021, a quality, a language), the exact decimal sum
0.1 + 0.4 + 0.3 + 0.1 + 0.1 is 1, and the confidence is the double
0.9999999999999999, that is `1 - 2 ^ (-53)`: not the exact sum, and not 1. -/
theorem confidence_not_exact :
    ∃ r, parse (str "Dune (2021) Hindi 1080p") = ParseResult.record r ∧
      r.display_title ≠ [] ∧ r.year ≠ YearField.unknown ∧ r.qualities ≠ [] ∧
      r.languages ≠ [] ∧
      r.confidence = 1 - 1 / 2 ^ 53 ∧
      r.confidence ≠ 1 / 10 + 4 / 10 + 3 / 10 + 1 / 10 + 1 / 10 ∧ r.confidence ≠ 1 := by
  refine ⟨_, parse_dune_hindi, ?_⟩
  dsimp only
  refine ⟨by decide, by decide, by decide, by decide, ?_, ?_, ?_⟩ <;> norm_num

/-- C17, amended. The `confidence` of the record that `parse` returns on a
non-empty input is the sum in double arithmetic, each addition rounded to the
nearest double, of 0.4 when the display title is non-empty, 0.3 when the year is
known, 0.1 for the type, 0.1 when there is a quality and 0.1 when there is a
language, in this order (a term that does not apply counts as 0).  It is within
`2 ^ (-53)` of the exact decimal sum; the term of the type is always awarded, so
it is never below 0.1; it is always below 1, so the cap never applies; and it has
its greatest value, the double 0.9999999999999999, exactly when all four
conditions hold. -/
theorem confidence_double_sum (rawTitle : JSString) (r : Record)
    (h : parse rawTitle = ParseResult.record r) :
    rawTitle ≠ [] ∧
      r.confidence =
        addDouble (addDouble (addDouble (addDouble (addDouble 0
          (if r.display_title ≠ [] then toDouble (4 / 10) else 0))
          (if r.year ≠ YearField.unknown then toDouble (3 / 10) else 0))
          (toDouble (1 / 10)))
          (if r.qualities ≠ [] then toDouble (1 / 10) else 0))
          (if r.languages ≠ [] then toDouble (1 / 10) else 0) ∧
      (1 / 10 + (if r.display_title ≠ [] then 4 / 10 else 0) +
          (if r.year ≠ YearField.unknown then 3 / 10 else 0) +
          (if r.qualities ≠ [] then 1 / 10 else 0) +
          (if r.languages ≠ [] then 1 / 10 else 0) : ℚ) - 1 / 2 ^ 53 ≤ r.confidence ∧
      r.confidence ≤
        (1 / 10 + (if r.display_title ≠ [] then 4 / 10 else 0) +
          (if r.year ≠ YearField.unknown then 3 / 10 else 0) +
          (if r.qualities ≠ [] then 1 / 10 else 0) +
          (if r.languages ≠ [] then 1 / 10 else 0) : ℚ) + 1 / 2 ^ 53 ∧
      1 / 10 ≤ r.confidence ∧ r.confidence < 1 ∧
      (r.confidence = 9007199254740991 / 9007199254740992 ↔
        r.display_title ≠ [] ∧ r.year ≠ YearField.unknown ∧ r.qualities ≠ [] ∧
          r.languages ≠ []) := by
  obtain ⟨hne, d, md, -, -, rfl⟩ := parse_eq_record h
  refine ⟨hne, ?_⟩
  dsimp only
  have hty := classifyType_ne_nil (trim rawTitle)
  have hyear : (if extractYear (trim rawTitle) = str "unknown" then YearField.unknown
      else YearField.num (parseInt (extractYear (trim rawTitle)))) ≠ YearField.unknown ↔
      extractYear (trim rawTitle) ≠ str "unknown" := by
    by_cases hy : extractYear (trim rawTitle) = str "unknown" <;> simp [hy]
  have hq : md.qualities.length > 0 ↔ md.qualities ≠ [] := List.length_pos
  have hl : md.languages.length > 0 ↔ md.languages ≠ [] := List.length_pos
  have hd : (d ≠ [] ∧ d.length > 0) ↔ d ≠ [] := by
    constructor
    · exact fun h => h.1
    · exact fun h => ⟨h, List.length_pos.mpr h⟩
  unfold calculateConfidence
  dsimp only
  rw [if_pos hty]
  simp only [hyear, hq, hl, hd]
  obtain ⟨k0, k1, k2, k3, k4, k5⟩ := confidence_table (d ≠ [])
    (extractYear (trim rawTitle) ≠ str "unknown") (md.qualities ≠ []) (md.languages ≠ [])
  rw [k0]
  exact ⟨rfl, k1, k2, k3, k4, k5⟩

/-- C17 as amended, at the input `Dune (2021)`: a display title and a year, no
quality and no language; the confidence is the double 0.7999999999999999, where
the exact decimal sum is 0.8. -/
theorem confidence_double_sum_witness :
    (7205759403792793 / 9007199254740992 : ℚ) =
        addDouble (addDouble (addDouble (addDouble (addDouble 0
          (if str "Dune" ≠ [] then toDouble (4 / 10) else 0))
          (if YearField.num 2021 ≠ YearField.unknown then toDouble (3 / 10) else 0))
          (toDouble (1 / 10)))
          (if ([] : List JSString) ≠ [] then toDouble (1 / 10) else 0))
          (if ([] : List JSString) ≠ [] then toDouble (1 / 10) else 0) ∧
      (7205759403792793 / 9007199254740992 : ℚ) < 1 :=
  ⟨(confidence_double_sum (str "Dune (2021)") _ parse_dune).2.1,
    (confidence_double_sum (str "Dune (2021)") _ parse_dune).2.2.2.2.2.1⟩

end TitleParser
